import Mathlib

/-!
# ResumeBuilder 2.0 — the resume text structuring engine

A shallow embedding of `src/components/UploadEnhanceResume.jsx` (the PDF branch of
`handleFileUpload`): header pre-extraction, `extractContactInfo`,
`fallbackParseResumeText` (segmentation loop and `pushBufferToSection`), `getDotCount`
and `normalizeResumeData`.

Modelling conventions

* A JavaScript string is the list of its UTF-16 code units (`Str = List Nat`); `length`,
  `slice`, `split`, `join`, `trim`, `includes`, `startsWith`, `endsWith` act on that list.
* `toUpperCase` / `toLowerCase` are modelled on the ASCII letters and leave every other
  code unit unchanged.
* A regular expression literal is translated constructor by constructor into the syntax
  tree `Re` and run by a backtracking matcher `Re.run` that lists the successful matches
  in ECMAScript priority order (leftmost alternative first, greedy quantifiers longest
  first, lazy quantifiers shortest first).  The flag `i` is the Boolean argument `ci`.
* A loosely typed JavaScript object is a structure with `Option` fields: `none` is an
  absent property, and the truthiness test `x || y` on strings takes `y` when `x` is
  absent or empty.
-/

namespace Resume

/-! ## Strings -/

/-- A JavaScript string: the list of its UTF-16 code units. -/
abbrev Str := List Nat

/-- The code units of a (basic multilingual plane) string literal. -/
def str (s : String) : Str := s.data.map Char.toNat

def isDigit (c : Nat) : Bool := 48 ≤ c && c ≤ 57

def isUpperAZ (c : Nat) : Bool := 65 ≤ c && c ≤ 90

def isLowerAZ (c : Nat) : Bool := 97 ≤ c && c ≤ 122

/-- The class `\w`. -/
def isWordChar (c : Nat) : Bool := isUpperAZ c || isLowerAZ c || isDigit c || c == 95

/-- ECMAScript LineTerminator: the code units that `.` does not match. -/
def isLineTerminator (c : Nat) : Bool := c == 10 || c == 13 || c == 0x2028 || c == 0x2029

/-- ECMAScript WhiteSpace and LineTerminator: the class `\s`, and what `trim` strips. -/
def isSpace (c : Nat) : Bool :=
  (9 ≤ c && c ≤ 13) || c == 32 || c == 160 || c == 0x1680 || (0x2000 ≤ c && c ≤ 0x200A) ||
  c == 0x2028 || c == 0x2029 || c == 0x202F || c == 0x205F || c == 0x3000 || c == 0xFEFF

def toUpperC (c : Nat) : Nat := if isLowerAZ c then c - 32 else c

def toLowerC (c : Nat) : Nat := if isUpperAZ c then c + 32 else c

/-- The method `s.toUpperCase()`. -/
def toUpperCase (s : Str) : Str := s.map toUpperC

/-- The method `s.toLowerCase()`. -/
def toLowerCase (s : Str) : Str := s.map toLowerC

/-- The method `s.trim()`. -/
def trim (s : Str) : Str := ((s.dropWhile isSpace).reverse.dropWhile isSpace).reverse

/-- The method `s.startsWith(p)`. -/
def startsWith (s p : Str) : Bool := p.isPrefixOf s

/-- The method `s.endsWith(p)`. -/
def endsWith (s p : Str) : Bool := p.reverse.isPrefixOf s.reverse

/-- The method `s.includes(sub)`. -/
def includes : Str → Str → Bool
  | [], sub => sub.isEmpty
  | c :: t, sub => sub.isPrefixOf (c :: t) || includes t sub

/-- The method `s.split(c)` for a one-character separator string `c`. -/
def splitChar (c : Nat) : Str → List Str
  | [] => [[]]
  | d :: t =>
    if d = c then [] :: splitChar c t
    else match splitChar c t with
      | [] => [[d]]
      | h :: r => (d :: h) :: r

/-- The method `xs.join(sep)`. -/
def join (sep : Str) : List Str → Str
  | [] => []
  | [x] => x
  | x :: y :: r => x ++ sep ++ join sep (y :: r)

/-- The method `s.replace(pat, '')` for a string pattern: the first occurrence of `pat`
is removed. -/
def removeFirst (pat : Str) : Str → Str
  | [] => []
  | c :: t => if pat.isPrefixOf (c :: t) then (c :: t).drop pat.length else c :: removeFirst pat t

/-- JavaScript truthiness of a string. -/
def truthy (s : Str) : Bool := !s.isEmpty

/-- The expression `a || b` on strings. -/
def orElse (a b : Str) : Str := if a.isEmpty then b else a

/-- The expression `o.field || b` where the property may be absent. -/
def optOr (a : Option Str) (b : Str) : Str := orElse (a.getD []) b

/-- The callback `word => word.charAt(0).toUpperCase() + word.slice(1).toLowerCase()`. -/
def capitalizeWord (word : Str) : Str := toUpperCase (word.take 1) ++ toLowerCase (word.drop 1)

/-- The expression `s.split(' ').map(word => ...).join(' ')`. -/
def titleCase (s : Str) : Str := join [32] ((splitChar 32 s).map capitalizeWord)

/-- The expression `role.split('|').map(part => part.split(' ').map(...).join(' ')).join(' | ')`. -/
def titleCaseRole (role : Str) : Str := join [32, 124, 32] ((splitChar 124 role).map titleCase)

/-! ## Regular expressions -/

inductive ClassItem
  | range (lo hi : Nat)
  | one (c : Nat)
  | digit
  | space
  | word

inductive Re
  | empty
  | char (c : Nat)
  | set (neg : Bool) (items : List ClassItem)
  | dot
  | bol
  | eol
  | wordBoundary
  | seq (a b : Re)
  | alt (a b : Re)
  | rep (greedy : Bool) (min : Nat) (max : Option Nat) (a : Re)
  | group (idx : Nat) (a : Re)
  | lookahead (a : Re)

/-- The matcher state: the code unit before the current position (`none` at the start of
the input), the input from the current position on, and the captures made so far. -/
structure MState where
  prev : Option Nat
  rest : Str
  caps : List (Nat × Str)
  deriving DecidableEq

/-- Whether code unit `c` is, up to canonicalisation when `ci` holds, in `lo..hi`. -/
def inRangeCI (ci : Bool) (lo hi c : Nat) : Bool :=
  (lo ≤ c && c ≤ hi) ||
  (ci && ((lo ≤ toUpperC c && toUpperC c ≤ hi) || (lo ≤ toLowerC c && toLowerC c ≤ hi)))

def ClassItem.test (ci : Bool) (c : Nat) : ClassItem → Bool
  | .range lo hi => inRangeCI ci lo hi c
  | .one d => inRangeCI ci d d c
  | .digit => isDigit c
  | .space => isSpace c
  | .word => isWordChar c

/-- Consume one code unit satisfying `p`. -/
def stepChar (p : Nat → Bool) (s : MState) : List MState :=
  match s.rest with
  | [] => []
  | d :: t => if p d then [{ s with prev := some d, rest := t }] else []

def isWordOpt : Option Nat → Bool
  | none => false
  | some c => isWordChar c

/-- The ECMAScript RepeatMatcher for `a{min,max}`: an iteration that matches the empty
string once `min` is exhausted is rejected, so `fuel` above the remaining input length
plus `min` is never used up. -/
def repLoop (ma : MState → List MState) (greedy : Bool) :
    Nat → Nat → Option Nat → MState → List MState
  | 0, mn, _, s => if mn = 0 then [s] else []
  | fuel + 1, mn, mx, s =>
    if mx = some 0 then [s] else
    let iter := (ma s).flatMap (fun s1 =>
      if mn = 0 ∧ s1.rest.length = s.rest.length then []
      else repLoop ma greedy fuel (mn - 1) (mx.map (· - 1)) s1)
    if 0 < mn then iter
    else if greedy then iter ++ [s]
    else s :: iter

/-- All the ways `r` matches at the current position, in backtracking priority order. -/
def Re.run (ci : Bool) : Re → MState → List MState
  | .empty, s => [s]
  | .char c, s => stepChar (inRangeCI ci c c) s
  | .set neg items, s => stepChar (fun d => (items.any (ClassItem.test ci d)) != neg) s
  | .dot, s => stepChar (fun d => !isLineTerminator d) s
  | .bol, s => if s.prev.isNone then [s] else []
  | .eol, s => if s.rest.isEmpty then [s] else []
  | .wordBoundary, s => if isWordOpt s.prev != isWordOpt s.rest.head? then [s] else []
  | .seq a b, s => (Re.run ci a s).flatMap (fun s1 => Re.run ci b s1)
  | .alt a b, s => Re.run ci a s ++ Re.run ci b s
  | .rep g mn mx a, s => repLoop (fun s1 => Re.run ci a s1) g (s.rest.length + mn + 1) mn mx s
  | .group i a, s => (Re.run ci a s).map (fun s1 =>
      { s1 with caps := (i, s.rest.take (s.rest.length - s1.rest.length)) :: s1.caps })
  | .lookahead a, s => match Re.run ci a s with
      | [] => []
      | s1 :: _ => [{ s with caps := s1.caps }]

/-- A literal string. -/
def Re.lit : Str → Re
  | [] => .empty
  | [c] => .char c
  | c :: cs => .seq (.char c) (Re.lit cs)

/-- Concatenation of a list of terms. -/
def Re.seqs : List Re → Re
  | [] => .empty
  | [r] => r
  | r :: rs => .seq r (Re.seqs rs)

/-- Alternation `r1|r2|...`. -/
def Re.alts : List Re → Re
  | [] => .set false []
  | [r] => r
  | r :: rs => .alt r (Re.alts rs)

/-- The quantifier `r*`. -/
def Re.star (r : Re) : Re := .rep true 0 none r

/-- The quantifier `r+`. -/
def Re.plus (r : Re) : Re := .rep true 1 none r

/-- The quantifier `r?`. -/
def Re.opt (r : Re) : Re := .rep true 0 (some 1) r

/-- The quantifier `r*?`. -/
def Re.lazyStar (r : Re) : Re := .rep false 0 none r

/-- The quantifier `r{n}`. -/
def Re.times (n : Nat) (r : Re) : Re := .rep true n (some n) r

/-- The quantifier `r{n,}`. -/
def Re.atLeast (n : Nat) (r : Re) : Re := .rep true n none r

/-- The class escapes `\d`, `\s`, `\S`, `\w`, `\D` and the ranges `[A-Z]`, `[a-z]`. -/
def Re.d : Re := .set false [.digit]

def Re.s : Re := .set false [.space]

def Re.notS : Re := .set true [.space]

def Re.notD : Re := .set true [.digit]

def Re.upper : Re := .set false [.range 65 90]

def Re.lower : Re := .set false [.range 97 122]

/-- The value of capture group `i`, `none` when the group did not participate. -/
def cap (i : Nat) (caps : List (Nat × Str)) : Option Str :=
  (caps.find? (fun p => p.1 == i)).map (fun p => p.2)

/-- The result of `exec`: the input before the match, the matched text `m[0]`, the input
after the match and the captures. -/
structure ReMatch where
  pre : Str
  matched : Str
  post : Str
  caps : List (Nat × Str)
  deriving DecidableEq

/-- The match of `r` that starts exactly at the current position, if any. -/
def matchAt (r : Re) (ci : Bool) (prev : Option Nat) (rest : Str) : Option MState :=
  (Re.run ci r ⟨prev, rest, []⟩).head?

/-- Leftmost match: `pre` holds the code units already passed, last one first. -/
def searchFrom (r : Re) (ci : Bool) : Str → Str → Option ReMatch
  | pre, [] =>
    match matchAt r ci pre.head? [] with
    | some st => some ⟨pre.reverse, [], [], st.caps⟩
    | none => none
  | pre, c :: t =>
    match matchAt r ci pre.head? (c :: t) with
    | some st => some ⟨pre.reverse, (c :: t).take ((c :: t).length - st.rest.length), st.rest, st.caps⟩
    | none => searchFrom r ci (c :: pre) t

/-- The call `s.match(r)` / `r.exec(s)` for a regular expression without the `g` flag. -/
def reMatch (r : Re) (ci : Bool) (s : Str) : Option ReMatch := searchFrom r ci [] s

/-- The call `r.test(s)`. -/
def reTest (r : Re) (ci : Bool) (s : Str) : Bool := (reMatch r ci s).isSome

/-- The call `s.replace(r, '')` for a regular expression without the `g` flag. -/
def reRemoveFirst (r : Re) (ci : Bool) (s : Str) : Str :=
  match reMatch r ci s with
  | some m => m.pre ++ m.post
  | none => s

/-- The call `s.replace(r, '')` for a regular expression with the `g` flag; `skip` counts
the code units of the current match still to be dropped. -/
def removeAllLoop (r : Re) (ci : Bool) : Nat → Option Nat → Str → Str
  | _, _, [] => []
  | skip + 1, _, c :: t => removeAllLoop r ci skip (some c) t
  | 0, prev, c :: t =>
    match matchAt r ci prev (c :: t) with
    | none => c :: removeAllLoop r ci 0 (some c) t
    | some st =>
      let n := (c :: t).length - st.rest.length
      if n = 0 then c :: removeAllLoop r ci 0 (some c) t
      else removeAllLoop r ci (n - 1) (some c) t

def reRemoveAll (r : Re) (ci : Bool) (s : Str) : Str := removeAllLoop r ci 0 none s

/-- The loop of `RegExp.prototype[Symbol.split]`: `cur` is the piece `S[p..q]` read so far
(last code unit first) and `skip` the code units of the last separator still to be
passed. -/
def splitLoop (r : Re) (ci : Bool) : Nat → Str → Option Nat → Str → List Str
  | _, cur, _, [] => [cur.reverse]
  | skip + 1, cur, _, c :: t => splitLoop r ci skip cur (some c) t
  | 0, cur, prev, c :: t =>
    match matchAt r ci prev (c :: t) with
    | none => splitLoop r ci 0 (c :: cur) (some c) t
    | some st =>
      let n := (c :: t).length - st.rest.length
      if n = 0 then
        if cur = [] then splitLoop r ci 0 [c] (some c) t
        else cur.reverse :: splitLoop r ci 0 [c] (some c) t
      else cur.reverse :: splitLoop r ci (n - 1) [] (some c) t

/-- The call `s.split(r)` for a regular expression without capture groups. -/
def reSplit (r : Re) (ci : Bool) (s : Str) : List Str :=
  match s with
  | [] => if (matchAt r ci none []).isSome then [] else [[]]
  | _ => splitLoop r ci 0 [] none s

/-! ## Data model -/

inductive SectionId
  | summary
  | skills
  | experience
  | education
  | languages
  | certifications
  | projects
  deriving DecidableEq

structure SkillGroup where
  category : Str
  items : List Str
  deriving DecidableEq

structure ExperienceEntry where
  title : Str
  companyName : Str
  date : Str
  companyLocation : Str
  accomplishment : Str
  deriving DecidableEq

structure EducationEntry where
  degree : Str
  institution : Str
  duration : Str
  location : Str
  description : Str
  deriving DecidableEq

structure LanguageEntry where
  name : Str
  level : Str
  dots : Nat
  deriving DecidableEq

/-- A certification as the parser builds it: `name` is `parts[0]`, which is `undefined`
(`none`) when the line has no non-empty part. -/
structure CertificationEntry where
  name : Option Str
  issuer : Str
  date : Str
  deriving DecidableEq

structure ProjectEntry where
  name : Str
  description : Str
  deriving DecidableEq

/-- The object `contactInfo` of `extractContactInfo`. -/
structure ContactInfo where
  name : Str
  role : Str
  phone : Str
  email : Str
  linkedin : Str
  location : Str
  deriving DecidableEq

/-- The object `sections` of `fallbackParseResumeText`. -/
structure Sections where
  summary : Str
  skills : List SkillGroup
  experience : List ExperienceEntry
  education : List EducationEntry
  languages : List LanguageEntry
  certifications : List CertificationEntry
  projects : List ProjectEntry
  name : Str
  role : Str
  phone : Str
  email : Str
  linkedin : Str
  location : Str
  deriving DecidableEq

/-! ## `getDotCount` -/

/-- The function `getDotCount(level)`. -/
def getDotCount (level : Str) : Nat :=
  let lowerLevel := toLowerCase level
  if [str "native", str "fluent", str "bilingual", str "mother tongue"].any
      (fun l => includes lowerLevel l) then 5
  else if [str "advanced", str "proficient", str "very good"].any
      (fun l => includes lowerLevel l) then 4
  else if [str "intermediate", str "conversational", str "good"].any
      (fun l => includes lowerLevel l) then 3
  else if [str "basic", str "elementary", str "beginner"].any
      (fun l => includes lowerLevel l) then 2
  else 3

/-! ## Regular expressions shared by the section parsers -/

/-- The class `[-•*]`. -/
def bulletClass : Re := .set false [.one 45, .one 0x2022, .one 42]

/-- The class `[-•●*]`. -/
def bulletClassExp : Re := .set false [.one 45, .one 0x2022, .one 0x25CF, .one 42]

/-- The pattern `/^[-•*]/`. -/
def bulletStartRe : Re := .seq .bol bulletClass

/-- The pattern `/^[-•*]\s*/`. -/
def bulletStripRe : Re := .seqs [.bol, bulletClass, .star .s]

/-- The pattern `/^[-•●*]/`. -/
def bulletStartExpRe : Re := .seq .bol bulletClassExp

/-- The pattern `/^[-•●*]\s*/`. -/
def bulletStripExpRe : Re := .seqs [.bol, bulletClassExp, .star .s]

/-- The pattern `/,|\s{2,}|\||;/`. -/
def skillSplitRe : Re := .alts [.char 44, .atLeast 2 .s, .char 124, .char 59]

/-- The pattern `/:$/`. -/
def trailingColonRe : Re := .seq (.char 58) .eol

/-- The pattern `/\d{4}/`. -/
def fourDigitsRe : Re := .times 4 .d

/-- The pattern `/^\d{4}$/`. -/
def yearOnlyRe : Re := .seqs [.bol, .times 4 .d, .eol]

/-- The alternation `Present|Current`. -/
def presentRe : Re := .alt (.lit (str "Present")) (.lit (str "Current"))

/-- The alternation `Senior|Lead|Principal|Director|Manager|Engineer|Developer`. -/
def roleWordsRe : Re :=
  .alts [.lit (str "Senior"), .lit (str "Lead"), .lit (str "Principal"), .lit (str "Director"),
    .lit (str "Manager"), .lit (str "Engineer"), .lit (str "Developer")]

/-- The pattern `/^[A-Z][a-z]+,\s*[A-Z]{2}$|^[A-Z][a-z]+,\s*[A-Z][a-z]+$/`. -/
def cityRe : Re :=
  .alt (.seqs [.bol, .upper, .plus .lower, .char 44, .star .s, .times 2 .upper, .eol])
    (.seqs [.bol, .upper, .plus .lower, .char 44, .star .s, .upper, .plus .lower, .eol])

/-! ## Skills -/

/-- The first loop of the skills branch: the lines taken as category headers. -/
def possibleCategories : List Str → List Str
  | [] => []
  | line :: rest =>
    if endsWith line (str ":") && decide (line.length < 50) then
      trim line.dropLast :: possibleCategories rest
    else if line == toUpperCase line && decide (line.length < 50) &&
        !reTest bulletStartRe false line then
      trim line :: possibleCategories rest
    else possibleCategories rest

/-- The expression
`line.replace(/^[-•*]\s*/, '').split(/,|\s{2,}|\||;/).map(s => s.trim()).filter(Boolean)`. -/
def lineItems (line : Str) : List Str :=
  ((reSplit skillSplitRe false (reRemoveFirst bulletStripRe false line)).map trim).filter truthy

/-- The variables `categories`, `currentCategory`, `currentItems` of the categorised loop. -/
structure SkillAcc where
  categories : List SkillGroup
  currentCategory : Str
  currentItems : List Str
  deriving DecidableEq

/-- The statement `if (currentCategory && currentItems.length) categories.push(...)`. -/
def SkillAcc.saved (acc : SkillAcc) : List SkillGroup :=
  if truthy acc.currentCategory && !acc.currentItems.isEmpty then
    acc.categories ++ [⟨acc.currentCategory, acc.currentItems⟩]
  else acc.categories

/-- One iteration of the categorised loop. -/
def skillStep (cats : List Str) (acc : SkillAcc) (line : Str) : SkillAcc :=
  let trimmedLine := trim line
  if cats.contains trimmedLine || cats.contains trimmedLine.dropLast then
    { categories := acc.saved
      currentCategory := reRemoveFirst trailingColonRe false trimmedLine
      currentItems := [] }
  else
    { acc with currentItems := acc.currentItems ++ lineItems trimmedLine }

/-- The skills branch of `pushBufferToSection`. -/
def parseSkills (buffer : List Str) : List SkillGroup :=
  let cats := possibleCategories buffer
  if cats.length > 0 then
    (buffer.foldl (skillStep cats) ⟨[], [], []⟩).saved
  else
    [⟨str "Skills", buffer.flatMap lineItems⟩]

/-! ## Experience -/

/-- The pattern
`/\n\n+|\n(?=\d{4}|[A-Z][a-z]+ at|[A-Z][a-z]+ \||Senior|Lead|Principal|Director|Manager|Engineer|Developer)/i`. -/
def expSplitRe : Re :=
  .alt (.seq (.char 10) (.plus (.char 10)))
    (.seq (.char 10) (.lookahead (.alts [.times 4 .d,
      .seqs [.upper, .plus .lower, .lit (str " at")],
      .seqs [.upper, .plus .lower, .lit (str " |")],
      .lit (str "Senior"), .lit (str "Lead"), .lit (str "Principal"), .lit (str "Director"),
      .lit (str "Manager"), .lit (str "Engineer"), .lit (str "Developer")])))

/-- The pattern `/^(.*?)\s+at\s+(.*?)(?:\s+\((.*?)\))?$/i`. -/
def atRe : Re :=
  .seqs [.bol, .group 1 (.lazyStar .dot), .plus .s, .lit (str "at"), .plus .s,
    .group 2 (.lazyStar .dot),
    .opt (.seqs [.plus .s, .char 40, .group 3 (.lazyStar .dot), .char 41]), .eol]

/-- The pattern `/(\d{4}\s*-\s*\d{4}|\d{4}\s*-\s*(Present|Current))/i`. -/
def dateInCompanyRe : Re :=
  .group 1 (.alt (.seqs [.times 4 .d, .star .s, .char 45, .star .s, .times 4 .d])
    (.seqs [.times 4 .d, .star .s, .char 45, .star .s, .group 2 presentRe]))

/-- The pattern
`/(\d{4}\s*-\s*\d{4}|\d{4}\s*-\s*(Present|Current)|\d{4}\s*to\s*\d{4}|\d{4}\s*to\s*(Present|Current))/i`. -/
def dateRangeRe : Re :=
  .group 1 (.alts [.seqs [.times 4 .d, .star .s, .char 45, .star .s, .times 4 .d],
    .seqs [.times 4 .d, .star .s, .char 45, .star .s, .group 2 presentRe],
    .seqs [.times 4 .d, .star .s, .lit (str "to"), .star .s, .times 4 .d],
    .seqs [.times 4 .d, .star .s, .lit (str "to"), .star .s, .group 3 presentRe]])

/-- The pattern `/\b(19|20)\d{2}\b/`. -/
def yearWordRe : Re :=
  .seqs [.wordBoundary, .group 1 (.alt (.lit (str "19")) (.lit (str "20"))), .times 2 .d,
    .wordBoundary]

/-- The pattern `/^(Senior|Lead|Principal|Director|Manager|Engineer|Developer)/i`. -/
def roleStartRe : Re := .seq .bol (.group 1 roleWordsRe)

/-- The element `xs[i]` where the source has established that it exists; `''` stands for
the string the source would read otherwise. -/
def nth (xs : List Str) (i : Nat) : Str := (xs.get? i).getD []

/-- The loop `for (const line of lines)` under `if (!date)`: the date found, and the
company cleaned of it. -/
def findDate (company : Str) : List Str → Option (Str × Str)
  | [] => none
  | line :: rest =>
    match reMatch dateRangeRe true line with
    | some m =>
      some (m.matched, if line == company then trim (removeFirst m.matched company) else company)
    | none =>
      if reTest yearWordRe false line then some (line, company)
      else findDate company rest

/-- The first line matching the `City, ST` / `City, Country` pattern, or `''`. -/
def findCity (lines : List Str) : Str := (lines.find? (fun line => reTest cityRe false line)).getD []

/-- The variables `title`, `company`, `date`, `location` after the first-line patterns. -/
structure ExpHead where
  title : Str
  company : Str
  date : Str
  location : Str
  deriving DecidableEq

/-- The first-line cascade: "Title at Company", "Title | Company", "Title, Company", default. -/
def expHead (lines : List Str) : ExpHead :=
  let firstLine := nth lines 0
  match reMatch atRe true firstLine with
  | some atMatch =>
    ⟨(cap 1 atMatch.caps).getD [], (cap 2 atMatch.caps).getD [], optOr (cap 3 atMatch.caps) [], []⟩
  | none =>
    if includes firstLine (str "|") then
      let parts := (splitChar 124 firstLine).map trim
      let company := nth parts 1
      match reMatch dateInCompanyRe true company with
      | some dateMatch =>
        ⟨nth parts 0, trim (removeFirst dateMatch.matched company), dateMatch.matched, []⟩
      | none => ⟨nth parts 0, company, [], []⟩
    else if includes firstLine (str ",") then
      let parts := (splitChar 44 firstLine).map trim
      if parts.length > 2 then
        if reTest fourDigitsRe false (nth parts 2) then ⟨nth parts 0, nth parts 1, nth parts 2, []⟩
        else ⟨nth parts 0, nth parts 1, [], nth parts 2⟩
      else ⟨nth parts 0, nth parts 1, [], []⟩
    else if lines.length > 1 then
      let company := nth lines 1
      if reTest fourDigitsRe false company then
        ⟨firstLine, if lines.length > 2 then nth lines 2 else [], company, []⟩
      else ⟨firstLine, company, [], []⟩
    else ⟨firstLine, [], [], []⟩

/-- The callback of `expItems.map(e => ...)`. -/
def parseExperienceItem (e : Str) : ExperienceEntry :=
  let lines := splitChar 10 e
  let h := expHead lines
  let dc : Str × Str :=
    if truthy h.date then (h.date, h.company)
    else match findDate h.company lines with
      | some r => r
      | none => (h.date, h.company)
  let date := dc.1
  let company := dc.2
  let location := if truthy h.location then h.location else findCity lines
  let bullets0 := ((lines.drop 1).filter (fun l => reTest bulletStartExpRe false l)).map
    (fun l => reRemoveFirst bulletStripExpRe false l)
  let bullets :=
    if bullets0.length = 0 then
      ((lines.drop 1).filter (fun l => l != company && l != date && l != location &&
        !reTest roleStartRe true l)).filter truthy
    else bullets0
  { title := h.title
    companyName := company
    date := date
    companyLocation := location
    accomplishment := orElse (join (str "\n") bullets) e }

/-- The entries `expItems` of the experience branch. -/
def expItems (buffer : List Str) : List Str :=
  ((reSplit expSplitRe true (join (str "\n") buffer)).map trim).filter truthy

/-- The experience branch of `pushBufferToSection`. -/
def parseExperience (buffer : List Str) : List ExperienceEntry :=
  (expItems buffer).map parseExperienceItem

/-! ## Education -/

/-- The pattern
`/\n\n+|\n(?=[A-Z][a-z]+ of|Bachelor|Master|PhD|B\.S\.|M\.S\.|MBA|University|College|Institute)/i`. -/
def eduSplitRe : Re :=
  .alt (.seq (.char 10) (.plus (.char 10)))
    (.seq (.char 10) (.lookahead (.alts [.seqs [.upper, .plus .lower, .lit (str " of")],
      .lit (str "Bachelor"), .lit (str "Master"), .lit (str "PhD"), .lit (str "B.S."),
      .lit (str "M.S."), .lit (str "MBA"), .lit (str "University"), .lit (str "College"),
      .lit (str "Institute")])))

/-- The pattern `/Bachelor|Master|PhD|B\.S\.|M\.S\.|MBA|Diploma|Certificate|Degree/i`. -/
def degreeRe : Re :=
  .alts [.lit (str "Bachelor"), .lit (str "Master"), .lit (str "PhD"), .lit (str "B.S."),
    .lit (str "M.S."), .lit (str "MBA"), .lit (str "Diploma"), .lit (str "Certificate"),
    .lit (str "Degree")]

/-- The pattern `/University|College|Institute|School/i`. -/
def institutionRe : Re :=
  .alts [.lit (str "University"), .lit (str "College"), .lit (str "Institute"),
    .lit (str "School")]

/-- The pattern
`/(\d{4}\s*-\s*\d{4}|\d{4}\s*to\s*\d{4}|\d{4}\s*-\s*(Present|Current)|\d{4}\s*to\s*(Present|Current)|\d{4})/i`. -/
def eduYearRe : Re :=
  .group 1 (.alts [.seqs [.times 4 .d, .star .s, .char 45, .star .s, .times 4 .d],
    .seqs [.times 4 .d, .star .s, .lit (str "to"), .star .s, .times 4 .d],
    .seqs [.times 4 .d, .star .s, .char 45, .star .s, .group 2 presentRe],
    .seqs [.times 4 .d, .star .s, .lit (str "to"), .star .s, .group 3 presentRe],
    .times 4 .d])

/-- The variables `degree`, `institution`, `duration`, `location` of an education entry. -/
structure EduVars where
  degree : Str
  institution : Str
  duration : Str
  location : Str
  deriving DecidableEq

/-- The statement `x = x.replace(yearMatch[0], '').trim(); if (x.endsWith(',')) x = x.slice(0, -1).trim()`. -/
def stripYear (year x : Str) : Str :=
  let y := trim (removeFirst year x)
  if endsWith y (str ",") then trim y.dropLast else y

/-- The first-line classification: degree keyword, institution keyword, default. -/
def eduHead (lines : List Str) : EduVars :=
  let firstLine := nth lines 0
  if reTest degreeRe true firstLine then
    ⟨firstLine, if lines.length > 1 then nth lines 1 else [], [], []⟩
  else if reTest institutionRe true firstLine then
    ⟨if lines.length > 1 then nth lines 1 else [], firstLine, [], []⟩
  else if firstLine.length < 50 then
    ⟨firstLine, if lines.length > 1 then nth lines 1 else [], [], []⟩
  else if includes firstLine (str ",") then
    let parts := (splitChar 44 firstLine).map trim
    ⟨nth parts 0, nth parts 1, [], []⟩
  else ⟨firstLine, [], [], []⟩

/-- The loop "look for duration/year in any line", which stops at the first line that
holds a year. -/
def eduYearLoop (v : EduVars) : List Str → EduVars
  | [] => v
  | line :: rest =>
    match reMatch eduYearRe true line with
    | some yearMatch =>
      let year := yearMatch.matched
      let institution := if line == v.institution then stripYear year v.institution else v.institution
      let degree :=
        if line == v.institution then v.degree
        else if line == v.degree then stripYear year v.degree else v.degree
      let locationMatch := trim (removeFirst year line)
      { degree := degree
        institution := institution
        duration := year
        location :=
          if truthy locationMatch && locationMatch != institution && locationMatch != degree then
            locationMatch
          else v.location }
    | none => eduYearLoop v rest

/-- The callback of `eduItems.map(e => ...)`. -/
def parseEducationItem (e : Str) : EducationEntry :=
  let lines := splitChar 10 e
  let v := eduYearLoop (eduHead lines) lines
  let location :=
    if truthy v.location then v.location
    else (lines.find? (fun line => reTest cityRe false line && line != v.institution &&
      line != v.degree)).getD []
  { degree := v.degree
    institution := v.institution
    duration := v.duration
    location := location
    description := join (str "\n") ((lines.drop 2).filter (fun l => l != v.duration && l != location)) }

/-- The entries `eduItems` of the education branch. -/
def eduItems (buffer : List Str) : List Str :=
  ((reSplit eduSplitRe true (join (str "\n") buffer)).map trim).filter truthy

/-- The education branch of `pushBufferToSection`. -/
def parseEducation (buffer : List Str) : List EducationEntry :=
  (eduItems buffer).map parseEducationItem

/-! ## Languages -/

/-- The pattern `/^(.*?)\s*[\(\-:]\s*(.*?)\)?$/`. -/
def levelRe : Re :=
  .seqs [.bol, .group 1 (.lazyStar .dot), .star .s, .set false [.one 40, .one 45, .one 58],
    .star .s, .group 2 (.lazyStar .dot), .opt (.char 41), .eol]

/-- The pattern
`/^([A-Za-z]+)\s+(Native|Fluent|Advanced|Intermediate|Beginner|Basic|Elementary|Proficient|Conversational)$/i`. -/
def wordLevelRe : Re :=
  .seqs [.bol, .group 1 (.plus (.set false [.range 65 90, .range 97 122])), .plus .s,
    .group 2 (.alts [.lit (str "Native"), .lit (str "Fluent"), .lit (str "Advanced"),
      .lit (str "Intermediate"), .lit (str "Beginner"), .lit (str "Basic"),
      .lit (str "Elementary"), .lit (str "Proficient"), .lit (str "Conversational")]), .eol]

/-- The helper `parseLanguage(text)`. -/
def parseLanguage (text : Str) : LanguageEntry :=
  match reMatch levelRe false text with
  | some levelMatch =>
    let name := trim ((cap 1 levelMatch.caps).getD [])
    let level := trim ((cap 2 levelMatch.caps).getD [])
    ⟨name, level, getDotCount level⟩
  | none =>
    match reMatch wordLevelRe true text with
    | some wordMatch =>
      let name := trim ((cap 1 wordMatch.caps).getD [])
      let level := trim ((cap 2 wordMatch.caps).getD [])
      ⟨name, level, getDotCount level⟩
    | none => ⟨text, [], 3⟩

/-- The expression `line.replace(/^[-•*]\s*/, '').trim()`. -/
def cleanBullet (line : Str) : Str := trim (reRemoveFirst bulletStripRe false line)

/-- The body of the loop of the languages branch: the entries one buffer line adds. -/
def languagesOfLine (line : Str) : List LanguageEntry :=
  let cleanLine := cleanBullet line
  if !truthy cleanLine then []
  else if includes cleanLine (str ",") then
    (((splitChar 44 cleanLine).map trim).filter truthy).map parseLanguage
  else [parseLanguage cleanLine]

/-- The languages branch of `pushBufferToSection`. -/
def parseLanguages (buffer : List Str) : List LanguageEntry :=
  buffer.flatMap languagesOfLine

/-! ## Certifications -/

/-- The pattern `/[,\-]$/`. -/
def trailingPunctRe : Re := .seq (.set false [.one 44, .one 45]) .eol

/-- The body of the loop of the certifications branch. -/
def certificationsOfLine (line : Str) : List CertificationEntry :=
  let cleanLine := cleanBullet line
  if !truthy cleanLine then []
  else if includes cleanLine (str ",") && decide ((splitChar 44 cleanLine).length ≤ 3) then
    let parts := ((splitChar 44 cleanLine).map trim).filter truthy
    if parts.length ≤ 3 then
      let name := parts.get? 0
      let issuer := if parts.length > 1 then nth parts 1 else []
      if truthy issuer && reTest yearOnlyRe false issuer then
        [⟨name, if parts.length > 2 then nth parts 2 else [], issuer⟩]
      else if parts.length > 2 then
        [⟨name, issuer, if reTest yearOnlyRe false (nth parts 2) then nth parts 2 else []⟩]
      else [⟨name, issuer, []⟩]
    else []
  else
    match reMatch (.group 1 fourDigitsRe) false cleanLine with
    | some dateMatch =>
      let name := trim (removeFirst dateMatch.matched cleanLine)
      [⟨some (if reTest trailingPunctRe false name then trim name.dropLast else name), [],
        dateMatch.matched⟩]
    | none => [⟨some cleanLine, [], []⟩]

/-- The certifications branch of `pushBufferToSection`. -/
def parseCertifications (buffer : List Str) : List CertificationEntry :=
  buffer.flatMap certificationsOfLine

/-! ## Projects -/

/-- A project under construction: `description` is still an array of lines. -/
structure ProjectDraft where
  name : Str
  description : List Str
  deriving DecidableEq

/-- The variables `projectItems` and `currentProject` of the projects loop. -/
structure ProjectAcc where
  projectItems : List ProjectDraft
  currentProject : Option ProjectDraft
  deriving DecidableEq

/-- The pattern `/^[A-Z]/`. -/
def capitalStartRe : Re := .seq .bol .upper

/-- One iteration of the projects loop. -/
def projectStep (acc : ProjectAcc) (line : Str) : ProjectAcc :=
  let cleanLine := trim line
  if !truthy cleanLine then acc
  else if !reTest bulletStartRe false cleanLine &&
      (decide (cleanLine.length < 100) || reTest capitalStartRe false cleanLine) then
    { projectItems := match acc.currentProject with
        | some p => acc.projectItems ++ [p]
        | none => acc.projectItems
      currentProject := some ⟨cleanLine, []⟩ }
  else match acc.currentProject with
    | some p =>
      let descLine := cleanBullet cleanLine
      if truthy descLine then
        { acc with currentProject := some { p with description := p.description ++ [descLine] } }
      else acc
    | none => acc

/-- The projects branch of `pushBufferToSection`. -/
def parseProjects (buffer : List Str) : List ProjectEntry :=
  let acc := buffer.foldl projectStep ⟨[], none⟩
  let items := match acc.currentProject with
    | some p => acc.projectItems ++ [p]
    | none => acc.projectItems
  let items :=
    if items.length = 0 ∧ buffer.length > 0 then
      ((buffer.map cleanBullet).filter truthy).map (fun cleanLine => (⟨cleanLine, []⟩ : ProjectDraft))
    else items
  items.map (fun project => ⟨project.name, join (str "\n") project.description⟩)

/-! ## `pushBufferToSection` -/

/-- The function `pushBufferToSection(section, buffer)`, as the update of `sections`. -/
def pushBufferToSection (sec : SectionId) (buffer : List Str) (sections : Sections) :
    Sections :=
  match sec with
  | .summary => { sections with summary := join (str " ") buffer }
  | .skills => { sections with skills := parseSkills buffer }
  | .experience => { sections with experience := parseExperience buffer }
  | .education => { sections with education := parseEducation buffer }
  | .languages => { sections with languages := parseLanguages buffer }
  | .certifications => { sections with certifications := parseCertifications buffer }
  | .projects => { sections with projects := parseProjects buffer }

/-! ## The heading table and the segmentation loop -/

/-- The object `sectionMap`, as its entries in insertion order. -/
def sectionMap : List (Str × SectionId) :=
  [(str "PROFESSIONAL SUMMARY", .summary),
   (str "SUMMARY", .summary),
   (str "PROFILE", .summary),
   (str "ABOUT ME", .summary),
   (str "OBJECTIVE", .summary),
   (str "CAREER OBJECTIVE", .summary),
   (str "PROFESSIONAL PROFILE", .summary),
   (str "CAREER PROFILE", .summary),
   (str "PERSONAL STATEMENT", .summary),
   (str "EXECUTIVE SUMMARY", .summary),
   (str "SKILLS", .skills),
   (str "TECHNICAL SKILLS", .skills),
   (str "CORE COMPETENCIES", .skills),
   (str "KEY SKILLS", .skills),
   (str "EXPERTISE", .skills),
   (str "PROFICIENCIES", .skills),
   (str "QUALIFICATIONS", .skills),
   (str "AREAS OF EXPERTISE", .skills),
   (str "TECHNICAL PROFICIENCIES", .skills),
   (str "SKILL SET", .skills),
   (str "EXPERIENCE", .experience),
   (str "WORK EXPERIENCE", .experience),
   (str "PROFESSIONAL EXPERIENCE", .experience),
   (str "EMPLOYMENT HISTORY", .experience),
   (str "WORK HISTORY", .experience),
   (str "CAREER HISTORY", .experience),
   (str "RELEVANT EXPERIENCE", .experience),
   (str "EMPLOYMENT", .experience),
   (str "PROFESSIONAL BACKGROUND", .experience),
   (str "EDUCATION", .education),
   (str "ACADEMIC BACKGROUND", .education),
   (str "EDUCATIONAL BACKGROUND", .education),
   (str "ACADEMIC QUALIFICATIONS", .education),
   (str "EDUCATIONAL QUALIFICATIONS", .education),
   (str "ACADEMIC HISTORY", .education),
   (str "EDUCATIONAL HISTORY", .education),
   (str "ACADEMIC CREDENTIALS", .education),
   (str "LANGUAGES", .languages),
   (str "LANGUAGE PROFICIENCY", .languages),
   (str "LANGUAGE SKILLS", .languages),
   (str "FOREIGN LANGUAGES", .languages),
   (str "CERTIFICATIONS", .certifications),
   (str "CERTIFICATES", .certifications),
   (str "PROFESSIONAL CERTIFICATIONS", .certifications),
   (str "CREDENTIALS", .certifications),
   (str "LICENSES", .certifications),
   (str "PROFESSIONAL DEVELOPMENT", .certifications),
   (str "PROJECTS", .projects),
   (str "PROJECT EXPERIENCE", .projects),
   (str "KEY PROJECTS", .projects),
   (str "PERSONAL PROJECTS", .projects),
   (str "ACADEMIC PROJECTS", .projects),
   (str "PROFESSIONAL PROJECTS", .projects)]

/-- The property read `sectionMap[key]`; the keys inherited from `Object.prototype` all
contain a lower-case letter, so an upper-cased `key` never reads one of them. -/
def lookupSection (key : Str) : Option SectionId :=
  (sectionMap.find? (fun entry => entry.1 == key)).map (fun entry => entry.2)

/-- The "exact match in section map" branch: the value given to `matchedSection`, or
`none` when the condition of the `if` fails. -/
def exactMatch (line : Str) : Option SectionId :=
  let upper := toUpperCase line
  if (lookupSection upper).isSome ||
      (endsWith line (str ":") && (lookupSection (removeFirst (str ":") upper)).isSome) then
    match lookupSection upper with
    | some sec => some sec
    | none => lookupSection (removeFirst (str ":") upper)
  else none

/-- The class `[:\-_•]` of `/[:\-_•]/g`. -/
def headingPunctRe : Re := .set false [.one 58, .one 45, .one 95, .one 0x2022]

/-- The test of the fuzzy loop for one `header` of the table. -/
def fuzzyHit (upper header : Str) : Bool :=
  let cleanLine := trim (reRemoveAll headingPunctRe false upper)
  let cleanHeader := trim (reRemoveAll headingPunctRe false header)
  startsWith cleanLine cleanHeader ||
    (includes cleanLine cleanHeader && decide (cleanLine.length < cleanHeader.length + 10))

/-- The fuzzy loop over `Object.entries(sectionMap)`, which stops at the first hit. -/
def fuzzyMatch (line : Str) : Option SectionId :=
  (sectionMap.find? (fun entry => fuzzyHit (toUpperCase line) entry.1)).map (fun entry => entry.2)

/-- The value of `matchedSection` after the exact and the fuzzy step. -/
def matchedSection (line : Str) : Option SectionId :=
  match exactMatch line with
  | some sec => some sec
  | none => fuzzyMatch line

/-- The pattern
`/^\d{4}\s*-\s*\d{4}|^\d{4}\s*-\s*(Present|Current)|^[A-Z][a-z]+ at [A-Z]|^[A-Z][a-z]+ \||^Senior|^Lead|^Principal|^Director|^Manager|^Engineer|^Developer/i`. -/
def expStartRe : Re :=
  .alts [.seqs [.bol, .times 4 .d, .star .s, .char 45, .star .s, .times 4 .d],
    .seqs [.bol, .times 4 .d, .star .s, .char 45, .star .s, .group 1 presentRe],
    .seqs [.bol, .upper, .plus .lower, .lit (str " at "), .upper],
    .seqs [.bol, .upper, .plus .lower, .lit (str " |")],
    .seq .bol (.lit (str "Senior")), .seq .bol (.lit (str "Lead")),
    .seq .bol (.lit (str "Principal")), .seq .bol (.lit (str "Director")),
    .seq .bol (.lit (str "Manager")), .seq .bol (.lit (str "Engineer")),
    .seq .bol (.lit (str "Developer"))]

/-- The pattern
`/Bachelor|Master|PhD|B\.S\.|M\.S\.|MBA|University|College|School of|Institute of/i`. -/
def eduStartRe : Re :=
  .alts [.lit (str "Bachelor"), .lit (str "Master"), .lit (str "PhD"), .lit (str "B.S."),
    .lit (str "M.S."), .lit (str "MBA"), .lit (str "University"), .lit (str "College"),
    .lit (str "School of"), .lit (str "Institute of")]

/-- The pattern `/experience|skill|language/i`. -/
def otherSectionWordRe : Re :=
  .alts [.lit (str "experience"), .lit (str "skill"), .lit (str "language")]

/-- The variables of the segmentation loop.  `flushed` is a ghost log of the calls
`pushBufferToSection(section, buffer)`, in call order. -/
structure SegState where
  sections : Sections
  currentSection : SectionId
  buffer : List Str
  flushed : List (SectionId × List Str)
  deriving DecidableEq

/-- The call `pushBufferToSection(currentSection, buffer)`. -/
def SegState.flush (st : SegState) : SegState :=
  { st with
    sections := pushBufferToSection st.currentSection st.buffer st.sections
    flushed := st.flushed ++ [(st.currentSection, st.buffer)] }

/-- The block `if (matchedSection) { ... }`: flush a non-empty buffer, start `sec`. -/
def SegState.heading (st : SegState) (sec : SectionId) : SegState :=
  let st1 := if st.buffer.length > 0 then st.flush else st
  { st1 with buffer := [], currentSection := sec }

/-- A heuristic boundary: flush, and `line` opens the buffer of `sec`. -/
def SegState.boundary (st : SegState) (sec : SectionId) (line : Str) : SegState :=
  { st.flush with buffer := [line], currentSection := sec }

/-- One iteration of the loop `for (const line of lines)`. -/
def segStep (st : SegState) (line : Str) : SegState :=
  match matchedSection line with
  | some sec => st.heading sec
  | none =>
    if reTest expStartRe true line && decide (st.buffer.length > 0) &&
        decide (st.currentSection ≠ .experience) then
      st.boundary .experience line
    else if reTest eduStartRe true line && !reTest otherSectionWordRe true line &&
        decide (st.buffer.length > 0) && decide (st.currentSection ≠ .education) then
      st.boundary .education line
    else { st with buffer := st.buffer ++ [line] }

/-- The loop and the final `if (currentSection && buffer.length) pushBufferToSection(...)`. -/
def segment (init : Sections) (lines : List Str) : SegState :=
  let st := lines.foldl segStep ⟨init, .summary, [], []⟩
  if st.buffer.length > 0 then st.flush else st

/-- The expression `text.split(/\n|\r/).map(l => l.trim()).filter(Boolean)`. -/
def textLines (text : Str) : List Str :=
  ((reSplit (.alt (.char 10) (.char 13)) false text).map trim).filter truthy

/-! ## `extractContactInfo` -/

/-- The pattern `/[\w.-]+@[\w.-]+/`. -/
def emailRe : Re :=
  .seqs [.plus (.set false [.word, .one 46, .one 45]), .char 64,
    .plus (.set false [.word, .one 46, .one 45])]

/-- The pattern `/\bemail\b|@/i`. -/
def emailHintRe : Re :=
  .alt (.seqs [.wordBoundary, .lit (str "email"), .wordBoundary]) (.char 64)

/-- The pattern `/\bphone\b|\d{10,}/i`. -/
def phoneHintRe : Re :=
  .alt (.seqs [.wordBoundary, .lit (str "phone"), .wordBoundary]) (.atLeast 10 .d)

/-- The pattern `/\+?\d[\d\s-]{8,}/`. -/
def phoneRe : Re :=
  .seqs [.opt (.char 43), .d, .atLeast 8 (.set false [.digit, .space, .one 45])]

/-- The pattern `/linkedin/i`. -/
def linkedinRe : Re := .lit (str "linkedin")

/-- The pattern `/linkedin\.com\S*/i`. -/
def linkedinUrlRe : Re := .seqs [.lit (str "linkedin"), .char 46, .lit (str "com"), .star .notS]

/-- The pattern `/\blocation\b|\bcity\b|\bstate\b|\bcountry\b|\baddress\b/i`. -/
def locationWordRe : Re :=
  .alts [.seqs [.wordBoundary, .lit (str "location"), .wordBoundary],
    .seqs [.wordBoundary, .lit (str "city"), .wordBoundary],
    .seqs [.wordBoundary, .lit (str "state"), .wordBoundary],
    .seqs [.wordBoundary, .lit (str "country"), .wordBoundary],
    .seqs [.wordBoundary, .lit (str "address"), .wordBoundary]]

/-- The pattern `/^[A-Z][a-z]+ [A-Z][a-z]+/`. -/
def firstLastRe : Re := .seqs [.bol, .upper, .plus .lower, .char 32, .upper, .plus .lower]

/-- The pattern `/\bemail\b|@|\bphone\b|\d{10,}|linkedin|\blocation\b/i`. -/
def contactHintRe : Re :=
  .alts [.seqs [.wordBoundary, .lit (str "email"), .wordBoundary], .char 64,
    .seqs [.wordBoundary, .lit (str "phone"), .wordBoundary], .atLeast 10 .d,
    .lit (str "linkedin"), .seqs [.wordBoundary, .lit (str "location"), .wordBoundary]]

/-- The body of the loop of `extractContactInfo` for `lines[i]`. -/
def contactStep (i : Nat) (line : Str) (info : ContactInfo) : ContactInfo :=
  let info :=
    if reTest emailHintRe true line then
      match reMatch emailRe true line with
      | some emailMatch => { info with email := emailMatch.matched }
      | none => info
    else info
  let info :=
    if reTest phoneHintRe true line then
      match reMatch phoneRe false line with
      | some phoneMatch => { info with phone := phoneMatch.matched }
      | none => info
    else info
  let info :=
    if reTest linkedinRe true line then
      match reMatch linkedinUrlRe true line with
      | some linkedinMatch => { info with linkedin := linkedinMatch.matched }
      | none => info
    else info
  let info :=
    if reTest locationWordRe true line then
      { info with location := trim (reRemoveFirst locationWordRe true line) }
    else info
  let info :=
    if reTest firstLastRe false line && !truthy info.name then { info with name := line }
    else info
  if (i == 1 || i == 2) && !reTest firstLastRe false line && !reTest contactHintRe true line then
    { info with role := line }
  else info

/-- The loop `for (let i = 0; i < Math.min(10, lines.length); i++)` from index `i` on. -/
def contactLoop : Nat → List Str → ContactInfo → ContactInfo
  | _, [], info => info
  | i, line :: rest, info =>
    if i < 10 then contactLoop (i + 1) rest (contactStep i line info) else info

/-- The function `extractContactInfo(text)`. -/
def extractContactInfo (text : Str) : ContactInfo :=
  contactLoop 0 (textLines text) ⟨[], [], [], [], [], []⟩

/-! ## Header pre-extraction (the start of `reader.onload`) -/

/-- The class `[A-Za-z]`. -/
def Re.letter : Re := .set false [.range 65 90, .range 97 122]

/-- The pattern `/^[A-Z][A-Za-z]+ [A-Z][A-Za-z]+$/`. -/
def headerNameRe : Re :=
  .seqs [.bol, .upper, .plus .letter, .char 32, .upper, .plus .letter, .eol]

/-- The pattern
`/(USA|United States|India|UK|Canada|Australia|Germany|France|Japan|China|Remote|New York|Cambridge|MA|NY)/i`. -/
def headerLocationRe : Re :=
  .group 1 (.alts [.lit (str "USA"), .lit (str "United States"), .lit (str "India"),
    .lit (str "UK"), .lit (str "Canada"), .lit (str "Australia"), .lit (str "Germany"),
    .lit (str "France"), .lit (str "Japan"), .lit (str "China"), .lit (str "Remote"),
    .lit (str "New York"), .lit (str "Cambridge"), .lit (str "MA"), .lit (str "NY")])

/-- The variables `name`, `role`, `phone`, `email`, `linkedin`, `location` of `reader.onload`. -/
structure Header where
  name : Str
  role : Str
  phone : Str
  email : Str
  linkedin : Str
  location : Str
  deriving DecidableEq

/-- The expression `textContent.split('\n').map(l => l.trim()).filter(Boolean)`. -/
def headerLines (textContent : Str) : List Str :=
  ((splitChar 10 textContent).map trim).filter truthy

/-- The choice of the name line and of the role line that follows it. -/
def headerNameRole (lines : List Str) : Str × Str :=
  if decide (lines.length > 0) && reTest headerNameRe false (nth lines 0) then
    (nth lines 0, if lines.length > 1 then nth lines 1 else [])
  else if decide (lines.length > 1) && reTest headerNameRe false (nth lines 1) then
    (nth lines 1, if lines.length > 2 then nth lines 2 else [])
  else
    (if lines.length > 0 then nth lines 0 else [], if lines.length > 1 then nth lines 1 else [])

/-- The body of the loop `for (let i = 2; i < Math.min(10, lines.length); i++)`. -/
def headerContactStep (h : Header) (line : Str) : Header :=
  let h :=
    if !truthy h.email && reTest (.char 64) false line then
      { h with email := match reMatch emailRe false line with
          | some m => orElse m.matched []
          | none => [] }
    else h
  let h :=
    if !truthy h.phone && reTest (.atLeast 10 .d) false (reRemoveAll .notD false line) then
      { h with phone := line }
    else h
  let h :=
    if !truthy h.linkedin && reTest linkedinRe true line then { h with linkedin := line } else h
  if !truthy h.location && reTest headerLocationRe true line then { h with location := line }
  else h

/-- The header pre-extraction of `reader.onload` (source lines 86 to 134). -/
def headerExtract (textContent : Str) : Header :=
  let lines := headerLines textContent
  let nr := headerNameRole lines
  let name := if truthy nr.1 then titleCase nr.1 else nr.1
  let role := if truthy nr.2 && nr.2 == toUpperCase nr.2 then titleCaseRole nr.2 else nr.2
  ((lines.take 10).drop 2).foldl headerContactStep ⟨name, role, [], [], [], []⟩

/-! ## `fallbackParseResumeText` -/

/-- The re-casing of a name: title case when entirely upper-case or entirely lower-case. -/
def recaseName (name : Str) : Str :=
  if truthy name && (name == toUpperCase name || name == toLowerCase name) then titleCase name
  else name

/-- The re-casing of a role: title case per `|` segment when entirely upper-case. -/
def recaseRole (role : Str) : Str :=
  if truthy role && role == toUpperCase role then titleCaseRole role else role

/-- The function `fallbackParseResumeText(text)`; `name` and `role` are the variables of
the enclosing `reader.onload` that the function reads. -/
def fallbackParseResumeText (name role : Str) (text : Str) : Sections :=
  let contactInfo := extractContactInfo text
  let formattedName := recaseName (orElse name (orElse contactInfo.name []))
  let formattedRole := recaseRole (orElse role (orElse contactInfo.role []))
  let sections : Sections :=
    { summary := []
      skills := []
      experience := []
      education := []
      languages := []
      certifications := []
      projects := []
      phone := contactInfo.phone
      email := contactInfo.email
      linkedin := contactInfo.linkedin
      location := contactInfo.location
      name := formattedName
      role := formattedRole }
  (segment sections (textLines text)).sections

/-! ## `normalizeResumeData` -/

/-- An element of `data.experience` that is an object, with the properties the normaliser
reads or writes. -/
structure ExperienceObj where
  title : Option Str
  position : Option Str
  companyName : Option Str
  company : Option Str
  date : Option Str
  duration : Option Str
  companyLocation : Option Str
  location : Option Str
  accomplishment : Option Str
  description : Option Str
  deriving DecidableEq

inductive ExperienceItem
  | text (s : Str)
  | obj (o : ExperienceObj)
  deriving DecidableEq

structure EducationObj where
  degree : Option Str
  institution : Option Str
  school : Option Str
  duration : Option Str
  date : Option Str
  location : Option Str
  description : Option Str
  deriving DecidableEq

inductive EducationItem
  | text (s : Str)
  | obj (o : EducationObj)
  deriving DecidableEq

structure SkillObj where
  category : Option Str
  items : Option (List Str)
  deriving DecidableEq

/-- The array `data.skills`: an array of strings or an array of group objects. -/
inductive SkillsValue
  | strings (xs : List Str)
  | groups (gs : List SkillObj)
  deriving DecidableEq

structure LanguageObj where
  name : Option Str
  level : Option Str
  dots : Option Nat
  deriving DecidableEq

inductive LanguageItem
  | text (s : Str)
  | obj (o : LanguageObj)
  deriving DecidableEq

structure CertificationObj where
  name : Option Str
  issuer : Option Str
  date : Option Str
  deriving DecidableEq

structure ProjectObj where
  name : Option Str
  description : Option Str
  deriving DecidableEq

/-- The object `data.contactInfo`, with the properties the normaliser reads. -/
structure ContactObj where
  name : Option Str
  role : Option Str
  phone : Option Str
  location : Option Str
  deriving DecidableEq

/-- A partially populated resume record: the argument and the result of
`normalizeResumeData`.  `none` is an absent property (for the sequence fields also a value
that is not an array). -/
structure ResumeData where
  name : Option Str
  role : Option Str
  phone : Option Str
  email : Option Str
  linkedin : Option Str
  location : Option Str
  summary : Option Str
  contactInfo : Option ContactObj
  experience : Option (List ExperienceItem)
  education : Option (List EducationItem)
  skills : Option SkillsValue
  languages : Option (List LanguageItem)
  certifications : Option (List CertificationObj)
  projects : Option (List ProjectObj)
  deriving DecidableEq

/-- The callback of `data.experience.map(exp => ...)`. -/
def normalizeExperience : ExperienceItem → ExperienceItem
  | .text exp => .obj ⟨some exp, none, some [], none, some [], none, some [], none, some [], none⟩
  | .obj exp => .obj
    { title := some (orElse (exp.title.getD []) (optOr exp.position []))
      position := none
      companyName := some (orElse (exp.companyName.getD []) (optOr exp.company []))
      company := none
      date := some (orElse (exp.date.getD []) (optOr exp.duration []))
      duration := none
      companyLocation := some (orElse (exp.companyLocation.getD []) (optOr exp.location []))
      location := none
      accomplishment := some (orElse (exp.accomplishment.getD []) (optOr exp.description []))
      description := none }

/-- The callback of `data.education.map(edu => ...)`. -/
def normalizeEducation : EducationItem → EducationItem
  | .text edu => .obj ⟨some edu, some [], none, some [], none, some [], some []⟩
  | .obj edu => .obj
    { degree := some (optOr edu.degree [])
      institution := some (orElse (edu.institution.getD []) (optOr edu.school []))
      school := none
      duration := some (orElse (edu.duration.getD []) (optOr edu.date []))
      date := none
      location := some (optOr edu.location [])
      description := some (optOr edu.description []) }

/-- The block "normalize skills". -/
def normalizeSkills : Option SkillsValue → List SkillObj
  | none => []
  | some (.strings xs) => if xs.length > 0 then [⟨some (str "Skills"), some xs⟩] else []
  | some (.groups gs) =>
    match gs with
    | [] => []
    | g :: _ =>
      if g.items.isSome then
        gs.map (fun s => ⟨some (optOr s.category (str "Skills")), some (s.items.getD [])⟩)
      else []

/-- The level-to-dots computation inlined in `normalizeResumeData`. -/
def inferDots (level : Option Str) : Nat :=
  if truthy (level.getD []) then
    let level := toLowerCase (level.getD [])
    if [str "native", str "fluent", str "bilingual", str "mother tongue"].any
        (fun l => includes level l) then 5
    else if [str "advanced", str "proficient", str "very good"].any
        (fun l => includes level l) then 4
    else if [str "intermediate", str "conversational", str "good"].any
        (fun l => includes level l) then 3
    else if [str "basic", str "elementary", str "beginner"].any
        (fun l => includes level l) then 2
    else 3
  else 3

/-- The callback of `data.languages.map(lang => ...)`. -/
def normalizeLanguage : LanguageItem → LanguageItem
  | .text lang => .obj ⟨some lang, some [], some 3⟩
  | .obj lang => .obj ⟨some (optOr lang.name []), some (optOr lang.level []), some (inferDots lang.level)⟩

/-- The expression `data.f || (data.contactInfo && data.contactInfo.f) || ''`. -/
def withContactFallback (field : Option Str) (fromContact : Option Str) : Str :=
  orElse (field.getD []) (optOr fromContact [])

/-- The function `normalizeResumeData(data)`; the returned object is
`{ ...defaultResume, ...data, name, role, phone, location, experience, education, skills, languages }`. -/
def normalizeResumeData (data : ResumeData) : ResumeData :=
  let name := recaseName (withContactFallback data.name (data.contactInfo.bind (fun c => c.name)))
  let role := recaseRole (withContactFallback data.role (data.contactInfo.bind (fun c => c.role)))
  let phone := withContactFallback data.phone (data.contactInfo.bind (fun c => c.phone))
  let location := withContactFallback data.location (data.contactInfo.bind (fun c => c.location))
  { name := some name
    role := some role
    phone := some phone
    email := some (data.email.getD [])
    linkedin := some (data.linkedin.getD [])
    location := some location
    summary := some (data.summary.getD [])
    contactInfo := data.contactInfo
    experience := some ((data.experience.getD []).map normalizeExperience)
    education := some ((data.education.getD []).map normalizeEducation)
    skills := some (.groups (normalizeSkills data.skills))
    languages := some ((data.languages.getD []).map normalizeLanguage)
    certifications := data.certifications
    projects := data.projects }

/-! ## The local extraction pipeline -/

/-- An `ExperienceEntry` as an element of `data.experience`. -/
def ExperienceEntry.toItem (e : ExperienceEntry) : ExperienceItem :=
  .obj ⟨some e.title, none, some e.companyName, none, some e.date, none, some e.companyLocation,
    none, some e.accomplishment, none⟩

/-- An `EducationEntry` as an element of `data.education`. -/
def EducationEntry.toItem (e : EducationEntry) : EducationItem :=
  .obj ⟨some e.degree, some e.institution, none, some e.duration, none, some e.location,
    some e.description⟩

/-- A `SkillGroup` as an element of `data.skills`. -/
def SkillGroup.toObj (g : SkillGroup) : SkillObj := ⟨some g.category, some g.items⟩

/-- A `LanguageEntry` as an element of `data.languages`. -/
def LanguageEntry.toItem (e : LanguageEntry) : LanguageItem :=
  .obj ⟨some e.name, some e.level, some e.dots⟩

/-- The object returned by `fallbackParseResumeText`, read as the argument `data` of
`normalizeResumeData`. -/
def Sections.toData (s : Sections) : ResumeData :=
  { name := some s.name
    role := some s.role
    phone := some s.phone
    email := some s.email
    linkedin := some s.linkedin
    location := some s.location
    summary := some s.summary
    contactInfo := none
    experience := some (s.experience.map ExperienceEntry.toItem)
    education := some (s.education.map EducationEntry.toItem)
    skills := some (.groups (s.skills.map SkillGroup.toObj))
    languages := some (s.languages.map LanguageEntry.toItem)
    certifications := some (s.certifications.map (fun c => ⟨c.name, some c.issuer, some c.date⟩))
    projects := some (s.projects.map (fun p => ⟨some p.name, some p.description⟩)) }

/-- The local extraction: header pre-extraction, then `fallbackParseResumeText` (the path
`parseResumeText` takes when the server call fails), then `normalizeResumeData`. -/
def localExtract (textContent : Str) : ResumeData :=
  let h := headerExtract textContent
  normalizeResumeData (fallbackParseResumeText h.name h.role textContent).toData

/-! ## Auxiliary definitions of the statements -/

/-- The record `sections` before any buffer is flushed, with empty header fields. -/
def emptySections : Sections := ⟨[], [], [], [], [], [], [], [], [], [], [], [], []⟩

/-- The part of the segmenter state that the loop itself reads. -/
def SegState.control (st : SegState) : SectionId × List Str × List (SectionId × List Str) :=
  (st.currentSection, st.buffer, st.flushed)

/-- The `dots` of an element of the normalised `languages`. -/
def LanguageItem.dotsOf : LanguageItem → Option Nat
  | .text _ => none
  | .obj o => o.dots

/-- The proficiency words `getDotCount` looks for. -/
def levelWords : List Str :=
  [str "native", str "fluent", str "bilingual", str "mother tongue", str "advanced",
   str "proficient", str "very good", str "intermediate", str "conversational", str "good",
   str "basic", str "elementary", str "beginner"]

/-- The empty object `{}` as an argument of `normalizeResumeData`. -/
def ResumeData.empty : ResumeData :=
  ⟨none, none, none, none, none, none, none, none, none, none, none, none, none, none⟩

/-- The eleven lines of scenario 1. -/
def scenario1Lines : List Str :=
  [str "JOHN SMITH", str "SENIOR ENGINEER", str "john@x.com", str "EXPERIENCE",
   str "Engineer at Acme (2019-2022)", str "- Built X", str "- Led Y", str "EDUCATION",
   str "B.S. Computer Science", str "MIT", str "2015-2019"]

/-- The text of scenario 1: its lines, one per line. -/
def scenario1Text : Str := join (str "\n") scenario1Lines

/-- The lines of all the buffers flushed so far, in flush order. -/
def SegState.flushedLines (st : SegState) : List Str := st.flushed.flatMap (fun p => p.2)

/-- Whether every successful match of the expression assigns capture group `i`: the group
lies on every path through sequences and alternatives, outside quantifiers and
lookaheads. -/
def Re.sets (i : Nat) : Re → Bool
  | .group j a => i == j || Re.sets i a
  | .seq a b => Re.sets i a || Re.sets i b
  | .alt a b => Re.sets i a && Re.sets i b
  | _ => false

/-! ## The section parsers with their failure points explicit

In the definitions above an array element or a capture group that the source reads and
then uses as a string is read with a default.  The definitions below read it as an
`Option`, and return `none` where the source would use `undefined` as a string (raise a
`TypeError`, or store `undefined` in a string field). -/

/-- All the values of a list of results, or `none` if one of them failed. -/
def collect {α : Type} : List (Option α) → Option (List α)
  | [] => some []
  | none :: _ => none
  | some x :: rest => (collect rest).map (fun xs => x :: xs)

/-- The first-line cascade of an experience entry, with checked reads. -/
def expHeadChecked (lines : List Str) : Option ExpHead :=
  let firstLine := nth lines 0
  match reMatch atRe true firstLine with
  | some atMatch =>
    match cap 1 atMatch.caps, cap 2 atMatch.caps with
    | some title, some company => some ⟨title, company, optOr (cap 3 atMatch.caps) [], []⟩
    | _, _ => none
  | none =>
    if includes firstLine (str "|") then
      let parts := (splitChar 124 firstLine).map trim
      match parts.get? 0, parts.get? 1 with
      | some title, some company =>
        match reMatch dateInCompanyRe true company with
        | some dateMatch =>
          some ⟨title, trim (removeFirst dateMatch.matched company), dateMatch.matched, []⟩
        | none => some ⟨title, company, [], []⟩
      | _, _ => none
    else if includes firstLine (str ",") then
      let parts := (splitChar 44 firstLine).map trim
      match parts.get? 0, parts.get? 1 with
      | some title, some company =>
        if parts.length > 2 then
          match parts.get? 2 with
          | some third =>
            if reTest fourDigitsRe false third then some ⟨title, company, third, []⟩
            else some ⟨title, company, [], third⟩
          | none => none
        else some ⟨title, company, [], []⟩
      | _, _ => none
    else if lines.length > 1 then
      match lines.get? 1 with
      | some company =>
        if reTest fourDigitsRe false company then
          if lines.length > 2 then
            (lines.get? 2).map (fun next => ⟨firstLine, next, company, []⟩)
          else some ⟨firstLine, [], company, []⟩
        else some ⟨firstLine, company, [], []⟩
      | none => none
    else some ⟨firstLine, [], [], []⟩

/-- The part of the callback of `expItems.map` after the first-line cascade. -/
def expFinish (h : ExpHead) (lines : List Str) (e : Str) : ExperienceEntry :=
  let dc : Str × Str :=
    if truthy h.date then (h.date, h.company)
    else match findDate h.company lines with
      | some r => r
      | none => (h.date, h.company)
  let date := dc.1
  let company := dc.2
  let location := if truthy h.location then h.location else findCity lines
  let bullets0 := ((lines.drop 1).filter (fun l => reTest bulletStartExpRe false l)).map
    (fun l => reRemoveFirst bulletStripExpRe false l)
  let bullets :=
    if bullets0.length = 0 then
      ((lines.drop 1).filter (fun l => l != company && l != date && l != location &&
        !reTest roleStartRe true l)).filter truthy
    else bullets0
  { title := h.title
    companyName := company
    date := date
    companyLocation := location
    accomplishment := orElse (join (str "\n") bullets) e }

/-- The experience branch, with checked reads. -/
def parseExperienceChecked (buffer : List Str) : Option (List ExperienceEntry) :=
  collect ((expItems buffer).map (fun e =>
    (expHeadChecked (splitChar 10 e)).map (fun h => expFinish h (splitChar 10 e) e)))

/-- The first-line classification of an education entry, with checked reads. -/
def eduHeadChecked (lines : List Str) : Option EduVars :=
  let firstLine := nth lines 0
  if reTest degreeRe true firstLine then
    if lines.length > 1 then (lines.get? 1).map (fun second => ⟨firstLine, second, [], []⟩)
    else some ⟨firstLine, [], [], []⟩
  else if reTest institutionRe true firstLine then
    if lines.length > 1 then (lines.get? 1).map (fun second => ⟨second, firstLine, [], []⟩)
    else some ⟨[], firstLine, [], []⟩
  else if firstLine.length < 50 then
    if lines.length > 1 then (lines.get? 1).map (fun second => ⟨firstLine, second, [], []⟩)
    else some ⟨firstLine, [], [], []⟩
  else if includes firstLine (str ",") then
    let parts := (splitChar 44 firstLine).map trim
    match parts.get? 0, parts.get? 1 with
    | some degree, some institution => some ⟨degree, institution, [], []⟩
    | _, _ => none
  else some ⟨firstLine, [], [], []⟩

/-- The part of the callback of `eduItems.map` after the first-line classification. -/
def eduFinish (h : EduVars) (lines : List Str) : EducationEntry :=
  let v := eduYearLoop h lines
  let location :=
    if truthy v.location then v.location
    else (lines.find? (fun line => reTest cityRe false line && line != v.institution &&
      line != v.degree)).getD []
  { degree := v.degree
    institution := v.institution
    duration := v.duration
    location := location
    description := join (str "\n") ((lines.drop 2).filter (fun l => l != v.duration && l != location)) }

/-- The education branch, with checked reads. -/
def parseEducationChecked (buffer : List Str) : Option (List EducationEntry) :=
  collect ((eduItems buffer).map (fun e =>
    (eduHeadChecked (splitChar 10 e)).map (fun h => eduFinish h (splitChar 10 e))))

/-- The helper `parseLanguage(text)`, where `m[1].trim()` and `m[2].trim()` fail when the
capture group is `undefined`. -/
def parseLanguageChecked (text : Str) : Option LanguageEntry :=
  match reMatch levelRe false text with
  | some levelMatch =>
    match cap 1 levelMatch.caps, cap 2 levelMatch.caps with
    | some name, some level => some ⟨trim name, trim level, getDotCount (trim level)⟩
    | _, _ => none
  | none =>
    match reMatch wordLevelRe true text with
    | some wordMatch =>
      match cap 1 wordMatch.caps, cap 2 wordMatch.caps with
      | some name, some level => some ⟨trim name, trim level, getDotCount (trim level)⟩
      | _, _ => none
    | none => some ⟨text, [], 3⟩

/-- The languages branch, with checked reads. -/
def parseLanguagesChecked (buffer : List Str) : Option (List LanguageEntry) :=
  (collect (buffer.map (fun line =>
    let cleanLine := cleanBullet line
    if !truthy cleanLine then some []
    else if includes cleanLine (str ",") then
      collect ((((splitChar 44 cleanLine).map trim).filter truthy).map parseLanguageChecked)
    else (parseLanguageChecked cleanLine).map (fun e => [e])))).map List.flatten

/-- The body of the certifications loop, with checked reads of `parts[1]` and `parts[2]`
(`parts[0]` is stored as read). -/
def certificationsOfLineChecked (line : Str) : Option (List CertificationEntry) :=
  let cleanLine := cleanBullet line
  if !truthy cleanLine then some []
  else if includes cleanLine (str ",") && decide ((splitChar 44 cleanLine).length ≤ 3) then
    let parts := ((splitChar 44 cleanLine).map trim).filter truthy
    if parts.length ≤ 3 then
      let name := parts.get? 0
      match (if parts.length > 1 then parts.get? 1 else some []) with
      | none => none
      | some issuer =>
        if truthy issuer && reTest yearOnlyRe false issuer then
          if parts.length > 2 then (parts.get? 2).map (fun third => [⟨name, third, issuer⟩])
          else some [⟨name, [], issuer⟩]
        else if parts.length > 2 then
          (parts.get? 2).map (fun third =>
            [⟨name, issuer, if reTest yearOnlyRe false third then third else []⟩])
        else some [⟨name, issuer, []⟩]
    else some []
  else
    match reMatch (.group 1 fourDigitsRe) false cleanLine with
    | some dateMatch =>
      let name := trim (removeFirst dateMatch.matched cleanLine)
      some [⟨some (if reTest trailingPunctRe false name then trim name.dropLast else name), [],
        dateMatch.matched⟩]
    | none => some [⟨some cleanLine, [], []⟩]

/-- The certifications branch, with checked reads. -/
def parseCertificationsChecked (buffer : List Str) : Option (List CertificationEntry) :=
  (collect (buffer.map certificationsOfLineChecked)).map List.flatten

/-- The function `pushBufferToSection(section, buffer)` with checked reads: `none` where
the call would raise or store `undefined` in a string field.  The summary, skills and
projects branches read no array element and no capture group. -/
def pushBufferToSectionChecked (sec : SectionId) (buffer : List Str) (sections : Sections) :
    Option Sections :=
  match sec with
  | .summary => some { sections with summary := join (str " ") buffer }
  | .skills => some { sections with skills := parseSkills buffer }
  | .experience => (parseExperienceChecked buffer).map (fun r => { sections with experience := r })
  | .education => (parseEducationChecked buffer).map (fun r => { sections with education := r })
  | .languages => (parseLanguagesChecked buffer).map (fun r => { sections with languages := r })
  | .certifications =>
    (parseCertificationsChecked buffer).map (fun r => { sections with certifications := r })
  | .projects => some { sections with projects := parseProjects buffer }

/-! ## `normalizeResumeData` on loosely typed values

The structure `ResumeData` above gives every present field its expected type.  Here
`data` is an arbitrary value of a parsed JSON document, and `none` stands for the
`TypeError` that a property read on `undefined` / `null`, or a string method call on a
value that is not a string, raises. -/

/-- A property name: the names the normaliser reads or writes, and any other name. -/
inductive Key
  | name | role | phone | email | linkedin | location | summary | contactInfo
  | experience | education | skills | languages | certifications | projects
  | title | position | companyName | company | date | duration | companyLocation
  | accomplishment | description | degree | institution | school | category | items
  | level | dots | issuer
  | other (name : Str)
  deriving DecidableEq

/-- A JavaScript value of a parsed JSON document (numbers are integers here).  The
properties of an object are listed with the value that a read finds first. -/
inductive JsValue
  | undefined
  | null
  | bool (b : Bool)
  | num (n : Int)
  | str (s : Str)
  | arr (elems : List JsValue)
  | obj (props : List (Key × JsValue))

/-- The value of the property `key` in a list of properties, `undefined` when absent. -/
def lookupJs (props : List (Key × JsValue)) (key : Key) : JsValue :=
  ((props.find? (fun p => p.1 == key)).map (fun p => p.2)).getD .undefined

/-- JavaScript truthiness. -/
def JsValue.truthy : JsValue → Bool
  | .undefined => false
  | .null => false
  | .bool b => b
  | .num n => n != 0
  | .str s => !s.isEmpty
  | .arr _ => true
  | .obj _ => true

/-- The property read `v.key` for the keys the normaliser reads: a `TypeError` on
`undefined` and `null`, the property of an object, and `undefined` on a primitive or an
array (which have none of these properties). -/
def JsValue.get (v : JsValue) (key : Key) : Option JsValue :=
  match v with
  | .undefined => none
  | .null => none
  | .obj props => some (lookupJs props key)
  | _ => some .undefined

/-- The expression `a || b`, both operands evaluated. -/
def jsOr (a b : JsValue) : JsValue := if a.truthy then a else b

/-- The expression `data.f || (data.contactInfo && data.contactInfo.f) || ''`. -/
def contactFallbackJs (data : JsValue) (field : Key) : Option JsValue :=
  match data.get field, data.get .contactInfo with
  | some direct, some contactInfo =>
    if direct.truthy then some direct
    else if contactInfo.truthy then
      match contactInfo.get field with
      | some fromContact => some (jsOr fromContact (.str []))
      | none => none
    else some (.str [])
  | _, _ => none

/-- The block "ensure name is properly capitalized": `name.toUpperCase()` is called when
`name` is truthy, and raises when `name` is not a string. -/
def recaseNameJs (name : JsValue) : Option JsValue :=
  if name.truthy then
    match name with
    | .str s => some (.str (recaseName s))
    | _ => none
  else some name

/-- The block "ensure role maintains proper case": `role.toUpperCase()` is called when
`role` is truthy. -/
def recaseRoleJs (role : JsValue) : Option JsValue :=
  if role.truthy then
    match role with
    | .str s => some (.str (recaseRole s))
    | _ => none
  else some role

/-- The callback of `data.experience.map(exp => ...)`. -/
def normalizeExperienceJs (exp : JsValue) : Option JsValue :=
  match exp with
  | .str s =>
    some (.obj [(.title, .str s), (.companyName, .str []), (.date, .str []),
      (.companyLocation, .str []), (.accomplishment, .str [])])
  | _ =>
    match exp.get .title, exp.get .position, exp.get .companyName, exp.get .company,
      exp.get .date, exp.get .duration, exp.get .companyLocation, exp.get .location,
      exp.get .accomplishment, exp.get .description with
    | some title, some position, some companyName, some company, some date, some duration,
      some companyLocation, some location, some accomplishment, some description =>
      some (.obj [(.title, jsOr (jsOr title position) (.str [])),
        (.companyName, jsOr (jsOr companyName company) (.str [])),
        (.date, jsOr (jsOr date duration) (.str [])),
        (.companyLocation, jsOr (jsOr companyLocation location) (.str [])),
        (.accomplishment, jsOr (jsOr accomplishment description) (.str []))])
    | _, _, _, _, _, _, _, _, _, _ => none

/-- The callback of `data.education.map(edu => ...)`. -/
def normalizeEducationJs (edu : JsValue) : Option JsValue :=
  match edu with
  | .str s =>
    some (.obj [(.degree, .str s), (.institution, .str []), (.duration, .str []),
      (.location, .str []), (.description, .str [])])
  | _ =>
    match edu.get .degree, edu.get .institution, edu.get .school, edu.get .duration,
      edu.get .date, edu.get .location, edu.get .description with
    | some degree, some institution, some school, some duration, some date, some location,
      some description =>
      some (.obj [(.degree, jsOr degree (.str [])),
        (.institution, jsOr (jsOr institution school) (.str [])),
        (.duration, jsOr (jsOr duration date) (.str [])),
        (.location, jsOr location (.str [])),
        (.description, jsOr description (.str []))])
    | _, _, _, _, _, _, _ => none

/-- The callback of `data.skills.map(s => ...)`. -/
def normalizeSkillGroupJs (s : JsValue) : Option JsValue :=
  match s.get .category, s.get .items with
  | some category, some its =>
    some (.obj [(.category, jsOr category (.str (str "Skills"))), (.items, jsOr its (.arr []))])
  | _, _ => none

/-- The block "normalize skills". -/
def normalizeSkillsJs (skills : JsValue) : Option (List JsValue) :=
  match skills with
  | .arr elems =>
    match elems with
    | [] => some []
    | first :: _ =>
      match first with
      | .str _ => some [.obj [(.category, .str (str "Skills")), (.items, .arr elems)]]
      | _ =>
        match first.get .items with
        | some firstItems =>
          if firstItems.truthy then collect (elems.map normalizeSkillGroupJs) else some []
        | none => none
  | _ => some []

/-- The callback of `data.languages.map(lang => ...)`: `lang.level.toLowerCase()` is
called when `lang.level` is truthy. -/
def normalizeLanguageJs (lang : JsValue) : Option JsValue :=
  match lang with
  | .str s => some (.obj [(.name, .str s), (.level, .str []), (.dots, .num 3)])
  | _ =>
    match lang.get .level, lang.get .name with
    | some level, some name =>
      if level.truthy then
        match level with
        | .str l =>
          some (.obj [(.name, jsOr name (.str [])), (.level, jsOr level (.str [])),
            (.dots, .num (inferDots (some l)))])
        | _ => none
      else some (.obj [(.name, jsOr name (.str [])), (.level, jsOr level (.str [])), (.dots, .num 3)])
    | _, _ => none

/-- The expression `Array.isArray(v) ? v.map(f) : []`. -/
def mapArrayJs (f : JsValue → Option JsValue) (v : JsValue) : Option (List JsValue) :=
  match v with
  | .arr elems => collect (elems.map f)
  | _ => some []

/-- The properties of `defaultResume`. -/
def defaultResumeProps : List (Key × JsValue) :=
  [(.name, .str []), (.role, .str []), (.phone, .str []), (.email, .str []),
   (.linkedin, .str []), (.location, .str []), (.summary, .str []), (.experience, .arr []),
   (.education, .arr []), (.skills, .arr []), (.languages, .arr [])]

/-- The object returned by `normalizeResumeData`: the eight computed properties, and
`spread`, the properties of `{ ...defaultResume, ...data }` that they override. -/
structure NormalizedJs where
  name : JsValue
  role : JsValue
  phone : JsValue
  location : JsValue
  experience : List JsValue
  education : List JsValue
  skills : List JsValue
  languages : List JsValue
  spread : List (Key × JsValue)

/-- The function `normalizeResumeData(data)` on an arbitrary value `data`. -/
def normalizeResumeDataJs (data : JsValue) : Option NormalizedJs :=
  match contactFallbackJs data .name, contactFallbackJs data .role,
    contactFallbackJs data .phone, contactFallbackJs data .location,
    data.get .experience, data.get .education, data.get .skills, data.get .languages with
  | some name0, some role0, some phone, some location, some experience0, some education0,
    some skills0, some languages0 =>
    match recaseNameJs name0, recaseRoleJs role0, mapArrayJs normalizeExperienceJs experience0,
      mapArrayJs normalizeEducationJs education0, normalizeSkillsJs skills0,
      mapArrayJs normalizeLanguageJs languages0 with
    | some name, some role, some experience, some education, some skills, some languages =>
      some
        { name := name
          role := role
          phone := phone
          location := location
          experience := experience
          education := education
          skills := skills
          languages := languages
          spread := match data with
            | .obj props => props ++ defaultResumeProps
            | _ => defaultResumeProps }
    | _, _, _, _, _, _ => none
  | _, _, _, _, _, _, _, _ => none

/-! ### Typed records as values -/

/-- The property `key: v` when `v` is present. -/
def optProp (key : Key) (v : Option JsValue) : List (Key × JsValue) :=
  match v with
  | some x => [(key, x)]
  | none => []

/-- A string property when present. -/
def strProp (key : Key) (v : Option Str) : List (Key × JsValue) :=
  optProp key (v.map JsValue.str)

def ExperienceItem.toJs : ExperienceItem → JsValue
  | .text s => .str s
  | .obj o => .obj (strProp .title o.title ++ (strProp .position o.position ++
      (strProp .companyName o.companyName ++ (strProp .company o.company ++
      (strProp .date o.date ++ (strProp .duration o.duration ++
      (strProp .companyLocation o.companyLocation ++ (strProp .location o.location ++
      (strProp .accomplishment o.accomplishment ++
      (strProp .description o.description ++ []))))))))))

def EducationItem.toJs : EducationItem → JsValue
  | .text s => .str s
  | .obj o => .obj (strProp .degree o.degree ++ (strProp .institution o.institution ++
      (strProp .school o.school ++ (strProp .duration o.duration ++ (strProp .date o.date ++
      (strProp .location o.location ++ (strProp .description o.description ++ [])))))))

def SkillObj.toJs (g : SkillObj) : JsValue :=
  .obj (strProp .category g.category ++
    (optProp .items (g.items.map (fun xs => JsValue.arr (xs.map JsValue.str))) ++ []))

def SkillsValue.toJs : SkillsValue → JsValue
  | .strings xs => .arr (xs.map JsValue.str)
  | .groups gs => .arr (gs.map SkillObj.toJs)

def LanguageItem.toJs : LanguageItem → JsValue
  | .text s => .str s
  | .obj o => .obj (strProp .name o.name ++ (strProp .level o.level ++
      (optProp .dots (o.dots.map (fun n => JsValue.num n)) ++ [])))

def CertificationObj.toJs (c : CertificationObj) : JsValue :=
  .obj (strProp .name c.name ++ (strProp .issuer c.issuer ++ (strProp .date c.date ++ [])))

def ProjectObj.toJs (p : ProjectObj) : JsValue :=
  .obj (strProp .name p.name ++ (strProp .description p.description ++ []))

def ContactObj.toJs (c : ContactObj) : JsValue :=
  .obj (strProp .name c.name ++ (strProp .role c.role ++ (strProp .phone c.phone ++
    (strProp .location c.location ++ []))))

/-- A typed record as a JavaScript object: a property for each present field. -/
def ResumeData.toJs (d : ResumeData) : JsValue :=
  .obj (strProp .name d.name ++ (strProp .role d.role ++ (strProp .phone d.phone ++
    (strProp .email d.email ++ (strProp .linkedin d.linkedin ++
    (strProp .location d.location ++ (strProp .summary d.summary ++
    (optProp .contactInfo (d.contactInfo.map ContactObj.toJs) ++
    (optProp .experience (d.experience.map (fun xs => JsValue.arr (xs.map ExperienceItem.toJs))) ++
    (optProp .education (d.education.map (fun xs => JsValue.arr (xs.map EducationItem.toJs))) ++
    (optProp .skills (d.skills.map SkillsValue.toJs) ++
    (optProp .languages (d.languages.map (fun xs => JsValue.arr (xs.map LanguageItem.toJs))) ++
    (optProp .certifications
      (d.certifications.map (fun xs => JsValue.arr (xs.map CertificationObj.toJs))) ++
    (optProp .projects (d.projects.map (fun xs => JsValue.arr (xs.map ProjectObj.toJs))) ++
      []))))))))))))))

/-- The value read from an optional string field: the string, or `undefined`. -/
def jsOfOptStr (v : Option Str) : JsValue := (v.map JsValue.str).getD .undefined

/-! ## Quantifiers over one code unit, without fuel -/

/-- The states that `p*` (greedy) or `p*?` (lazy) reaches from the input `rest`, in
priority order, for a one-code-unit pattern `p`. -/
def starStates (p : Nat → Bool) (greedy : Bool) (caps : List (Nat × Str)) :
    Option Nat → Str → List MState
  | prev, [] => [⟨prev, [], caps⟩]
  | prev, d :: t =>
    if p d then
      if greedy then starStates p greedy caps (some d) t ++ [⟨prev, d :: t, caps⟩]
      else ⟨prev, d :: t, caps⟩ :: starStates p greedy caps (some d) t
    else [⟨prev, d :: t, caps⟩]

/-- The part of `levelRe` after the second group: `\)?$`. -/
def levelTail (s : MState) : List MState :=
  (Re.run false (.rep true 0 (some 1) (.char 41)) s).flatMap (fun s6 => Re.run false .eol s6)

/-- The part of `levelRe` from the second group on: `(.*?)\)?$`. -/
def levelSecond (s4 : MState) : List MState :=
  (Re.run false (.group 2 (.rep false 0 none .dot)) s4).flatMap levelTail

/-- The part of `levelRe` after the first group: `\s*[\(\-:]\s*(.*?)\)?$`. -/
def levelAfterName (s1 : MState) : List MState :=
  (Re.run false (.rep true 0 none (.set false [.space])) s1).flatMap (fun s2 =>
    (Re.run false (.set false [.one 40, .one 45, .one 58]) s2).flatMap (fun s3 =>
      (Re.run false (.rep true 0 none (.set false [.space])) s3).flatMap levelSecond))


/-- The alternatives of the second group of `wordLevelRe`. -/
def wordLevelWords : List Str :=
  [str "Native", str "Fluent", str "Advanced", str "Intermediate", str "Beginner", str "Basic",
   str "Elementary", str "Proficient", str "Conversational"]

/-! ## The entry separators of the experience branch -/

/-- Whether no atom of `r` accepts the code unit `d`, for a pattern `r` without groups and
lookaheads: such a pattern never reads past an occurrence of `d`. -/
def Re.rejects (ci : Bool) (d : Nat) : Re → Bool
  | .empty => true
  | .char c => !inRangeCI ci c c d
  | .set neg items => !((items.any (ClassItem.test ci d)) != neg)
  | .dot => isLineTerminator d
  | .bol => true
  | .eol => true
  | .wordBoundary => !isWordChar d
  | .seq a b => Re.rejects ci d a && Re.rejects ci d b
  | .alt a b => Re.rejects ci d a && Re.rejects ci d b
  | .rep _ _ _ a => Re.rejects ci d a
  | .group _ _ => false
  | .lookahead _ => false

/-! ## `parseResumeText` -/

/-- The object that `parseResumeText(text)` returns when the server call resolves to the
object `response`: `{ ...response, ...contactInfo, name, role, phone, email, linkedin,
location }`; `h` holds the variables of the enclosing `reader.onload`. -/
def parseResumeText (h : Header) (text : Str) (response : ResumeData) : ResumeData :=
  let contactInfo := extractContactInfo text
  let finalName := recaseName (orElse h.name (orElse contactInfo.name (optOr response.name [])))
  let finalRole := recaseRole (orElse h.role (orElse contactInfo.role (optOr response.role [])))
  { response with
    name := some finalName
    role := some finalRole
    phone := some (orElse h.phone (orElse contactInfo.phone (optOr response.phone [])))
    email := some (orElse h.email (orElse contactInfo.email (optOr response.email [])))
    linkedin := some (orElse h.linkedin (orElse contactInfo.linkedin (optOr response.linkedin [])))
    location := some (orElse h.location (orElse contactInfo.location (optOr response.location []))) }

/-- The first non-empty string of a list, the empty string when there is none. -/
def firstNonEmpty (xs : List Str) : Str := (xs.find? truthy).getD []

/-! ## The entry separators of the education branch -/

/-- The body of the lookahead of `eduSplitRe`:
`[A-Z][a-z]+ of|Bachelor|Master|PhD|B\.S\.|M\.S\.|MBA|University|College|Institute`. -/
def eduEntryStartRe : Re :=
  .alts [.seqs [.upper, .plus .lower, .lit (str " of")],
    .lit (str "Bachelor"), .lit (str "Master"), .lit (str "PhD"), .lit (str "B.S."),
    .lit (str "M.S."), .lit (str "MBA"), .lit (str "University"), .lit (str "College"),
    .lit (str "Institute")]

/-! ## The pattern "Title at Company (Date)" piece by piece -/

/-- The optional group `(?:\s+\((.*?)\))` of `atRe`, without its quantifier. -/
def atDateGroup : Re := .seqs [.plus .s, .char 40, .group 3 (.lazyStar .dot), .char 41]

/-- The end `(?:\s+\((.*?)\))?$` of `atRe`. -/
def atDate (s : MState) : List MState :=
  (Re.run true (.opt atDateGroup) s).flatMap (fun s1 => Re.run true .eol s1)

/-- The part `(.*?)(?:\s+\((.*?)\))?$` of `atRe`. -/
def atCompany (s : MState) : List MState :=
  (Re.run true (.group 2 (.lazyStar .dot)) s).flatMap atDate

/-- The part `\s+at\s+(.*?)(?:\s+\((.*?)\))?$` of `atRe`. -/
def atAfterTitle (s : MState) : List MState :=
  (Re.run true (.plus .s) s).flatMap (fun s2 =>
    (Re.run true (.lit (str "at")) s2).flatMap (fun s3 =>
      (Re.run true (.plus .s) s3).flatMap atCompany))

/-! ## The value of a section of the record -/

/-- The value stored under one canonical section id. -/
inductive SectionValue
  | summary (s : Str)
  | skills (gs : List SkillGroup)
  | experience (es : List ExperienceEntry)
  | education (es : List EducationEntry)
  | languages (ls : List LanguageEntry)
  | certifications (cs : List CertificationEntry)
  | projects (ps : List ProjectEntry)
  deriving DecidableEq

/-- The property read `sections[id]`. -/
def Sections.value (s : Sections) : SectionId → SectionValue
  | .summary => .summary s.summary
  | .skills => .skills s.skills
  | .experience => .experience s.experience
  | .education => .education s.education
  | .languages => .languages s.languages
  | .certifications => .certifications s.certifications
  | .projects => .projects s.projects

/-- The value that `pushBufferToSection(section, buffer)` assigns to `sections[section]`. -/
def parseSection : SectionId → List Str → SectionValue
  | .summary, buffer => .summary (join (str " ") buffer)
  | .skills, buffer => .skills (parseSkills buffer)
  | .experience, buffer => .experience (parseExperience buffer)
  | .education, buffer => .education (parseEducation buffer)
  | .languages, buffer => .languages (parseLanguages buffer)
  | .certifications, buffer => .certifications (parseCertifications buffer)
  | .projects, buffer => .projects (parseProjects buffer)

/-- The value of `sections[id]` in the object literal that `fallbackParseResumeText`
starts from. -/
def defaultValue : SectionId → SectionValue
  | .summary => .summary []
  | .skills => .skills []
  | .experience => .experience []
  | .education => .education []
  | .languages => .languages []
  | .certifications => .certifications []
  | .projects => .projects []

/-- The buffer of the last call `pushBufferToSection(id, buffer)` of a log of calls. -/
def lastFlushed (id : SectionId) (log : List (SectionId × List Str)) : Option (List Str) :=
  ((log.filter (fun p => p.1 == id)).getLast?).map (fun p => p.2)

/-- The value of a section after a log of calls: that of the last call for this section, or
the initial one. -/
def valueAfter (id : SectionId) (log : List (SectionId × List Str)) : SectionValue :=
  match lastFlushed id log with
  | some buffer => parseSection id buffer
  | none => defaultValue id

/-! ## The lines of a categorised skills buffer -/

/-- The test `possibleCategories.includes(trimmedLine) ||
possibleCategories.includes(trimmedLine.slice(0, -1))` of the categorised loop. -/
def isCategoryLine (cats : List Str) (line : Str) : Bool :=
  cats.contains (trim line) || cats.contains (trim line).dropLast

/-- The category name a header line starts: `trimmedLine.replace(/:$/, '')`. -/
def categoryNameOf (line : Str) : Str := reRemoveFirst trailingColonRe false (trim line)

/-- The non-header lines of a categorised skills buffer that stand under a header with a
non-empty category name; `current` is the category name in force at the first line. -/
def keptSkillLines (cats : List Str) : Str → List Str → List Str
  | _, [] => []
  | current, line :: rest =>
    if isCategoryLine cats line then keptSkillLines cats (categoryNameOf line) rest
    else (if truthy current then [line] else []) ++ keptSkillLines cats current rest

/-! ## The projects of a buffer, header by header -/

/-- A project header: a line that is not bullet-prefixed and is either shorter than 100
characters or starts with a capital letter. -/
def isProjectHeader (line : Str) : Bool :=
  !reTest bulletStartRe false line &&
    (decide (line.length < 100) || reTest capitalStartRe false line)

/-- The description of the project whose header is followed by `lines`: the newline-join
of the bullet-stripped non-empty lines up to the next header. -/
def projectDescription (lines : List Str) : Str :=
  join (str "\n")
    (((lines.takeWhile (fun l => !isProjectHeader l)).map cleanBullet).filter truthy)

/-- One project per header line, in order. -/
def projectsByHeader : List Str → List ProjectEntry
  | [] => []
  | line :: rest =>
    if isProjectHeader line then ⟨line, projectDescription rest⟩ :: projectsByHeader rest
    else projectsByHeader rest

/-- The projects of a buffer as the description of the parser states them: one project per
header when there is a header, and otherwise one project with an empty description per line
with non-empty bullet-stripped text. -/
def projectsSpec (buffer : List Str) : List ProjectEntry :=
  if buffer.any isProjectHeader then projectsByHeader buffer
  else ((buffer.map cleanBullet).filter truthy).map (fun name => ⟨name, []⟩)

/-! ## Theorems -/

/-- C1 (as stated, refuted): on the eleven lines of scenario 1 the local extraction does
not return the experience entry "Engineer at Acme (2019-2022)" together with the
education entry of duration "2015-2019". -/
theorem scenario1_claimed_result_fails :
    ¬ ((localExtract scenario1Text).name = some (str "John Smith") ∧
      (localExtract scenario1Text).role = some (str "Senior Engineer") ∧
      (localExtract scenario1Text).email = some (str "john@x.com") ∧
      (localExtract scenario1Text).experience =
        some [ExperienceEntry.toItem
          ⟨str "Engineer", str "Acme", str "2019-2022", [], str "Built X\nLed Y"⟩] ∧
      (localExtract scenario1Text).education =
        some [EducationEntry.toItem
          ⟨str "B.S. Computer Science", str "MIT", str "2015-2019", [], []⟩]) := by
  decide!

/-- C1 (amended): on the eleven lines of scenario 1 the local extraction yields name
"John Smith", role "Senior Engineer", email "john@x.com", the single experience entry
built from the line "2015-2019" (that line opens a heuristic experience section, whose
flush replaces the entry of "Engineer at Acme (2019-2022)"), and the single education
entry "B.S. Computer Science" / "MIT" with empty duration. -/
theorem scenario1_local_extract :
    (localExtract scenario1Text).name = some (str "John Smith") ∧
    (localExtract scenario1Text).role = some (str "Senior Engineer") ∧
    (localExtract scenario1Text).email = some (str "john@x.com") ∧
    (localExtract scenario1Text).experience =
      some [ExperienceEntry.toItem ⟨str "2015-2019", [], str "2015-2019", [], str "2015-2019"⟩] ∧
    (localExtract scenario1Text).education =
      some [EducationEntry.toItem ⟨str "B.S. Computer Science", str "MIT", [], [], []⟩] := by
  decide!

/-- The flushes of scenario 1, in order: the line "2015-2019" opens a second experience
buffer, flushed last. -/
theorem scenario1_flushes :
    (segment emptySections (textLines scenario1Text)).flushed =
      [(.summary, [str "JOHN SMITH"]),
       (.experience, [str "SENIOR ENGINEER", str "john@x.com"]),
       (.experience, [str "Engineer at Acme (2019-2022)", str "- Built X", str "- Led Y"]),
       (.education, [str "B.S. Computer Science", str "MIT"]),
       (.experience, [str "2015-2019"])] := by
  decide!

theorem segStep_control (st st' : SegState) (line : Str) (h : st.control = st'.control) :
    (segStep st line).control = (segStep st' line).control := by
  obtain ⟨sec, cur, buf, fl⟩ := st
  obtain ⟨sec', cur', buf', fl'⟩ := st'
  simp only [SegState.control, Prod.mk.injEq] at h
  obtain ⟨rfl, rfl, rfl⟩ := h
  unfold segStep
  cases matchedSection line with
  | some s =>
    simp only [SegState.heading, SegState.flush, SegState.control]
    split <;> rfl
  | none =>
    simp only [SegState.boundary, SegState.flush, SegState.control]
    split
    · rfl
    · split <;> rfl

theorem foldl_segStep_control (lines : List Str) (st st' : SegState)
    (h : st.control = st'.control) :
    (lines.foldl segStep st).control = (lines.foldl segStep st').control := by
  induction lines generalizing st st' with
  | nil => simpa using h
  | cons line rest ih => exact ih _ _ (segStep_control st st' line h)

/-- The log of flushes does not depend on the initial record `sections`. -/
theorem segment_flushed_init (init init' : Sections) (lines : List Str) :
    (segment init lines).flushed = (segment init' lines).flushed := by
  have h := foldl_segStep_control lines ⟨init, .summary, [], []⟩ ⟨init', .summary, [], []⟩ rfl
  simp only [SegState.control, Prod.mk.injEq] at h
  obtain ⟨h1, h2, h3⟩ := h
  unfold segment
  simp only [h2]
  split
  · simp only [SegState.flush, h1, h2, h3]
  · exact h3

theorem sectionMap_single_heading :
    sectionMap.all (fun e => decide ((segment emptySections [e.1, str "line1", str "line2"]).flushed
      = [(e.2, [str "line1", str "line2"])])) = true := by
  decide!

/-- C2: for every synonym `S` that `sectionMap` maps to `C`, segmenting the three lines
`[S, "line1", "line2"]` flushes exactly one buffer, `["line1", "line2"]`, to section `C`. -/
theorem heading_synonym_equivalence (init : Sections) (S : Str) (C : SectionId)
    (h : (S, C) ∈ sectionMap) :
    (segment init [S, str "line1", str "line2"]).flushed
      = [(C, [str "line1", str "line2"])] := by
  rw [segment_flushed_init init emptySections]
  exact of_decide_eq_true (List.all_eq_true.mp sectionMap_single_heading (S, C) h)

/-- C2 at the synonym "CORE COMPETENCIES" of section skills. -/
theorem heading_synonym_equivalence_witness :
    (str "CORE COMPETENCIES", SectionId.skills) ∈ sectionMap ∧
    (segment emptySections [str "CORE COMPETENCIES", str "line1", str "line2"]).flushed
      = [(SectionId.skills, [str "line1", str "line2"])] :=
  ⟨by decide!, heading_synonym_equivalence emptySections (str "CORE COMPETENCIES") .skills
    (by decide!)⟩

/-- C4: on the empty text the local extraction returns the record whose string fields
are all empty and whose sequence fields are all empty. -/
theorem empty_input_all_default :
    (localExtract []).name = some [] ∧ (localExtract []).role = some [] ∧
    (localExtract []).phone = some [] ∧ (localExtract []).email = some [] ∧
    (localExtract []).linkedin = some [] ∧ (localExtract []).location = some [] ∧
    (localExtract []).summary = some [] ∧
    (localExtract []).skills = some (.groups []) ∧ (localExtract []).experience = some [] ∧
    (localExtract []).education = some [] ∧ (localExtract []).languages = some [] ∧
    (localExtract []).certifications = some [] ∧ (localExtract []).projects = some [] := by
  decide!

theorem getDotCount_range (level : Str) : 1 ≤ getDotCount level ∧ getDotCount level ≤ 5 := by
  unfold getDotCount
  simp only []
  split_ifs <;> omega

theorem inferDots_range (level : Option Str) : 1 ≤ inferDots level ∧ inferDots level ≤ 5 := by
  unfold inferDots
  simp only []
  split_ifs <;> omega

theorem getDotCount_unknown (level : Str)
    (h : ∀ w ∈ levelWords, includes (toLowerCase level) w = false) : getDotCount level = 3 := by
  unfold getDotCount
  simp only [levelWords, List.mem_cons, List.mem_singleton, forall_eq_or_imp, forall_eq,
    List.not_mem_nil, IsEmpty.forall_iff, implies_true, and_true] at h
  simp [h]

theorem languagesOfLine_dots (line : Str) (e : LanguageEntry) (h : e ∈ languagesOfLine line) :
    1 ≤ e.dots ∧ e.dots ≤ 5 := by
  have hp : ∀ t : Str, 1 ≤ (parseLanguage t).dots ∧ (parseLanguage t).dots ≤ 5 := by
    intro t
    unfold parseLanguage
    split
    · exact getDotCount_range _
    · split
      · exact getDotCount_range _
      · simp
  unfold languagesOfLine at h
  simp only [] at h
  split_ifs at h
  · simp at h
  · simp only [List.mem_map] at h
    obtain ⟨t, _, rfl⟩ := h
    exact hp t
  · simp only [List.mem_singleton] at h
    subst h
    exact hp _

/-- C6: `getDotCount` returns an integer in [1,5] for every string, and 3 for every
string that contains (ignoring letter case) none of the recognised proficiency words; so
every entry of the languages parser and every language of `normalizeResumeData` has
`dots` in [1,5]. -/
theorem dots_total_in_range :
    (∀ level : Str, 1 ≤ getDotCount level ∧ getDotCount level ≤ 5) ∧
    (∀ level : Str, (∀ w ∈ levelWords, includes (toLowerCase level) w = false) →
      getDotCount level = 3) ∧
    (∀ (buffer : List Str) (e : LanguageEntry), e ∈ parseLanguages buffer →
      1 ≤ e.dots ∧ e.dots ≤ 5) ∧
    (∀ (data : ResumeData) (items : List LanguageItem),
      (normalizeResumeData data).languages = some items →
      ∀ it ∈ items, ∃ d, it.dotsOf = some d ∧ 1 ≤ d ∧ d ≤ 5) := by
  refine ⟨getDotCount_range, getDotCount_unknown, ?_, ?_⟩
  · intro buffer e he
    simp only [parseLanguages, List.mem_flatMap] at he
    obtain ⟨line, _, hl⟩ := he
    exact languagesOfLine_dots line e hl
  · intro data items h it hit
    simp only [normalizeResumeData, Option.some.injEq] at h
    subst h
    simp only [List.mem_map] at hit
    obtain ⟨x, _, rfl⟩ := hit
    cases x with
    | text s => exact ⟨3, rfl, by omega, by omega⟩
    | obj o => exact ⟨inferDots o.level, rfl, (inferDots_range _).1, (inferDots_range _).2⟩

/-- C6 at the level "xyz" (3 dots), the buffer `["English (Native)"]` and the record
with the single language "Deutsch". -/
theorem dots_total_in_range_witness :
    getDotCount (str "xyz") = 3 ∧
    (1 ≤ (⟨str "English", str "Native", 5⟩ : LanguageEntry).dots ∧
      (⟨str "English", str "Native", 5⟩ : LanguageEntry).dots ≤ 5) ∧
    (∃ d, (LanguageItem.obj ⟨some (str "Deutsch"), some [], some 3⟩).dotsOf = some d ∧
      1 ≤ d ∧ d ≤ 5) :=
  ⟨dots_total_in_range.2.1 (str "xyz") (by decide!),
   dots_total_in_range.2.2.1 [str "English (Native)"] ⟨str "English", str "Native", 5⟩
     (by decide!),
   dots_total_in_range.2.2.2
     ⟨none, none, none, none, none, none, none, none, none, none, none,
       some [.text (str "Deutsch")], none, none⟩
     [.obj ⟨some (str "Deutsch"), some [], some 3⟩] (by decide!)
     (.obj ⟨some (str "Deutsch"), some [], some 3⟩) (by decide!)⟩

/-- C7: `getDotCount` implements the level table ignoring letter case: native, fluent,
bilingual, mother tongue give 5; advanced, proficient, very good give 4; intermediate,
conversational, good give 3; basic, elementary, beginner give 2; the empty string 3. -/
theorem getDotCount_table (level : Str) :
    ((toLowerCase level = str "native" ∨ toLowerCase level = str "fluent" ∨
      toLowerCase level = str "bilingual" ∨ toLowerCase level = str "mother tongue") →
        getDotCount level = 5) ∧
    ((toLowerCase level = str "advanced" ∨ toLowerCase level = str "proficient" ∨
      toLowerCase level = str "very good") → getDotCount level = 4) ∧
    ((toLowerCase level = str "intermediate" ∨ toLowerCase level = str "conversational" ∨
      toLowerCase level = str "good") → getDotCount level = 3) ∧
    ((toLowerCase level = str "basic" ∨ toLowerCase level = str "elementary" ∨
      toLowerCase level = str "beginner") → getDotCount level = 2) ∧
    (level = [] → getDotCount level = 3) := by
  refine ⟨?_, ?_, ?_, ?_, ?_⟩
  · rintro (h | h | h | h) <;> (unfold getDotCount; simp only [h]; decide!)
  · rintro (h | h | h) <;> (unfold getDotCount; simp only [h]; decide!)
  · rintro (h | h | h) <;> (unfold getDotCount; simp only [h]; decide!)
  · rintro (h | h | h) <;> (unfold getDotCount; simp only [h]; decide!)
  · rintro rfl; decide!

/-- C7 at "Mother Tongue", "VERY GOOD", "Conversational", "beginner" and "". -/
theorem getDotCount_table_witness :
    getDotCount (str "Mother Tongue") = 5 ∧ getDotCount (str "VERY GOOD") = 4 ∧
    getDotCount (str "Conversational") = 3 ∧ getDotCount (str "beginner") = 2 ∧
    getDotCount [] = 3 :=
  ⟨(getDotCount_table (str "Mother Tongue")).1 (Or.inr (Or.inr (Or.inr (by decide!)))),
   (getDotCount_table (str "VERY GOOD")).2.1 (Or.inr (Or.inr (by decide!))),
   (getDotCount_table (str "Conversational")).2.2.1 (Or.inr (Or.inl (by decide!))),
   (getDotCount_table (str "beginner")).2.2.2.1 (Or.inr (Or.inr (by decide!))),
   (getDotCount_table []).2.2.2.2 rfl⟩

/-! ### Re-casing and idempotence of `normalizeResumeData` -/

theorem orElse_nil (a : Str) : orElse a [] = a := by
  cases a <;> rfl

theorem orElse_eq_nil (a b : Str) (h : orElse a b = []) : a = [] ∧ b = [] := by
  cases a with
  | nil => exact ⟨rfl, by simpa [orElse] using h⟩
  | cons c t => simp [orElse] at h

theorem splitChar_ne_nil (c : Nat) (s : Str) : splitChar c s ≠ [] := by
  cases s with
  | nil => simp [splitChar]
  | cons d t =>
    unfold splitChar
    split
    · simp
    · split <;> simp

theorem splitChar_cons_ne (c d : Nat) (t : Str) (h : d ≠ c) :
    ∃ hd tl, splitChar c t = hd :: tl ∧ splitChar c (d :: t) = (d :: hd) :: tl := by
  cases hs : splitChar c t with
  | nil => exact absurd hs (splitChar_ne_nil c t)
  | cons hd tl => exact ⟨hd, tl, rfl, by simp [splitChar, h, hs]⟩

theorem splitChar_of_not_mem (c : Nat) (s : Str) (h : c ∉ s) : splitChar c s = [s] := by
  induction s with
  | nil => rfl
  | cons d t ih =>
    simp only [List.mem_cons, not_or] at h
    have hd : d ≠ c := fun e => h.1 e.symm
    simp [splitChar, hd, ih h.2]

theorem splitChar_append_sep (c : Nat) (w s : Str) (h : c ∉ w) :
    splitChar c (w ++ c :: s) = w :: splitChar c s := by
  induction w with
  | nil => simp [splitChar]
  | cons d t ih =>
    simp only [List.mem_cons, not_or] at h
    have hd : d ≠ c := fun e => h.1 e.symm
    simp [splitChar, hd, ih h.2]

theorem splitChar_join (c : Nat) (ws : List Str) (hne : ws ≠ []) (h : ∀ w ∈ ws, c ∉ w) :
    splitChar c (join [c] ws) = ws := by
  induction ws with
  | nil => exact absurd rfl hne
  | cons w rest ih =>
    cases rest with
    | nil => simpa [join] using splitChar_of_not_mem c w (h w (by simp))
    | cons y r =>
      have hj : join [c] (w :: y :: r) = w ++ c :: join [c] (y :: r) := by simp [join]
      rw [hj, splitChar_append_sep c w _ (h w (by simp)),
        ih (by simp) (fun v hv => h v (List.mem_cons_of_mem _ hv))]

/-- C14 (failing input): for the certifications buffer `[","]` the parser returns one
entry whose `name` is `undefined`. -/
theorem certification_name_undefined_on_commas :
    parseCertifications [str ","] = [⟨none, [], []⟩] := by
  decide!

/-! ### Segmentation partitions the input -/

theorem flushedLines_flush (st : SegState) :
    st.flush.flushedLines = st.flushedLines ++ st.buffer := by
  simp [SegState.flush, SegState.flushedLines]

theorem segStep_lines (st : SegState) (line : Str) :
    (segStep st line).flushedLines ++ (segStep st line).buffer
      = st.flushedLines ++ st.buffer ++ (if (matchedSection line).isSome then [] else [line]) := by
  unfold segStep
  cases h : matchedSection line with
  | some sec =>
    simp only [SegState.heading, Option.isSome_some, if_true, List.append_nil]
    by_cases hb : st.buffer.length > 0
    · simp only [hb, if_true]
      have := flushedLines_flush st
      simp only [SegState.flushedLines, SegState.flush] at this ⊢
      exact this
    · have hnil : st.buffer = [] := List.length_eq_zero.mp (by omega)
      simp [hb, hnil, SegState.flushedLines]
  | none =>
    simp only [Option.isSome_none, Bool.false_eq_true, if_false]
    split
    · have := flushedLines_flush st
      simp only [SegState.boundary, SegState.flushedLines, SegState.flush] at this ⊢
      rw [this]
    · split
      · have := flushedLines_flush st
        simp only [SegState.boundary, SegState.flushedLines, SegState.flush] at this ⊢
        rw [this]
      · simp [SegState.flushedLines]

theorem foldl_segStep_lines (lines : List Str) (st : SegState) :
    (lines.foldl segStep st).flushedLines ++ (lines.foldl segStep st).buffer
      = st.flushedLines ++ st.buffer ++ lines.filter (fun l => (matchedSection l).isNone) := by
  induction lines generalizing st with
  | nil => simp
  | cons line rest ih =>
    rw [List.foldl_cons, ih, segStep_lines]
    cases h : matchedSection line <;> simp [h]

/-- C15: the concatenation of the buffers flushed by the segmenter, in flush order, is the
input with exactly the lines classified as explicit headings removed; an explicit heading
line leaves the buffer empty, and any other line is appended to the buffer or, at a
heuristic boundary, becomes the only line of the new buffer. -/
theorem segmentation_partitions_input :
    (∀ (init : Sections) (lines : List Str),
      (segment init lines).flushedLines = lines.filter (fun l => (matchedSection l).isNone)) ∧
    (∀ (st : SegState) (line : Str) (sec : SectionId), matchedSection line = some sec →
      (segStep st line).buffer = []) ∧
    (∀ (st : SegState) (line : Str), matchedSection line = none →
      (segStep st line).buffer = st.buffer ++ [line] ∨
      ((segStep st line).buffer = [line] ∧
        (segStep st line).flushed = st.flushed ++ [(st.currentSection, st.buffer)])) := by
  refine ⟨?_, ?_, ?_⟩
  · intro init lines
    have h := foldl_segStep_lines lines ⟨init, .summary, [], []⟩
    simp only [SegState.flushedLines, List.flatMap_nil, List.nil_append] at h
    unfold segment
    simp only []
    by_cases hb : (lines.foldl segStep ⟨init, .summary, [], []⟩).buffer.length > 0
    · simp only [hb, if_true]
      rw [flushedLines_flush]
      exact h
    · have hnil : (lines.foldl segStep ⟨init, .summary, [], []⟩).buffer = [] :=
        List.length_eq_zero.mp (by omega)
      simp only [hb, if_false]
      rw [hnil, List.append_nil] at h
      exact h
  · intro st line sec h
    simp [segStep, h, SegState.heading]
  · intro st line h
    unfold segStep
    simp only [h]
    split
    · right; simp [SegState.boundary, SegState.flush]
    · split
      · right; simp [SegState.boundary, SegState.flush]
      · left; rfl

/-- C15 at the eleven lines of scenario 1, whose explicit headings are "EXPERIENCE" and
"EDUCATION". -/
theorem segmentation_partitions_input_witness :
    (segment emptySections scenario1Lines).flushedLines =
      [str "JOHN SMITH", str "SENIOR ENGINEER", str "john@x.com",
       str "Engineer at Acme (2019-2022)", str "- Built X", str "- Led Y",
       str "B.S. Computer Science", str "MIT", str "2015-2019"] ∧
    (segStep ⟨emptySections, .summary, [str "a"], []⟩ (str "EDUCATION")).buffer = [] :=
  ⟨(segmentation_partitions_input.1 emptySections scenario1Lines).trans (by decide!),
   segmentation_partitions_input.2.1 ⟨emptySections, .summary, [str "a"], []⟩ (str "EDUCATION")
     .education (by decide!)⟩

/-! ### The experience heuristic -/

/-- C16 (as stated, refuted): directly after the heading "EDUCATION" (section education,
empty buffer) the line "2015-2019" matches no heading and matches the experience-start
pattern, yet the segmenter stays in section education. -/
theorem experience_heuristic_needs_buffer :
    matchedSection (str "2015-2019") = none ∧
    reTest expStartRe true (str "2015-2019") = true ∧
    (segStep ⟨emptySections, .education, [], []⟩ (str "2015-2019")).currentSection
      = .education := by
  decide!

/-- C16 (amended): in a state whose current section is not experience, a line that is no
explicit heading and matches the experience-start pattern moves the segmenter into
section experience with new buffer `[line]`, after flushing the old buffer, when the
current buffer is non-empty; when the buffer is empty the section is unchanged and the
line becomes the first line of its buffer. -/
theorem experience_heuristic_boundary (st : SegState) (line : Str)
    (hsec : st.currentSection ≠ .experience) (hm : matchedSection line = none)
    (hp : reTest expStartRe true line = true) :
    (st.buffer ≠ [] →
      (segStep st line).currentSection = .experience ∧ (segStep st line).buffer = [line] ∧
      (segStep st line).flushed = st.flushed ++ [(st.currentSection, st.buffer)]) ∧
    (st.buffer = [] →
      (segStep st line).currentSection = st.currentSection ∧
      (segStep st line).buffer = [line] ∧ (segStep st line).flushed = st.flushed) := by
  constructor
  · intro hb
    have hl : st.buffer.length > 0 := List.length_pos.mpr hb
    simp [segStep, hm, hp, hl, hsec, SegState.boundary, SegState.flush]
  · intro hb
    simp [segStep, hm, hp, hb]

/-- C16 (amended) at the state "section summary, buffer [JOHN SMITH]" and the line
"SENIOR ENGINEER". -/
theorem experience_heuristic_boundary_witness :
    (segStep ⟨emptySections, .summary, [str "JOHN SMITH"], []⟩
        (str "SENIOR ENGINEER")).currentSection = .experience ∧
    (segStep ⟨emptySections, .summary, [str "JOHN SMITH"], []⟩
        (str "SENIOR ENGINEER")).buffer = [str "SENIOR ENGINEER"] ∧
    (segStep ⟨emptySections, .summary, [str "JOHN SMITH"], []⟩
        (str "SENIOR ENGINEER")).flushed = [(.summary, [str "JOHN SMITH"])] :=
  (experience_heuristic_boundary ⟨emptySections, .summary, [str "JOHN SMITH"], []⟩
    (str "SENIOR ENGINEER") (by decide) (by decide!) (by decide!)).1 (by decide)

/-! ### The fuzzy heading step -/

/-- C18 (failing input): on the two lines "a@x.com", "b@y.com" `extractContactInfo`
returns the email of the later line. -/
theorem extractContactInfo_later_email_wins :
    (extractContactInfo (str "a@x.com\nb@y.com")).email = str "b@y.com" := by
  decide!


theorem length_trim_le (s : Str) : (trim s).length ≤ (s.dropWhile isSpace).length := by
  unfold trim
  rw [List.length_reverse]
  exact ((List.dropWhile_sublist _).length_le).trans (by rw [List.length_reverse])

theorem trim_head_not_space (c : Nat) (t : Str) (h : trim (c :: t) = c :: t) :
    isSpace c = false := by
  by_contra hc
  have hc' : isSpace c = true := by simpa using hc
  have h1 := length_trim_le (c :: t)
  rw [h, List.dropWhile_cons_of_pos hc'] at h1
  have h2 := (List.dropWhile_sublist isSpace (l := t)).length_le
  simp only [List.length_cons] at h1
  omega

theorem stepChar_caps (p : Nat → Bool) (s s' : MState) (h : s' ∈ stepChar p s) :
    s'.caps = s.caps := by
  unfold stepChar at h
  split at h
  · simp at h
  · split at h
    · simp only [List.mem_singleton] at h
      rw [h]
    · simp at h

theorem repLoop_caps_extend (ma : MState → List MState)
    (hma : ∀ s s', s' ∈ ma s → ∃ new, s'.caps = new ++ s.caps) (g : Bool) :
    ∀ (fuel mn : Nat) (mx : Option Nat) (s s' : MState),
      s' ∈ repLoop ma g fuel mn mx s → ∃ new, s'.caps = new ++ s.caps := by
  intro fuel
  induction fuel with
  | zero =>
    intro mn mx s s' h
    unfold repLoop at h
    split at h
    · simp only [List.mem_singleton] at h
      exact ⟨[], by rw [h]; rfl⟩
    · simp at h
  | succ fuel ih =>
    intro mn mx s s' h
    have hself : s' = s → ∃ new, s'.caps = new ++ s.caps := fun e => ⟨[], by rw [e]; rfl⟩
    have hiter : s' ∈ (ma s).flatMap (fun s1 =>
        if mn = 0 ∧ s1.rest.length = s.rest.length then []
        else repLoop ma g fuel (mn - 1) (mx.map (· - 1)) s1) →
        ∃ new, s'.caps = new ++ s.caps := by
      intro hm
      obtain ⟨s1, hs1, hm1⟩ := List.mem_flatMap.mp hm
      split at hm1
      · simp at hm1
      · obtain ⟨n1, e1⟩ := hma s s1 hs1
        obtain ⟨n2, e2⟩ := ih _ _ s1 s' hm1
        exact ⟨n2 ++ n1, by rw [e2, e1, List.append_assoc]⟩
    unfold repLoop at h
    simp only [] at h
    split at h
    · exact hself (List.mem_singleton.mp h)
    · split at h
      · exact hiter h
      · split at h
        · rcases List.mem_append.mp h with h | h
          · exact hiter h
          · exact hself (List.mem_singleton.mp h)
        · rcases List.mem_cons.mp h with h | h
          · exact hself h
          · exact hiter h

theorem run_caps_extend (ci : Bool) (r : Re) :
    ∀ s s' : MState, s' ∈ Re.run ci r s → ∃ new, s'.caps = new ++ s.caps := by
  induction r with
  | empty =>
    intro s s' h
    simp only [Re.run, List.mem_singleton] at h
    exact ⟨[], by rw [h]; rfl⟩
  | char c =>
    intro s s' h
    exact ⟨[], by simpa using stepChar_caps _ s s' h⟩
  | set neg items =>
    intro s s' h
    exact ⟨[], by simpa using stepChar_caps _ s s' h⟩
  | dot =>
    intro s s' h
    exact ⟨[], by simpa using stepChar_caps _ s s' h⟩
  | bol =>
    intro s s' h
    simp only [Re.run] at h
    split at h
    · exact ⟨[], by rw [List.mem_singleton.mp h]; rfl⟩
    · simp at h
  | eol =>
    intro s s' h
    simp only [Re.run] at h
    split at h
    · exact ⟨[], by rw [List.mem_singleton.mp h]; rfl⟩
    · simp at h
  | wordBoundary =>
    intro s s' h
    simp only [Re.run] at h
    split at h
    · exact ⟨[], by rw [List.mem_singleton.mp h]; rfl⟩
    · simp at h
  | seq a b iha ihb =>
    intro s s' h
    simp only [Re.run, List.mem_flatMap] at h
    obtain ⟨s1, h1, h2⟩ := h
    obtain ⟨n1, e1⟩ := iha s s1 h1
    obtain ⟨n2, e2⟩ := ihb s1 s' h2
    exact ⟨n2 ++ n1, by rw [e2, e1, List.append_assoc]⟩
  | alt a b iha ihb =>
    intro s s' h
    simp only [Re.run, List.mem_append] at h
    rcases h with h | h
    · exact iha s s' h
    · exact ihb s s' h
  | rep g mn mx a iha =>
    intro s s' h
    simp only [Re.run] at h
    exact repLoop_caps_extend _ iha g _ _ _ s s' h
  | group i a iha =>
    intro s s' h
    simp only [Re.run, List.mem_map] at h
    obtain ⟨s1, h1, rfl⟩ := h
    obtain ⟨n1, e1⟩ := iha s s1 h1
    exact ⟨(i, s.rest.take (s.rest.length - s1.rest.length)) :: n1, by simp [e1]⟩
  | lookahead a iha =>
    intro s s' h
    simp only [Re.run] at h
    split at h
    · simp at h
    · rename_i s1 tl heq
      obtain ⟨n1, e1⟩ := iha s s1 (by rw [heq]; simp)
      rw [List.mem_singleton.mp h]
      exact ⟨n1, e1⟩

theorem cap_isSome_append (i : Nat) (new old : List (Nat × Str)) (h : (cap i old).isSome) :
    (cap i (new ++ old)).isSome := by
  unfold cap at h ⊢
  simp only [Option.isSome_map', List.find?_append] at h ⊢
  cases hn : List.find? (fun p => p.1 == i) new with
  | none => simpa using h
  | some v => simp

theorem run_cap_mono (ci : Bool) (r : Re) (s s' : MState) (h : s' ∈ Re.run ci r s) (i : Nat)
    (hi : (cap i s.caps).isSome) : (cap i s'.caps).isSome := by
  obtain ⟨new, e⟩ := run_caps_extend ci r s s' h
  rw [e]
  exact cap_isSome_append i new s.caps hi

theorem run_sets (ci : Bool) (i : Nat) (r : Re) :
    Re.sets i r = true → ∀ s s' : MState, s' ∈ Re.run ci r s → (cap i s'.caps).isSome := by
  induction r with
  | seq a b iha ihb =>
    intro hs s s' h
    simp only [Re.run, List.mem_flatMap] at h
    obtain ⟨s1, h1, h2⟩ := h
    simp only [Re.sets, Bool.or_eq_true] at hs
    rcases hs with hs | hs
    · exact run_cap_mono ci b s1 s' h2 i (iha hs s s1 h1)
    · exact ihb hs s1 s' h2
  | alt a b iha ihb =>
    intro hs s s' h
    simp only [Re.sets, Bool.and_eq_true] at hs
    simp only [Re.run, List.mem_append] at h
    rcases h with h | h
    · exact iha hs.1 s s' h
    · exact ihb hs.2 s s' h
  | group j a iha =>
    intro hs s s' h
    simp only [Re.run, List.mem_map] at h
    obtain ⟨s1, h1, rfl⟩ := h
    simp only [Re.sets, Bool.or_eq_true, beq_iff_eq] at hs
    rcases hs with hs | hs
    · subst hs
      simp [cap]
    · have := iha hs s s1 h1
      exact cap_isSome_append i [(j, _)] s1.caps this
  | _ => intro hs; simp [Re.sets] at hs

theorem searchFrom_mem_run (r : Re) (ci : Bool) (rest pre : Str) (m : ReMatch)
    (h : searchFrom r ci pre rest = some m) :
    ∃ (prev : Option Nat) (input : Str) (st : MState),
      st ∈ Re.run ci r ⟨prev, input, []⟩ ∧ m.caps = st.caps := by
  induction rest generalizing pre with
  | nil =>
    unfold searchFrom at h
    split at h
    · rename_i st hst
      simp only [Option.some.injEq] at h
      refine ⟨pre.head?, [], st, ?_, by rw [← h]⟩
      exact List.mem_of_mem_head? hst
    · simp at h
  | cons c t ih =>
    unfold searchFrom at h
    split at h
    · rename_i st hst
      simp only [Option.some.injEq] at h
      refine ⟨pre.head?, c :: t, st, ?_, by rw [← h]⟩
      exact List.mem_of_mem_head? hst
    · exact ih _ h

theorem reMatch_sets (r : Re) (ci : Bool) (i : Nat) (hs : Re.sets i r = true) (s : Str)
    (m : ReMatch) (h : reMatch r ci s = some m) : ∃ v, cap i m.caps = some v := by
  obtain ⟨prev, input, st, hst, e⟩ := searchFrom_mem_run r ci s [] m h
  have := run_sets ci i r hs _ st hst
  rw [← e] at this
  exact Option.isSome_iff_exists.mp this


/-! ### Totality of the section parsers -/

theorem collect_map_some {α β : Type} (f : α → Option β) (g : α → β) (xs : List α)
    (h : ∀ x ∈ xs, f x = some (g x)) : collect (xs.map f) = some (xs.map g) := by
  induction xs with
  | nil => rfl
  | cons x rest ih =>
    simp only [List.map_cons, h x (by simp), collect,
      ih (fun y hy => h y (List.mem_cons_of_mem _ hy)), Option.map_some']

theorem get?_eq_some_nth (xs : List Str) (i : Nat) (h : i < xs.length) :
    xs.get? i = some (nth xs i) := by
  unfold nth
  rw [List.get?_eq_get h]
  rfl

theorem splitChar_length_of_includes (c : Nat) (s : Str) (h : includes s [c] = true) :
    1 < (splitChar c s).length := by
  induction s with
  | nil => simp [includes] at h
  | cons d t ih =>
    by_cases hd : d = c
    · have hne := splitChar_ne_nil c t
      have : 0 < (splitChar c t).length := List.length_pos.mpr hne
      simp only [splitChar, hd, if_true, List.length_cons]
      omega
    · obtain ⟨hd', tl, h1, h2⟩ := splitChar_cons_ne c d t hd
      have hi : includes t [c] = true := by
        have hcd : (c == d) = false := by
          simp only [beq_eq_false_iff_ne, ne_eq]
          exact fun e => hd e.symm
        simpa [includes, List.isPrefixOf, hcd] using h
      have := ih hi
      rw [h2]
      rw [h1] at this
      simpa using this

theorem expHeadChecked_eq (lines : List Str) : expHeadChecked lines = some (expHead lines) := by
  have hbar : str "|" = [124] := by decide
  have hcomma : str "," = [44] := by decide
  unfold expHeadChecked expHead
  simp only []
  cases hat : reMatch atRe true (nth lines 0) with
  | some m =>
    obtain ⟨v1, e1⟩ := reMatch_sets atRe true 1 (by decide) _ m hat
    obtain ⟨v2, e2⟩ := reMatch_sets atRe true 2 (by decide) _ m hat
    simp only [e1, e2, Option.getD_some]
  | none =>
    simp only []
    split
    · rename_i hinc
      rw [hbar] at hinc
      have hl := splitChar_length_of_includes 124 _ hinc
      have hl' : 1 < ((splitChar 124 (nth lines 0)).map trim).length := by simpa using hl
      rw [get?_eq_some_nth _ 0 (by omega), get?_eq_some_nth _ 1 hl']
      simp only []
      split <;> rename_i h <;> simp only [h]
    · split
      · rename_i hinc
        rw [hcomma] at hinc
        have hl := splitChar_length_of_includes 44 _ hinc
        have hl' : 1 < ((splitChar 44 (nth lines 0)).map trim).length := by simpa using hl
        rw [get?_eq_some_nth _ 0 (by omega), get?_eq_some_nth _ 1 hl']
        simp only []
        split
        · rename_i h2
          rw [get?_eq_some_nth _ 2 h2]
          simp only []
          split <;> rfl
        · rfl
      · split
        · rename_i h1
          rw [get?_eq_some_nth _ 1 h1]
          simp only []
          split
          · split
            · rename_i h2
              rw [get?_eq_some_nth _ 2 h2]
              rfl
            · rfl
          · rfl
        · rfl

theorem parseExperienceItem_eq (e : Str) :
    parseExperienceItem e = expFinish (expHead (splitChar 10 e)) (splitChar 10 e) e := rfl

theorem eduHeadChecked_eq (lines : List Str) : eduHeadChecked lines = some (eduHead lines) := by
  have hcomma : str "," = [44] := by decide
  unfold eduHeadChecked eduHead
  simp only []
  split
  · split
    · rename_i h1
      rw [get?_eq_some_nth _ 1 h1]; rfl
    · rfl
  · split
    · split
      · rename_i h1
        rw [get?_eq_some_nth _ 1 h1]; rfl
      · rfl
    · split
      · split
        · rename_i h1
          rw [get?_eq_some_nth _ 1 h1]; rfl
        · rfl
      · split
        · rename_i hinc
          rw [hcomma] at hinc
          have hl := splitChar_length_of_includes 44 _ hinc
          have hl' : 1 < ((splitChar 44 (nth lines 0)).map trim).length := by
            simpa using hl
          rw [get?_eq_some_nth _ 0 (by omega), get?_eq_some_nth _ 1 hl']
        · rfl

theorem parseEducationItem_eq (e : Str) :
    parseEducationItem e = eduFinish (eduHead (splitChar 10 e)) (splitChar 10 e) := rfl

theorem parseLanguageChecked_eq (text : Str) :
    parseLanguageChecked text = some (parseLanguage text) := by
  unfold parseLanguageChecked parseLanguage
  cases h1 : reMatch levelRe false text with
  | some m =>
    obtain ⟨v1, e1⟩ := reMatch_sets levelRe false 1 (by decide) _ m h1
    obtain ⟨v2, e2⟩ := reMatch_sets levelRe false 2 (by decide) _ m h1
    simp only [e1, e2, Option.getD_some]
  | none =>
    simp only []
    cases h2 : reMatch wordLevelRe true text with
    | some m =>
      obtain ⟨v1, e1⟩ := reMatch_sets wordLevelRe true 1 (by decide) _ m h2
      obtain ⟨v2, e2⟩ := reMatch_sets wordLevelRe true 2 (by decide) _ m h2
      simp only [e1, e2, Option.getD_some]
    | none => rfl

theorem parseLanguagesChecked_eq (buffer : List Str) :
    parseLanguagesChecked buffer = some (parseLanguages buffer) := by
  unfold parseLanguagesChecked parseLanguages
  rw [collect_map_some _ languagesOfLine]
  · simp [List.flatMap]
  · intro line _
    unfold languagesOfLine
    simp only []
    split
    · rfl
    · split
      · exact collect_map_some _ _ _ (fun t _ => parseLanguageChecked_eq t)
      · rw [parseLanguageChecked_eq]; rfl

theorem certificationsOfLineChecked_eq (line : Str) :
    certificationsOfLineChecked line = some (certificationsOfLine line) := by
  unfold certificationsOfLineChecked certificationsOfLine
  simp only []
  split
  · rfl
  · split
    · split
      · by_cases h1 : (((splitChar 44 (cleanBullet line)).map trim).filter truthy).length > 1
        · simp only [h1, if_true, get?_eq_some_nth _ 1 h1]
          split
          · split
            · rename_i h2
              rw [get?_eq_some_nth _ 2 h2]; rfl
            · rfl
          · split
            · rename_i h2
              rw [get?_eq_some_nth _ 2 h2]; rfl
            · rfl
        · have h2 : ¬ ((((splitChar 44 (cleanBullet line)).map trim).filter truthy).length > 2) := by
            omega
          simp only [h1, h2, if_false]
          split <;> rfl
      · rfl
    · split <;> rename_i h <;> simp only [h]

/-- C13: every section parser dispatched by `pushBufferToSection` is total: for every
buffer of strings no read of an array element or capture group that is used as a string
is `undefined`, so the call returns the updated record and never raises. -/
theorem section_parsers_total (sec : SectionId) (buffer : List Str) (sections : Sections) :
    pushBufferToSectionChecked sec buffer sections
      = some (pushBufferToSection sec buffer sections) := by
  cases sec with
  | summary => rfl
  | skills => rfl
  | projects => rfl
  | experience =>
    have h : parseExperienceChecked buffer = some (parseExperience buffer) := by
      unfold parseExperienceChecked parseExperience
      exact collect_map_some _ _ _ (fun e _ => by rw [expHeadChecked_eq, parseExperienceItem_eq]; rfl)
    simp only [pushBufferToSectionChecked, h, pushBufferToSection, Option.map_some']
  | education =>
    have h : parseEducationChecked buffer = some (parseEducation buffer) := by
      unfold parseEducationChecked parseEducation
      exact collect_map_some _ _ _ (fun e _ => by rw [eduHeadChecked_eq, parseEducationItem_eq]; rfl)
    simp only [pushBufferToSectionChecked, parseLanguagesChecked_eq, h, pushBufferToSection,
      Option.map_some']
  | languages =>
    simp only [pushBufferToSectionChecked, parseLanguagesChecked_eq, pushBufferToSection,
      Option.map_some']
  | certifications =>
    have h : parseCertificationsChecked buffer = some (parseCertifications buffer) := by
      unfold parseCertificationsChecked parseCertifications
      rw [collect_map_some _ certificationsOfLine _ (fun l _ => certificationsOfLineChecked_eq l)]
      simp [List.flatMap]
    simp only [pushBufferToSectionChecked, h, pushBufferToSection, Option.map_some']

/-! ### `normalizeResumeData` on loosely typed values -/

theorem lookupJs_optProp_eq (key : Key) (v : Option JsValue) (rest : List (Key × JsValue)) :
    lookupJs (optProp key v ++ rest) key = v.getD (lookupJs rest key) := by
  cases v with
  | none => rfl
  | some x => simp [optProp, lookupJs]

theorem lookupJs_optProp_ne (k key : Key) (v : Option JsValue) (rest : List (Key × JsValue))
    (h : k ≠ key) : lookupJs (optProp k v ++ rest) key = lookupJs rest key := by
  cases v with
  | none => rfl
  | some x => simp [optProp, lookupJs, h]

theorem lookupJs_nil (key : Key) : lookupJs [] key = .undefined := rfl

theorem jsOfOptStr_fold (v : Option Str) :
    (Option.map JsValue.str v).getD JsValue.undefined = jsOfOptStr v := rfl

theorem jsOr_str_chain (a b : Option Str) :
    jsOr (jsOr (jsOfOptStr a) (jsOfOptStr b)) (.str []) = .str (orElse (a.getD []) (optOr b [])) := by
  cases a with
  | none =>
    cases b with
    | none => rfl
    | some t => cases t <;> rfl
  | some s =>
    cases s with
    | nil =>
      cases b with
      | none => rfl
      | some t => cases t <;> rfl
    | cons c s' => rfl

theorem jsOr_str_default (a : Option Str) (dflt : Str) :
    jsOr (jsOfOptStr a) (.str dflt) = .str (optOr a dflt) := by
  cases a with
  | none => cases dflt <;> rfl
  | some s => cases s <;> rfl

theorem recaseNameJs_str (s : Str) : recaseNameJs (.str s) = some (.str (recaseName s)) := by
  cases s with
  | nil => rfl
  | cons c t => rfl

theorem recaseRoleJs_str (s : Str) : recaseRoleJs (.str s) = some (.str (recaseRole s)) := by
  cases s with
  | nil => rfl
  | cons c t => rfl

theorem normalizeExperienceJs_toJs (e : ExperienceItem) :
    normalizeExperienceJs e.toJs = some (normalizeExperience e).toJs := by
  cases e with
  | text s => rfl
  | obj o =>
    simp only [ExperienceItem.toJs, normalizeExperienceJs, JsValue.get, strProp,
      lookupJs_optProp_eq, lookupJs_optProp_ne, lookupJs_nil, ne_eq, not_false_eq_true,
      reduceCtorEq]
    simp only [jsOfOptStr_fold, jsOr_str_chain, normalizeExperience, optProp, Option.map_some',
      Option.map_none', List.cons_append, List.nil_append]

theorem normalizeEducationJs_toJs (e : EducationItem) :
    normalizeEducationJs e.toJs = some (normalizeEducation e).toJs := by
  cases e with
  | text s => rfl
  | obj o =>
    simp only [EducationItem.toJs, normalizeEducationJs, JsValue.get, strProp,
      lookupJs_optProp_eq, lookupJs_optProp_ne, lookupJs_nil, ne_eq, not_false_eq_true,
      reduceCtorEq]
    simp only [jsOfOptStr_fold, jsOr_str_chain, jsOr_str_default, normalizeEducation, optProp,
      Option.map_some', Option.map_none', List.cons_append, List.nil_append]

theorem jsOfOptStr_truthy (v : Option Str) : (jsOfOptStr v).truthy = truthy (v.getD []) := by
  cases v with
  | none => rfl
  | some s => rfl

theorem normalizeLanguageJs_toJs (e : LanguageItem) :
    normalizeLanguageJs e.toJs = some (normalizeLanguage e).toJs := by
  cases e with
  | text s => rfl
  | obj o =>
    simp only [LanguageItem.toJs, normalizeLanguageJs, JsValue.get, strProp,
      lookupJs_optProp_eq, lookupJs_optProp_ne, lookupJs_nil, ne_eq, not_false_eq_true,
      reduceCtorEq]
    simp only [jsOfOptStr_fold, jsOr_str_default, normalizeLanguage, optProp,
      Option.map_some', Option.map_none', List.cons_append, List.nil_append]
    cases hl : o.level with
    | none => rfl
    | some l =>
      cases l with
      | nil => rfl
      | cons c t => rfl

theorem normalizeSkillGroupJs_toJs (g : SkillObj) :
    normalizeSkillGroupJs g.toJs
      = some (SkillObj.toJs ⟨some (optOr g.category (str "Skills")), some (g.items.getD [])⟩) := by
  simp only [SkillObj.toJs, normalizeSkillGroupJs, JsValue.get, strProp,
    lookupJs_optProp_eq, lookupJs_optProp_ne, lookupJs_nil, ne_eq, not_false_eq_true,
    reduceCtorEq]
  simp only [jsOfOptStr_fold, jsOr_str_default, optProp, Option.map_some', Option.map_none',
    List.cons_append, List.nil_append]
  cases g.items <;> rfl

theorem normalizeSkillsJs_toJs (v : Option SkillsValue) :
    normalizeSkillsJs ((v.map SkillsValue.toJs).getD .undefined)
      = some ((normalizeSkills v).map SkillObj.toJs) := by
  cases v with
  | none => rfl
  | some w =>
    cases w with
    | strings xs =>
      cases xs with
      | nil => rfl
      | cons x t =>
        simp [normalizeSkills, normalizeSkillsJs, SkillsValue.toJs, SkillObj.toJs, strProp,
          optProp]
    | groups gs =>
      cases gs with
      | nil => rfl
      | cons g rest =>
        have hfirst : g.toJs.get .items
            = some ((g.items.map (fun xs => JsValue.arr (xs.map JsValue.str))).getD .undefined) := by
          simp only [SkillObj.toJs, JsValue.get, strProp, lookupJs_optProp_eq,
            lookupJs_optProp_ne, lookupJs_nil, ne_eq, not_false_eq_true, reduceCtorEq]
        have hobj : ∃ props, g.toJs = .obj props := ⟨_, rfl⟩
        obtain ⟨props, hp⟩ := hobj
        simp only [Option.map_some', Option.getD_some, SkillsValue.toJs, List.map_cons,
          normalizeSkillsJs]
        rw [hp]
        simp only []
        rw [← hp, hfirst]
        cases hi : g.items with
        | none => simp [normalizeSkills, hi, JsValue.truthy]
        | some xs =>
          simp only [Option.map_some', Option.getD_some, JsValue.truthy, if_true,
            normalizeSkills, hi, Option.isSome_some]
          show collect (List.map normalizeSkillGroupJs (List.map SkillObj.toJs (g :: rest))) = _
          rw [List.map_map, List.map_map]
          exact collect_map_some _ _ _ (fun s _ => normalizeSkillGroupJs_toJs s)

theorem contactFallbackJs_typed (data : JsValue) (field : Key) (a : Option Str)
    (c : Option ContactObj) (f : ContactObj → Option Str)
    (h1 : data.get field = some (jsOfOptStr a))
    (h2 : data.get .contactInfo = some ((c.map ContactObj.toJs).getD .undefined))
    (h3 : ∀ co : ContactObj, co.toJs.get field = some (jsOfOptStr (f co))) :
    contactFallbackJs data field = some (.str (withContactFallback a (c.bind f))) := by
  unfold contactFallbackJs
  rw [h1, h2]
  simp only []
  have hfall : ∀ a' : Option Str, (jsOfOptStr a').truthy = false →
      withContactFallback a' (c.bind f) = optOr (c.bind f) [] := by
    intro a' ha
    rw [jsOfOptStr_truthy] at ha
    cases a' with
    | none => rfl
    | some s =>
      cases s with
      | nil => rfl
      | cons x t => simp [truthy] at ha
  by_cases ht : (jsOfOptStr a).truthy = true
  · simp only [ht, if_true]
    cases a with
    | none => simp [jsOfOptStr, JsValue.truthy] at ht
    | some s =>
      cases s with
      | nil => simp [jsOfOptStr, JsValue.truthy] at ht
      | cons x t => rfl
  · have ht' : (jsOfOptStr a).truthy = false := by simpa using ht
    simp only [ht', Bool.false_eq_true, if_false, hfall a ht']
    cases c with
    | none => rfl
    | some co =>
      have hobj : (ContactObj.toJs co).truthy = true := rfl
      simp only [Option.map_some', Option.getD_some, hobj, if_true, h3 co, Option.bind,
        jsOr_str_default]

theorem ResumeData_toJs_gets (d : ResumeData) :
    d.toJs.get .name = some (jsOfOptStr d.name) ∧
    d.toJs.get .role = some (jsOfOptStr d.role) ∧
    d.toJs.get .phone = some (jsOfOptStr d.phone) ∧
    d.toJs.get .location = some (jsOfOptStr d.location) ∧
    d.toJs.get .contactInfo = some ((d.contactInfo.map ContactObj.toJs).getD .undefined) ∧
    d.toJs.get .experience = some ((d.experience.map
      (fun xs => JsValue.arr (xs.map ExperienceItem.toJs))).getD .undefined) ∧
    d.toJs.get .education = some ((d.education.map
      (fun xs => JsValue.arr (xs.map EducationItem.toJs))).getD .undefined) ∧
    d.toJs.get .skills = some ((d.skills.map SkillsValue.toJs).getD .undefined) ∧
    d.toJs.get .languages = some ((d.languages.map
      (fun xs => JsValue.arr (xs.map LanguageItem.toJs))).getD .undefined) := by
  simp only [ResumeData.toJs, JsValue.get, strProp, lookupJs_optProp_eq, lookupJs_optProp_ne,
    lookupJs_nil, ne_eq, not_false_eq_true, reduceCtorEq, jsOfOptStr_fold, and_self]

theorem ContactObj_toJs_gets (co : ContactObj) :
    co.toJs.get .name = some (jsOfOptStr co.name) ∧
    co.toJs.get .role = some (jsOfOptStr co.role) ∧
    co.toJs.get .phone = some (jsOfOptStr co.phone) ∧
    co.toJs.get .location = some (jsOfOptStr co.location) := by
  simp only [ContactObj.toJs, JsValue.get, strProp, lookupJs_optProp_eq, lookupJs_optProp_ne,
    lookupJs_nil, ne_eq, not_false_eq_true, reduceCtorEq, jsOfOptStr_fold, and_self]

theorem mapArrayJs_typed {α : Type} (f : JsValue → Option JsValue) (toJs : α → JsValue)
    (g : α → α) (h : ∀ x, f (toJs x) = some (toJs (g x))) (v : Option (List α)) :
    mapArrayJs f ((v.map (fun xs => JsValue.arr (xs.map toJs))).getD .undefined)
      = some (((v.getD []).map g).map toJs) := by
  cases v with
  | none => rfl
  | some xs =>
    simp only [Option.map_some', Option.getD_some, mapArrayJs, List.map_map]
    exact collect_map_some _ _ _ (fun x _ => h x)

/-- C12 (amended): on every record whose present fields have the expected types,
`normalizeResumeData` returns without raising, and its computed properties are those of
the typed normaliser. -/
theorem normalize_total_on_typed (d : ResumeData) :
    ∃ out : NormalizedJs, normalizeResumeDataJs d.toJs = some out ∧
      out.name = jsOfOptStr (normalizeResumeData d).name ∧
      out.role = jsOfOptStr (normalizeResumeData d).role ∧
      out.phone = jsOfOptStr (normalizeResumeData d).phone ∧
      out.location = jsOfOptStr (normalizeResumeData d).location ∧
      out.experience = ((normalizeResumeData d).experience.getD []).map ExperienceItem.toJs ∧
      out.education = ((normalizeResumeData d).education.getD []).map EducationItem.toJs ∧
      some (JsValue.arr out.skills) = (normalizeResumeData d).skills.map SkillsValue.toJs ∧
      out.languages = ((normalizeResumeData d).languages.getD []).map LanguageItem.toJs := by
  obtain ⟨g1, g2, g3, g4, g5, g6, g7, g8, g9⟩ := ResumeData_toJs_gets d
  have c1 := contactFallbackJs_typed d.toJs .name d.name d.contactInfo (fun c => c.name) g1 g5
    (fun co => (ContactObj_toJs_gets co).1)
  have c2 := contactFallbackJs_typed d.toJs .role d.role d.contactInfo (fun c => c.role) g2 g5
    (fun co => (ContactObj_toJs_gets co).2.1)
  have c3 := contactFallbackJs_typed d.toJs .phone d.phone d.contactInfo (fun c => c.phone) g3 g5
    (fun co => (ContactObj_toJs_gets co).2.2.1)
  have c4 := contactFallbackJs_typed d.toJs .location d.location d.contactInfo
    (fun c => c.location) g4 g5 (fun co => (ContactObj_toJs_gets co).2.2.2)
  have e1 := mapArrayJs_typed normalizeExperienceJs ExperienceItem.toJs normalizeExperience
    normalizeExperienceJs_toJs d.experience
  have e2 := mapArrayJs_typed normalizeEducationJs EducationItem.toJs normalizeEducation
    normalizeEducationJs_toJs d.education
  have e3 := normalizeSkillsJs_toJs d.skills
  have e4 := mapArrayJs_typed normalizeLanguageJs LanguageItem.toJs normalizeLanguage
    normalizeLanguageJs_toJs d.languages
  unfold normalizeResumeDataJs
  simp only [c1, c2, c3, c4, g6, g7, g8, g9, e1, e2, e3, e4, recaseNameJs_str, recaseRoleJs_str]
  refine ⟨_, rfl, ?_⟩
  simp [normalizeResumeData, jsOfOptStr, SkillsValue.toJs]

/-- C12 (as stated, refuted): `normalizeResumeData` raises on the object `{name: 123}`
(a name that is not a string), on `{experience: [null]}` and on
`{languages: [{level: 5}]}`. -/
theorem normalize_raises_on_malformed :
    (normalizeResumeDataJs (.obj [(.name, .num 123)])).isNone = true ∧
    (normalizeResumeDataJs (.obj [(.experience, .arr [.null])])).isNone = true ∧
    (normalizeResumeDataJs (.obj [(.languages, .arr [.obj [(.level, .num 5)]])])).isNone
      = true := by
  decide

/-! ### The matcher on quantifiers over one code unit -/

theorem stepChar_cons (p : Nat → Bool) (prev : Option Nat) (d : Nat) (t : Str)
    (caps : List (Nat × Str)) :
    stepChar p ⟨prev, d :: t, caps⟩ = if p d then [⟨some d, t, caps⟩] else [] := rfl

theorem stepChar_nil (p : Nat → Bool) (prev : Option Nat) (caps : List (Nat × Str)) :
    stepChar p ⟨prev, [], caps⟩ = [] := rfl

theorem repLoop_star (p : Nat → Bool) (g : Bool) (caps : List (Nat × Str)) :
    ∀ (rest : Str) (fuel : Nat) (prev : Option Nat), rest.length < fuel →
      repLoop (stepChar p) g fuel 0 none ⟨prev, rest, caps⟩ = starStates p g caps prev rest := by
  intro rest
  induction rest with
  | nil =>
    intro fuel prev h
    cases fuel with
    | zero => simp at h
    | succ f =>
      cases g <;> simp [repLoop, stepChar, starStates]
  | cons d t ih =>
    intro fuel prev h
    cases fuel with
    | zero => simp at h
    | succ f =>
      have hf : t.length < f := by simpa using h
      have ih' := ih f (some d) hf
      by_cases hp : p d = true
      · cases g <;> simp [repLoop, stepChar_cons, starStates, hp, ih']
      · cases g <;> simp [repLoop, stepChar_cons, starStates, hp]

theorem repLoop_plus (p : Nat → Bool) (g : Bool) (caps : List (Nat × Str)) (rest : Str)
    (fuel : Nat) (prev : Option Nat) (h : rest.length + 1 < fuel) :
    repLoop (stepChar p) g fuel 1 none ⟨prev, rest, caps⟩
      = (stepChar p ⟨prev, rest, caps⟩).flatMap
          (fun s1 => starStates p g caps s1.prev s1.rest) := by
  cases fuel with
  | zero => simp at h
  | succ f =>
    cases rest with
    | nil => simp [repLoop, stepChar]
    | cons d t =>
      have hf : t.length < f := by simp at h; omega
      by_cases hp : p d = true
      · simp [repLoop, stepChar_cons, hp, repLoop_star p g caps t f (some d) hf]
      · simp [repLoop, stepChar_cons, hp]

theorem starStates_lazy_head (p : Nat → Bool) (caps : List (Nat × Str)) (prev : Option Nat)
    (rest : Str) :
    ∃ tl, starStates p false caps prev rest = ⟨prev, rest, caps⟩ :: tl := by
  cases rest with
  | nil => exact ⟨[], rfl⟩
  | cons d t =>
    by_cases hp : p d = true
    · exact ⟨starStates p false caps (some d) t, by simp [starStates, hp]⟩
    · exact ⟨[], by simp [starStates, hp]⟩

theorem starStates_greedy_head (p : Nat → Bool) (caps : List (Nat × Str)) (R : Str)
    (hR : ∀ c t, R = c :: t → p c = false) :
    ∀ (W : Str) (prev : Option Nat), (∀ c ∈ W, p c = true) →
      ∃ prev' tl, starStates p true caps prev (W ++ R) = ⟨prev', R, caps⟩ :: tl := by
  intro W
  induction W with
  | nil =>
    intro prev _
    cases R with
    | nil => exact ⟨prev, [], rfl⟩
    | cons c t =>
      have := hR c t rfl
      exact ⟨prev, [], by simp [starStates, this]⟩
  | cons c W' ih =>
    intro prev hW
    have hc : p c = true := hW c (by simp)
    obtain ⟨prev', tl, e⟩ := ih (some c) (fun x hx => hW x (List.mem_cons_of_mem _ hx))
    exact ⟨prev', tl ++ [⟨prev, c :: (W' ++ R), caps⟩], by simp [starStates, hc, e]⟩

theorem mem_starStates (p : Nat → Bool) (g : Bool) (caps : List (Nat × Str)) :
    ∀ (rest : Str) (prev : Option Nat) (s : MState), s ∈ starStates p g caps prev rest →
      s.caps = caps ∧ ∃ pre, rest = pre ++ s.rest ∧ ∀ c ∈ pre, p c = true := by
  intro rest
  induction rest with
  | nil =>
    intro prev s h
    simp only [starStates, List.mem_singleton] at h
    subst h
    exact ⟨rfl, [], rfl, by simp⟩
  | cons d t ih =>
    intro prev s h
    have hself : s = ⟨prev, d :: t, caps⟩ →
        s.caps = caps ∧ ∃ pre, d :: t = pre ++ s.rest ∧ ∀ c ∈ pre, p c = true := by
      intro e
      subst e
      exact ⟨rfl, [], rfl, by simp⟩
    by_cases hp : p d = true
    · have hrec : s ∈ starStates p g caps (some d) t →
          s.caps = caps ∧ ∃ pre, d :: t = pre ++ s.rest ∧ ∀ c ∈ pre, p c = true := by
        intro hm
        obtain ⟨hc, pre, e, hpre⟩ := ih (some d) s hm
        refine ⟨hc, d :: pre, by rw [e]; rfl, ?_⟩
        intro c hcm
        rcases List.mem_cons.mp hcm with rfl | hcm
        · exact hp
        · exact hpre c hcm
      cases g
      · simp only [starStates, hp, if_true, Bool.false_eq_true, if_false, List.mem_cons] at h
        rcases h with h | h
        · exact hself h
        · exact hrec h
      · simp only [starStates, hp, if_true, List.mem_append, List.mem_singleton] at h
        rcases h with h | h
        · exact hrec h
        · exact hself h
    · simp only [starStates, hp, Bool.false_eq_true, if_false, List.mem_singleton] at h
      exact hself h

theorem head?_flatMap_cons_nil {α β : Type} (f : α → List β) (x : α) (xs : List α)
    (h : f x = []) : ((x :: xs).flatMap f).head? = (xs.flatMap f).head? := by
  simp [List.flatMap_cons, h]

theorem head?_flatMap_cons_some {α β : Type} (f : α → List β) (x : α) (xs : List α) (y : β)
    (h : (f x).head? = some y) : ((x :: xs).flatMap f).head? = some y := by
  cases hfx : f x with
  | nil => rw [hfx] at h; simp at h
  | cons a tl =>
    rw [hfx] at h
    simp only [List.head?_cons, Option.some.injEq] at h
    simp [List.flatMap_cons, hfx, h]

/-- A lazy quantifier followed by `K`: when `K` fails at every position inside `N` and
succeeds right after `N`, the first match is the first match of `K` after `N`. -/
theorem lazy_first (p : Nat → Bool) (caps : List (Nat × Str)) (K : MState → List MState)
    (Q : MState → Prop) (R : Str)
    (hsucc : ∀ prev', ∃ st, (K ⟨prev', R, caps⟩).head? = some st ∧ Q st) :
    ∀ (N : Str) (prev : Option Nat), (∀ c ∈ N, p c = true) →
      (∀ pre suf, N = pre ++ suf → suf ≠ [] → ∀ prev', K ⟨prev', suf ++ R, caps⟩ = []) →
      ∃ st, ((starStates p false caps prev (N ++ R)).flatMap K).head? = some st ∧ Q st := by
  intro N
  induction N with
  | nil =>
    intro prev _ _
    obtain ⟨st, hst, hq⟩ := hsucc prev
    obtain ⟨tl, e⟩ := starStates_lazy_head p caps prev R
    exact ⟨st, by rw [List.nil_append, e]; exact head?_flatMap_cons_some K _ tl st hst, hq⟩
  | cons c N' ih =>
    intro prev hp hfail
    have hc : p c = true := hp c (by simp)
    obtain ⟨st, hst, hq⟩ := ih (some c) (fun x hx => hp x (List.mem_cons_of_mem _ hx))
      (fun pre suf e hs prev' => hfail (c :: pre) suf (by rw [e]; rfl) hs prev')
    refine ⟨st, ?_, hq⟩
    have h0 : K ⟨prev, c :: (N' ++ R), caps⟩ = [] := hfail [] (c :: N') rfl (by simp) prev
    rw [List.cons_append]
    simp only [starStates, hc, if_true, Bool.false_eq_true, if_false]
    rw [head?_flatMap_cons_nil K _ _ h0]
    exact hst


/-! ### The pattern of `parseLanguage` -/

theorem run_star_set (ci : Bool) (g : Bool) (neg : Bool) (items : List ClassItem) (s : MState) :
    Re.run ci (.rep g 0 none (.set neg items)) s
      = starStates (fun d => (items.any (ClassItem.test ci d)) != neg) g s.caps s.prev s.rest := by
  obtain ⟨prev, rest, caps⟩ := s
  show repLoop (stepChar (fun d => (items.any (ClassItem.test ci d)) != neg)) g
    (rest.length + 0 + 1) 0 none ⟨prev, rest, caps⟩ = _
  exact repLoop_star _ g caps rest _ prev (by omega)

theorem run_star_dot (ci : Bool) (g : Bool) (s : MState) :
    Re.run ci (.rep g 0 none .dot) s
      = starStates (fun d => !isLineTerminator d) g s.caps s.prev s.rest := by
  obtain ⟨prev, rest, caps⟩ := s
  show repLoop (stepChar (fun d => !isLineTerminator d)) g (rest.length + 0 + 1) 0 none
    ⟨prev, rest, caps⟩ = _
  exact repLoop_star _ g caps rest _ prev (by omega)

theorem run_opt_char (ci : Bool) (c : Nat) (s : MState) :
    Re.run ci (.rep true 0 (some 1) (.char c)) s = stepChar (inRangeCI ci c c) s ++ [s] := by
  obtain ⟨prev, rest, caps⟩ := s
  show repLoop (stepChar (inRangeCI ci c c)) true (rest.length + 0 + 1) 0 (some 1)
    ⟨prev, rest, caps⟩ = _
  cases rest with
  | nil => simp [repLoop, stepChar]
  | cons d t =>
    by_cases hp : inRangeCI ci c c d = true
    · cases ht : t.length <;> simp [repLoop, stepChar_cons, hp, ht]
    · simp [repLoop, stepChar_cons, hp]

theorem spaceClass_test (ci : Bool) (d : Nat) :
    (([ClassItem.space].any (ClassItem.test ci d)) != false) = isSpace d := by
  simp [ClassItem.test]

theorem levelSep_test (d : Nat) :
    (([ClassItem.one 40, ClassItem.one 45, ClassItem.one 58].any (ClassItem.test false d)) != false)
      = (d == 40 || d == 45 || d == 58) := by
  simp only [List.any_cons, List.any_nil, ClassItem.test, inRangeCI, Bool.false_and,
    Bool.or_false, Bool.bne_false]
  rw [Bool.eq_iff_iff]
  simp only [Bool.or_eq_true, Bool.and_eq_true, decide_eq_true_eq, beq_iff_eq]
  omega

theorem run_levelRe (s : MState) :
    Re.run false levelRe s = (Re.run false .bol s).flatMap (fun s0 =>
      (Re.run false (.group 1 (.rep false 0 none .dot)) s0).flatMap levelAfterName) := rfl


theorem levelTail_eq (prev : Option Nat) (rest : Str) (caps : List (Nat × Str)) :
    levelTail ⟨prev, rest, caps⟩ =
      if rest = [] then [⟨prev, [], caps⟩]
      else if rest = [41] then [⟨some 41, [], caps⟩] else [] := by
  unfold levelTail
  rw [run_opt_char]
  cases rest with
  | nil => simp [stepChar, Re.run]
  | cons d t =>
    by_cases hd : d = 41
    · subst hd
      cases t with
      | nil => simp [stepChar, Re.run, inRangeCI]
      | cons e t' => simp [stepChar, Re.run, inRangeCI]
    · have : inRangeCI false 41 41 d = false := by
        simp only [inRangeCI, Bool.false_and, Bool.or_false, Bool.and_eq_false_iff,
          decide_eq_false_iff_not]
        omega
      simp [stepChar, Re.run, this, hd]

theorem run_group (ci : Bool) (i : Nat) (a : Re) (s : MState) :
    Re.run ci (.group i a) s = (Re.run ci a s).map (fun s1 =>
      { s1 with caps := (i, s.rest.take (s.rest.length - s1.rest.length)) :: s1.caps }) := rfl

theorem cap_cons_self (i : Nat) (v : Str) (caps : List (Nat × Str)) :
    cap i ((i, v) :: caps) = some v := by
  simp [cap]

theorem cap_cons_ne (i j : Nat) (v : Str) (caps : List (Nat × Str)) (h : j ≠ i) :
    cap i ((j, v) :: caps) = cap i caps := by
  simp [cap, h]

theorem levelSecond_match (L T : Str) (hL : ∀ c ∈ L, isLineTerminator c = false)
    (hT : (T = [] ∧ ∀ c, L.getLast? = some c → c ≠ 41) ∨ T = [41])
    (prev : Option Nat) (caps : List (Nat × Str)) :
    ∃ st, (levelSecond ⟨prev, L ++ T, caps⟩).head? = some st ∧
      cap 2 st.caps = some L ∧ cap 1 st.caps = cap 1 caps := by
  unfold levelSecond
  rw [run_group, run_star_dot, List.flatMap_map]
  apply lazy_first (fun d => !isLineTerminator d) caps _
    (fun st => cap 2 st.caps = some L ∧ cap 1 st.caps = cap 1 caps) T
  · intro prev'
    have htake : List.take ((L ++ T).length - T.length) (L ++ T) = L :=
      List.take_left' (by simp)
    simp only [levelTail_eq, htake]
    rcases hT with ⟨hT, _⟩ | hT
    · subst hT
      exact ⟨_, rfl, cap_cons_self 2 L caps, cap_cons_ne 1 2 L caps (by decide)⟩
    · subst hT
      exact ⟨_, rfl, cap_cons_self 2 L caps, cap_cons_ne 1 2 L caps (by decide)⟩
  · intro c hc
    simp [hL c hc]
  · intro pre suf e hs prev'
    simp only [levelTail_eq]
    have h1 : suf ++ T ≠ [] := by simp [hs]
    have h2 : suf ++ T ≠ [41] := by
      rcases hT with ⟨hT, hlast⟩ | hT
      · subst hT
        intro h
        rw [List.append_nil] at h
        subst h
        exact hlast 41 (by rw [e]; simp) rfl
      · subst hT
        intro h
        have := congrArg List.length h
        simp only [List.length_append, List.length_singleton] at this
        have hl : 0 < suf.length := List.length_pos.mpr hs
        omega
    simp [h1, h2]


theorem isSpace_set_pred :
    (fun d => (([ClassItem.space].any (ClassItem.test false d)) != false)) = isSpace :=
  funext (spaceClass_test false)

theorem levelSep_pred :
    (fun d => (([ClassItem.one 40, ClassItem.one 45, ClassItem.one 58].any
      (ClassItem.test false d)) != false)) = (fun d => d == 40 || d == 45 || d == 58) :=
  funext levelSep_test

theorem run_set (ci : Bool) (neg : Bool) (items : List ClassItem) (s : MState) :
    Re.run ci (.set neg items) s
      = stepChar (fun d => (items.any (ClassItem.test ci d)) != neg) s := rfl

theorem levelAfterName_match (W1 W2 L T : Str) (sep : Nat)
    (hsep : sep = 40 ∨ sep = 45 ∨ sep = 58)
    (hW1 : ∀ c ∈ W1, isSpace c = true) (hW2 : ∀ c ∈ W2, isSpace c = true)
    (hL : ∀ c ∈ L, isLineTerminator c = false)
    (hLhead : ∀ c, L.head? = some c → isSpace c = false)
    (hT : (T = [] ∧ ∀ c, L.getLast? = some c → c ≠ 41) ∨ T = [41])
    (prev : Option Nat) (caps : List (Nat × Str)) :
    ∃ st, (levelAfterName ⟨prev, W1 ++ sep :: (W2 ++ (L ++ T)), caps⟩).head? = some st ∧
      cap 2 st.caps = some L ∧ cap 1 st.caps = cap 1 caps := by
  have hsepws : isSpace sep = false := by
    rcases hsep with h | h | h <;> subst h <;> decide
  have hsepP : (sep == 40 || sep == 45 || sep == 58) = true := by
    rcases hsep with h | h | h <;> subst h <;> decide
  have hLT : ∀ c t, L ++ T = c :: t → isSpace c = false := by
    intro c t e
    cases L with
    | nil =>
      rcases hT with ⟨hT, _⟩ | hT
      · subst hT; simp at e
      · subst hT
        simp only [List.nil_append, List.cons.injEq] at e
        rw [← e.1]; decide
    | cons x xs =>
      simp only [List.cons_append, List.cons.injEq] at e
      rw [← e.1]
      exact hLhead x rfl
  unfold levelAfterName
  rw [run_star_set, isSpace_set_pred]
  obtain ⟨prev1, tl1, e1⟩ := starStates_greedy_head isSpace caps (sep :: (W2 ++ (L ++ T)))
    (fun c t e => by
      simp only [List.cons.injEq] at e
      rw [← e.1]; exact hsepws) W1 prev hW1
  obtain ⟨prev2, tl2, e2⟩ := starStates_greedy_head isSpace caps (L ++ T) hLT W2 (some sep) hW2
  obtain ⟨st, hst, hq⟩ := levelSecond_match L T hL hT prev2 caps
  refine ⟨st, ?_, hq⟩
  simp only [e1]
  apply head?_flatMap_cons_some
  rw [run_set, levelSep_pred, stepChar_cons, hsepP]
  simp only [if_true, List.flatMap_cons, List.flatMap_nil, List.append_nil]
  rw [run_star_set, isSpace_set_pred]
  simp only [e2]
  exact head?_flatMap_cons_some _ _ _ st hst

theorem levelAfterName_fail (suf R : Str) (hsuf : suf ≠ [])
    (hnosep : ∀ c ∈ suf, c ≠ 40 ∧ c ≠ 45 ∧ c ≠ 58)
    (hlast : ∀ c, suf.getLast? = some c → isSpace c = false)
    (prev : Option Nat) (caps : List (Nat × Str)) :
    levelAfterName ⟨prev, suf ++ R, caps⟩ = [] := by
  unfold levelAfterName
  rw [run_star_set, isSpace_set_pred, List.flatMap_eq_nil_iff]
  intro s2 hs2
  obtain ⟨_, pre, e, hpre⟩ := mem_starStates isSpace true caps _ _ s2 hs2
  have hallws_absurd : (∀ c ∈ suf, isSpace c = true) → False := by
    intro hall
    obtain ⟨c, hc⟩ : ∃ c, suf.getLast? = some c := by
      cases h : suf.getLast? with
      | none => exact absurd (List.getLast?_eq_none_iff.mp h) hsuf
      | some c => exact ⟨c, rfl⟩
    have h1 := hlast c hc
    have h2 := hall c (List.mem_of_getLast?_eq_some hc)
    rw [h1] at h2
    exact Bool.noConfusion h2
  have hstep : Re.run false (.set false [.one 40, .one 45, .one 58]) s2 = [] := by
    obtain ⟨p2, rest2, caps2⟩ := s2
    rw [run_set, levelSep_pred]
    cases rest2 with
    | nil => rfl
    | cons d t =>
      rw [stepChar_cons]
      have hd : (d == 40 || d == 45 || d == 58) = false := by
        simp only at e
        rcases List.append_eq_append_iff.mp e with ⟨a, ha, _⟩ | ⟨b, hb, hb2⟩
        · exfalso
          apply hallws_absurd
          intro c hc
          exact hpre c (by rw [ha]; exact List.mem_append_left _ hc)
        · cases b with
          | nil =>
            exfalso
            apply hallws_absurd
            intro c hc
            exact hpre c (by rw [List.append_nil] at hb; rw [← hb]; exact hc)
          | cons x xs =>
            simp only [List.cons_append, List.cons.injEq] at hb2
            have hx : x ∈ suf := by rw [hb]; simp
            have := hnosep x hx
            rw [hb2.1]
            simp [this.1, this.2.1, this.2.2]
      simp [hd]
  rw [hstep]
  rfl

/-- The pattern of `parseLanguage` on `N`, white space, a separator, white space, `L` and
an optional final ")": group 1 is `N` and group 2 is `L`. -/
theorem levelRe_match (N W1 W2 L T : Str) (sep : Nat)
    (hsep : sep = 40 ∨ sep = 45 ∨ sep = 58)
    (hN : ∀ c ∈ N, isLineTerminator c = false)
    (hNsep : ∀ c ∈ N, c ≠ 40 ∧ c ≠ 45 ∧ c ≠ 58)
    (hNlast : ∀ c, N.getLast? = some c → isSpace c = false)
    (hW1 : ∀ c ∈ W1, isSpace c = true) (hW2 : ∀ c ∈ W2, isSpace c = true)
    (hL : ∀ c ∈ L, isLineTerminator c = false)
    (hLhead : ∀ c, L.head? = some c → isSpace c = false)
    (hT : (T = [] ∧ ∀ c, L.getLast? = some c → c ≠ 41) ∨ T = [41]) :
    ∃ st, (Re.run false levelRe ⟨none, N ++ (W1 ++ sep :: (W2 ++ (L ++ T))), []⟩).head? = some st ∧
      cap 1 st.caps = some N ∧ cap 2 st.caps = some L := by
  rw [run_levelRe]
  have hbol : Re.run false .bol ⟨none, N ++ (W1 ++ sep :: (W2 ++ (L ++ T))), []⟩
      = [⟨none, N ++ (W1 ++ sep :: (W2 ++ (L ++ T))), []⟩] := rfl
  rw [hbol, List.flatMap_singleton, run_group, run_star_dot, List.flatMap_map]
  apply lazy_first (fun d => !isLineTerminator d) [] _
    (fun st => cap 1 st.caps = some N ∧ cap 2 st.caps = some L) (W1 ++ sep :: (W2 ++ (L ++ T)))
  · intro prev'
    have htake : List.take ((N ++ (W1 ++ sep :: (W2 ++ (L ++ T)))).length -
        (W1 ++ sep :: (W2 ++ (L ++ T))).length) (N ++ (W1 ++ sep :: (W2 ++ (L ++ T)))) = N :=
      List.take_left' (by simp)
    simp only [htake]
    obtain ⟨st, hst, h2, h1⟩ := levelAfterName_match W1 W2 L T sep hsep hW1 hW2 hL hLhead hT
      prev' [(1, N)]
    exact ⟨st, hst, by rw [h1]; exact cap_cons_self 1 N [], h2⟩
  · intro c hc
    simp [hN c hc]
  · intro pre suf e hs prev'
    apply levelAfterName_fail suf _ hs
    · intro c hc
      exact hNsep c (by rw [e]; exact List.mem_append_right _ hc)
    · intro c hc
      apply hNlast c
      rw [e, List.getLast?_append, hc]
      rfl


/-! ### Positions of the matcher -/

theorem stepChar_rest (p : Nat → Bool) (s s' : MState) (h : s' ∈ stepChar p s) :
    ∃ d, s.rest = d :: s'.rest ∧ p d = true := by
  obtain ⟨prev, rest, caps⟩ := s
  cases rest with
  | nil => simp [stepChar] at h
  | cons d t =>
    rw [stepChar_cons] at h
    split at h
    · rename_i hp
      simp only [List.mem_singleton] at h
      subst h
      exact ⟨d, rfl, hp⟩
    · simp at h

theorem repLoop_suffix (ma : MState → List MState)
    (hma : ∀ s s', s' ∈ ma s → ∃ pre, s.rest = pre ++ s'.rest) (g : Bool) :
    ∀ (fuel mn : Nat) (mx : Option Nat) (s s' : MState),
      s' ∈ repLoop ma g fuel mn mx s → ∃ pre, s.rest = pre ++ s'.rest := by
  intro fuel
  induction fuel with
  | zero =>
    intro mn mx s s' h
    unfold repLoop at h
    split at h
    · simp only [List.mem_singleton] at h
      exact ⟨[], by rw [h]; rfl⟩
    · simp at h
  | succ fuel ih =>
    intro mn mx s s' h
    have hself : s' = s → ∃ pre, s.rest = pre ++ s'.rest := fun e => ⟨[], by rw [e]; rfl⟩
    have hiter : s' ∈ (ma s).flatMap (fun s1 =>
        if mn = 0 ∧ s1.rest.length = s.rest.length then []
        else repLoop ma g fuel (mn - 1) (mx.map (· - 1)) s1) →
        ∃ pre, s.rest = pre ++ s'.rest := by
      intro hm
      obtain ⟨s1, hs1, hm1⟩ := List.mem_flatMap.mp hm
      split at hm1
      · simp at hm1
      · obtain ⟨p1, e1⟩ := hma s s1 hs1
        obtain ⟨p2, e2⟩ := ih _ _ s1 s' hm1
        exact ⟨p1 ++ p2, by rw [e1, e2, List.append_assoc]⟩
    unfold repLoop at h
    simp only [] at h
    split at h
    · exact hself (List.mem_singleton.mp h)
    · split at h
      · exact hiter h
      · split at h
        · rcases List.mem_append.mp h with h | h
          · exact hiter h
          · exact hself (List.mem_singleton.mp h)
        · rcases List.mem_cons.mp h with h | h
          · exact hself h
          · exact hiter h

/-- Every match ends at a position of the input at or after its start. -/
theorem run_suffix (ci : Bool) (r : Re) :
    ∀ s s' : MState, s' ∈ Re.run ci r s → ∃ pre, s.rest = pre ++ s'.rest := by
  have hstep : ∀ (p : Nat → Bool) (s s' : MState), s' ∈ stepChar p s →
      ∃ pre, s.rest = pre ++ s'.rest := by
    intro p s s' h
    obtain ⟨d, e, _⟩ := stepChar_rest p s s' h
    exact ⟨[d], by rw [e]; rfl⟩
  have hsame : ∀ s s' : MState, s' = s → ∃ pre, s.rest = pre ++ s'.rest :=
    fun s s' e => ⟨[], by rw [e]; rfl⟩
  induction r with
  | empty => intro s s' h; exact hsame s s' (by simpa [Re.run] using h)
  | char c => intro s s' h; exact hstep _ s s' h
  | set neg items => intro s s' h; exact hstep _ s s' h
  | dot => intro s s' h; exact hstep _ s s' h
  | bol =>
    intro s s' h
    simp only [Re.run] at h
    split at h
    · exact hsame s s' (List.mem_singleton.mp h)
    · simp at h
  | eol =>
    intro s s' h
    simp only [Re.run] at h
    split at h
    · exact hsame s s' (List.mem_singleton.mp h)
    · simp at h
  | wordBoundary =>
    intro s s' h
    simp only [Re.run] at h
    split at h
    · exact hsame s s' (List.mem_singleton.mp h)
    · simp at h
  | seq a b iha ihb =>
    intro s s' h
    simp only [Re.run, List.mem_flatMap] at h
    obtain ⟨s1, h1, h2⟩ := h
    obtain ⟨p1, e1⟩ := iha s s1 h1
    obtain ⟨p2, e2⟩ := ihb s1 s' h2
    exact ⟨p1 ++ p2, by rw [e1, e2, List.append_assoc]⟩
  | alt a b iha ihb =>
    intro s s' h
    simp only [Re.run, List.mem_append] at h
    rcases h with h | h
    · exact iha s s' h
    · exact ihb s s' h
  | rep g mn mx a iha =>
    intro s s' h
    simp only [Re.run] at h
    exact repLoop_suffix _ iha g _ _ _ s s' h
  | group i a iha =>
    intro s s' h
    simp only [Re.run, List.mem_map] at h
    obtain ⟨s1, h1, rfl⟩ := h
    exact iha s s1 h1
  | lookahead a iha =>
    intro s s' h
    simp only [Re.run] at h
    split at h
    · simp at h
    · rw [List.mem_singleton.mp h]
      exact ⟨[], rfl⟩

theorem searchFrom_bol_none (r : Re) (ci : Bool) :
    ∀ (rest pre : Str), pre ≠ [] → searchFrom (.seq .bol r) ci pre rest = none := by
  intro rest
  induction rest with
  | nil =>
    intro pre hpre
    cases pre with
    | nil => exact absurd rfl hpre
    | cons x xs => simp [searchFrom, matchAt, Re.run]
  | cons c t ih =>
    intro pre hpre
    cases pre with
    | nil => exact absurd rfl hpre
    | cons x xs =>
      have hm : matchAt (.seq .bol r) ci (x :: xs).head? (c :: t) = none := by
        simp [matchAt, Re.run]
      unfold searchFrom
      rw [hm]
      exact ih (c :: x :: xs) (by simp)

/-- A pattern that starts with `^` matches at the start of the input or not at all. -/
theorem reMatch_bol_none (r : Re) (ci : Bool) (s : Str)
    (h : Re.run ci (.seq .bol r) ⟨none, s, []⟩ = []) : reMatch (.seq .bol r) ci s = none := by
  unfold reMatch
  cases s with
  | nil => simp [searchFrom, matchAt, h]
  | cons c t =>
    unfold searchFrom
    simp only [List.head?_nil, matchAt, h]
    exact searchFrom_bol_none r ci t [c] (by simp)

theorem reMatch_of_head (r : Re) (ci : Bool) (s : Str) (st : MState)
    (h : (Re.run ci r ⟨none, s, []⟩).head? = some st) :
    ∃ m, reMatch r ci s = some m ∧ m.caps = st.caps := by
  unfold reMatch
  cases s with
  | nil => simp [searchFrom, matchAt, h]
  | cons c t => simp [searchFrom, matchAt, h]

theorem trim_last_not_space (s : Str) (h : trim s = s) (c : Nat) (hc : s.getLast? = some c) :
    isSpace c = false := by
  by_contra hsp
  have hsp' : isSpace c = true := by simpa using hsp
  obtain ⟨ys, e⟩ := List.getLast?_eq_some_iff.mp hc
  obtain ⟨t, ht⟩ := List.dropWhile_suffix isSpace (l := s)
  have hlen : (trim s).length < s.length := by
    unfold trim
    rw [List.length_reverse]
    cases hd : s.dropWhile isSpace with
    | nil =>
      simp only [List.reverse_nil, List.dropWhile_nil, List.length_nil]
      rw [e]; simp
    | cons x xs =>
      have hlast : (x :: xs).getLast? = some c := by
        have h1 : (t ++ (x :: xs)).getLast? = some c := by rw [← hd, ht]; exact hc
        rw [List.getLast?_append] at h1
        cases hx : (x :: xs).getLast? with
        | none => simp at hx
        | some v => rw [hx] at h1; simpa using h1
      obtain ⟨zs, ez⟩ := List.getLast?_eq_some_iff.mp hlast
      rw [ez, List.reverse_append, List.reverse_singleton, List.singleton_append,
        List.dropWhile_cons_of_pos hsp']
      have h2 := (List.dropWhile_sublist isSpace (l := zs.reverse)).length_le
      have h3 : (s.dropWhile isSpace).length ≤ s.length :=
        (List.dropWhile_sublist isSpace).length_le
      rw [hd, ez] at h3
      simp only [List.length_append, List.length_singleton, List.length_reverse] at h2 h3
      omega
  rw [h] at hlen
  exact Nat.lt_irrefl _ hlen

theorem trim_head?_not_space (s : Str) (h : trim s = s) (c : Nat) (hc : s.head? = some c) :
    isSpace c = false := by
  cases s with
  | nil => simp at hc
  | cons d t =>
    simp only [List.head?_cons, Option.some.injEq] at hc
    subst hc
    exact trim_head_not_space d t h


/-! ### The language helper on the documented line shapes -/

theorem parseLanguage_sep (N W1 W2 L T : Str) (sep : Nat)
    (hsep : sep = 40 ∨ sep = 45 ∨ sep = 58)
    (hNtrim : trim N = N) (hLtrim : trim L = L)
    (hN : ∀ c ∈ N, isLineTerminator c = false ∧ c ≠ 40 ∧ c ≠ 45 ∧ c ≠ 58)
    (hW1 : ∀ c ∈ W1, isSpace c = true) (hW2 : ∀ c ∈ W2, isSpace c = true)
    (hL : ∀ c ∈ L, isLineTerminator c = false)
    (hT : (T = [] ∧ ∀ c, L.getLast? = some c → c ≠ 41) ∨ T = [41]) :
    parseLanguage (N ++ (W1 ++ sep :: (W2 ++ (L ++ T)))) = ⟨N, L, getDotCount L⟩ := by
  obtain ⟨st, hst, h1, h2⟩ := levelRe_match N W1 W2 L T sep hsep (fun c hc => (hN c hc).1)
    (fun c hc => (hN c hc).2) (trim_last_not_space N hNtrim) hW1 hW2 hL
    (trim_head?_not_space L hLtrim) hT
  obtain ⟨m, hm, hc⟩ := reMatch_of_head levelRe false _ st hst
  unfold parseLanguage
  rw [hm]
  simp only [hc, h1, h2, Option.getD_some, hNtrim, hLtrim]

theorem levelAfterName_nosep (s1 : MState) (h : ∀ c ∈ s1.rest, c ≠ 40 ∧ c ≠ 45 ∧ c ≠ 58) :
    levelAfterName s1 = [] := by
  unfold levelAfterName
  rw [run_star_set, isSpace_set_pred, List.flatMap_eq_nil_iff]
  intro s2 hs2
  obtain ⟨_, pre, e, _⟩ := mem_starStates isSpace true s1.caps _ _ s2 hs2
  rw [List.flatMap_eq_nil_iff]
  intro s3 hs3
  rw [run_set, levelSep_pred] at hs3
  obtain ⟨d, e3, hp⟩ := stepChar_rest _ s2 s3 hs3
  have hd : d ∈ s1.rest := by rw [e, e3]; simp
  have := h d hd
  simp only [Bool.or_eq_true, beq_iff_eq] at hp
  omega

theorem levelRe_no_sep (t : Str) (h : ∀ c ∈ t, c ≠ 40 ∧ c ≠ 45 ∧ c ≠ 58) :
    reMatch levelRe false t = none := by
  have hrun : Re.run false levelRe ⟨none, t, []⟩ = [] := by
    rw [run_levelRe, List.flatMap_eq_nil_iff]
    intro s0 hs0
    obtain ⟨p0, e0⟩ := run_suffix false .bol _ s0 hs0
    rw [List.flatMap_eq_nil_iff]
    intro s1 hs1
    obtain ⟨p1, e1⟩ := run_suffix false _ s0 s1 hs1
    apply levelAfterName_nosep
    intro c hc
    apply h c
    show c ∈ (⟨none, t, []⟩ : MState).rest
    rw [e0, e1]
    simp [hc]
  exact reMatch_bol_none _ false t hrun

theorem mem_run_alts (ci : Bool) : ∀ (rs : List Re) (s s' : MState),
    s' ∈ Re.run ci (Re.alts rs) s → ∃ r ∈ rs, s' ∈ Re.run ci r s
  | [], s, s', h => by
    obtain ⟨d, _, hp⟩ := stepChar_rest _ s s' h
    simp at hp
  | [r], _, _, h => ⟨r, by simp, h⟩
  | r :: r2 :: rs, s, s', h => by
    change s' ∈ Re.run ci r s ++ Re.run ci (Re.alts (r2 :: rs)) s at h
    rcases List.mem_append.mp h with h | h
    · exact ⟨r, by simp, h⟩
    · obtain ⟨r', hr', h'⟩ := mem_run_alts ci (r2 :: rs) s s' h
      exact ⟨r', List.mem_cons_of_mem _ hr', h'⟩

theorem mem_run_lit (ci : Bool) : ∀ (w : Str) (s s' : MState),
    s' ∈ Re.run ci (Re.lit w) s →
      ∃ pre, s.rest = pre ++ s'.rest ∧ List.Forall₂ (fun a b => inRangeCI ci a a b = true) w pre
  | [], s, s', h => by
    have e : s' = s := by simpa [Re.lit, Re.run] using h
    subst e
    exact ⟨[], rfl, .nil⟩
  | [c], s, s', h => by
    obtain ⟨d, e, hp⟩ := stepChar_rest _ s s' h
    exact ⟨[d], by rw [e]; rfl, .cons hp .nil⟩
  | c :: c2 :: cs, s, s', h => by
    change s' ∈ (Re.run ci (.char c) s).flatMap (fun s1 => Re.run ci (Re.lit (c2 :: cs)) s1) at h
    obtain ⟨s1, h1, h2⟩ := List.mem_flatMap.mp h
    obtain ⟨d, e, hp⟩ := stepChar_rest _ s s1 h1
    obtain ⟨pre, e2, hf⟩ := mem_run_lit ci (c2 :: cs) s1 s' h2
    exact ⟨d :: pre, by rw [e, e2]; rfl, .cons hp hf⟩

theorem toLowerC_of_inRangeCI (a b : Nat) (h : inRangeCI true a a b = true) :
    toLowerC b = toLowerC a := by
  simp only [inRangeCI, toUpperC, toLowerC, isUpperAZ, isLowerAZ, Bool.true_and,
    Bool.or_eq_true, Bool.and_eq_true, decide_eq_true_eq] at h ⊢
  split_ifs at h ⊢ <;> omega

theorem toLowerCase_of_forall₂ (w pre : Str)
    (h : List.Forall₂ (fun a b => inRangeCI true a a b = true) w pre) :
    toLowerCase pre = toLowerCase w := by
  induction h with
  | nil => rfl
  | cons hab _ ih =>
    simp only [toLowerCase, List.map_cons] at ih ⊢
    rw [toLowerC_of_inRangeCI _ _ hab, ih]

theorem endsWith_append (a b : Str) : endsWith (a ++ b) b = true := by
  unfold endsWith
  rw [List.reverse_append]
  simp [List.isPrefixOf_iff_prefix]

theorem run_wordLevelRe (s : MState) :
    Re.run true wordLevelRe s = (Re.run true .bol s).flatMap (fun s0 =>
      (Re.run true (.group 1 (.plus (.set false [.range 65 90, .range 97 122]))) s0).flatMap
        (fun s2 => (Re.run true (.plus .s) s2).flatMap (fun s3 =>
          (Re.run true (.group 2 (Re.alts (wordLevelWords.map Re.lit))) s3).flatMap
            (fun s4 => Re.run true .eol s4)))) := rfl

theorem wordLevelRe_no_word (t : Str)
    (h : ∀ w ∈ wordLevelWords, endsWith (toLowerCase t) (toLowerCase w) = false) :
    reMatch wordLevelRe true t = none := by
  have hrun : Re.run true wordLevelRe ⟨none, t, []⟩ = [] := by
    rw [List.eq_nil_iff_forall_not_mem]
    intro st hst
    rw [run_wordLevelRe] at hst
    obtain ⟨s0, h0, hst⟩ := List.mem_flatMap.mp hst
    obtain ⟨s2, h2, hst⟩ := List.mem_flatMap.mp hst
    obtain ⟨s3, h3, hst⟩ := List.mem_flatMap.mp hst
    obtain ⟨s4, h4, hst⟩ := List.mem_flatMap.mp hst
    obtain ⟨p0, e0⟩ := run_suffix true _ _ s0 h0
    obtain ⟨p2, e2⟩ := run_suffix true _ _ s2 h2
    obtain ⟨p3, e3⟩ := run_suffix true _ _ s3 h3
    rw [run_group] at h4
    obtain ⟨s4a, h4a, e4a⟩ := List.mem_map.mp h4
    obtain ⟨r, hr, h4r⟩ := mem_run_alts true _ s3 s4a h4a
    obtain ⟨w, hw, rfl⟩ := List.mem_map.mp hr
    obtain ⟨pre, e4, hf⟩ := mem_run_lit true w s3 s4a h4r
    have hend : s4a.rest = [] := by
      have h5 : s4.rest = s4a.rest := by rw [← e4a]
      simp only [Re.run] at hst
      split at hst
      · rename_i hemp
        rw [← h5]
        simpa using hemp
      · simp at hst
    have ht : t = (p0 ++ p2 ++ p3) ++ pre := by
      have : (⟨none, t, []⟩ : MState).rest = t := rfl
      rw [← this, e0, e2, e3, e4, hend]
      simp
    have := h w hw
    rw [ht, toLowerCase, List.map_append] at this
    have hl := toLowerCase_of_forall₂ w pre hf
    rw [toLowerCase] at hl
    rw [hl, ← toLowerCase, endsWith_append] at this
    exact Bool.noConfusion this
  exact reMatch_bol_none _ true t hrun

theorem parseLanguage_plain (t : Str) (hsep : ∀ c ∈ t, c ≠ 40 ∧ c ≠ 45 ∧ c ≠ 58)
    (hword : ∀ w ∈ wordLevelWords, endsWith (toLowerCase t) (toLowerCase w) = false) :
    parseLanguage t = ⟨t, [], 3⟩ := by
  unfold parseLanguage
  rw [levelRe_no_sep t hsep, wordLevelRe_no_word t hword]

/-! ### Lines without a bullet and without a comma -/

theorem bulletClass_test (d : Nat) :
    (([ClassItem.one 45, ClassItem.one 0x2022, ClassItem.one 42].any
      (ClassItem.test false d)) != false) = (d == 45 || d == 0x2022 || d == 42) := by
  simp only [List.any_cons, List.any_nil, ClassItem.test, inRangeCI, Bool.false_and,
    Bool.or_false, Bool.bne_false]
  rw [Bool.eq_iff_iff]
  simp only [Bool.or_eq_true, Bool.and_eq_true, decide_eq_true_eq, beq_iff_eq]
  omega

theorem run_bulletStripRe (s : MState) :
    Re.run false bulletStripRe s = (Re.run false .bol s).flatMap (fun s0 =>
      (Re.run false bulletClass s0).flatMap (fun s1 => Re.run false (.star .s) s1)) := rfl

theorem cleanBullet_plain (line : Str) (htrim : trim line = line)
    (hhead : ∀ c, line.head? = some c → c ≠ 45 ∧ c ≠ 0x2022 ∧ c ≠ 42) :
    cleanBullet line = line := by
  have hrun : Re.run false bulletStripRe ⟨none, line, []⟩ = [] := by
    rw [run_bulletStripRe, List.flatMap_eq_nil_iff]
    intro s0 hs0
    have e0 : s0 = ⟨none, line, []⟩ := by simpa [Re.run] using hs0
    subst e0
    rw [List.flatMap_eq_nil_iff]
    intro s1 hs1
    obtain ⟨d, e, hp⟩ := stepChar_rest _ _ s1 hs1
    rw [bulletClass_test] at hp
    have hd := hhead d (by simp only [] at e; rw [e]; rfl)
    simp only [Bool.or_eq_true, beq_iff_eq] at hp
    omega
  have hnone : reMatch bulletStripRe false line = none := reMatch_bol_none _ false line hrun
  unfold cleanBullet reRemoveFirst
  rw [hnone]
  exact htrim

theorem searchFrom_parts (r : Re) (ci : Bool) : ∀ (rest pre : Str) (m : ReMatch),
    searchFrom r ci pre rest = some m →
      ∃ a b, m.pre = pre.reverse ++ a ∧ rest = a ++ (b ++ m.post) := by
  intro rest
  induction rest with
  | nil =>
    intro pre m h
    unfold searchFrom at h
    split at h
    · simp only [Option.some.injEq] at h
      subst h
      exact ⟨[], [], by simp, rfl⟩
    · simp at h
  | cons c t ih =>
    intro pre m h
    unfold searchFrom at h
    split at h
    · rename_i st hst
      simp only [Option.some.injEq] at h
      subst h
      obtain ⟨b, e⟩ := run_suffix ci r _ st (List.mem_of_mem_head? hst)
      exact ⟨[], b, by simp, by simpa using e⟩
    · obtain ⟨a, b, e1, e2⟩ := ih (c :: pre) m h
      exact ⟨c :: a, b, by rw [e1]; simp, by rw [e2]; rfl⟩

theorem mem_reRemoveFirst (r : Re) (ci : Bool) (s : Str) (c : Nat)
    (h : c ∈ reRemoveFirst r ci s) : c ∈ s := by
  unfold reRemoveFirst at h
  split at h
  · rename_i m hm
    obtain ⟨a, b, e1, e2⟩ := searchFrom_parts r ci s [] m hm
    rw [e1] at h
    rw [e2]
    simp only [List.reverse_nil, List.nil_append, List.mem_append] at h ⊢
    rcases h with h | h
    · exact Or.inl h
    · exact Or.inr (Or.inr h)
  · exact h

theorem mem_trim (s : Str) (c : Nat) (h : c ∈ trim s) : c ∈ s := by
  unfold trim at h
  rw [List.mem_reverse] at h
  have h1 := (List.dropWhile_sublist isSpace).subset h
  rw [List.mem_reverse] at h1
  exact (List.dropWhile_sublist isSpace).subset h1

theorem mem_cleanBullet (line : Str) (c : Nat) (h : c ∈ cleanBullet line) : c ∈ line :=
  mem_reRemoveFirst _ _ _ _ (mem_trim _ _ h)

theorem includes_comma (s : Str) : includes s [44] = true ↔ 44 ∈ s := by
  induction s with
  | nil => simp [includes]
  | cons c t ih =>
    simp only [includes, List.isPrefixOf, Bool.or_eq_true, ih, List.mem_cons, Bool.and_eq_true,
      beq_iff_eq]
    constructor
    · rintro (⟨h, _⟩ | h)
      · exact Or.inl h
      · exact Or.inr h
    · rintro (h | h)
      · exact Or.inl ⟨h, trivial⟩
      · exact Or.inr h

theorem languagesOfLine_single (line : Str) (hcomma : 44 ∉ line) (hne : cleanBullet line ≠ []) :
    languagesOfLine line = [parseLanguage (cleanBullet line)] := by
  have h1 : truthy (cleanBullet line) = true := by
    cases hc : cleanBullet line with
    | nil => exact absurd hc hne
    | cons x xs => rfl
  have h2 : includes (cleanBullet line) (str ",") = false := by
    cases hi : includes (cleanBullet line) (str ",") with
    | false => rfl
    | true => exact absurd (mem_cleanBullet line 44 ((includes_comma _).mp hi)) hcomma
  unfold languagesOfLine
  simp only [h1, h2, Bool.not_true, Bool.false_eq_true, if_false]

theorem parseLanguages_map (buffer : List Str) (hcomma : ∀ l ∈ buffer, 44 ∉ l)
    (hne : ∀ l ∈ buffer, cleanBullet l ≠ []) :
    parseLanguages buffer = buffer.map (fun l => parseLanguage (cleanBullet l)) := by
  unfold parseLanguages
  induction buffer with
  | nil => rfl
  | cons l rest ih =>
    rw [List.flatMap_cons, List.map_cons,
      languagesOfLine_single l (hcomma l (by simp)) (hne l (by simp)),
      ih (fun x hx => hcomma x (by simp [hx])) (fun x hx => hne x (by simp [hx]))]
    rfl


/-! ### C8 -/

/-- C8, counterexample: a languages buffer made of the one comma-free line "-" yields no
entry at all, so the parser does not return one entry per line. -/
theorem languages_bullet_only_line_dropped :
    (∀ l ∈ [str "-"], 44 ∉ l) ∧ parseLanguages [str "-"] = [] ∧
      (parseLanguages [str "-"]).length ≠ [str "-"].length := by
  decide

/-- C8, amended: on a buffer whose lines contain no comma and are not reduced to nothing by
the bullet clean-up, the languages parser returns one entry per line, in order, namely
`parseLanguage` of the cleaned line; the clean-up leaves a trimmed line not starting with
'-', '•' or '*' unchanged; for trimmed N and L without line terminators, N containing none
of '(', '-', ':', the text "N (L)" gives name N, level L and dots `getDotCount L`, and so do
"N - L" and "N: L" when L does not end with ')'; a text without '(', '-', ':' that does not
end (ignoring case) with one of the nine proficiency words gives the text as name, level ""
and dots 3; the three-line example evaluates as stated. -/
theorem languages_one_entry_per_line :
    (∀ buffer : List Str, (∀ l ∈ buffer, 44 ∉ l) → (∀ l ∈ buffer, cleanBullet l ≠ []) →
      parseLanguages buffer = buffer.map (fun l => parseLanguage (cleanBullet l))) ∧
    (∀ line : Str, trim line = line →
      (∀ c, line.head? = some c → c ≠ 45 ∧ c ≠ 0x2022 ∧ c ≠ 42) → cleanBullet line = line) ∧
    (∀ N L : Str, trim N = N → trim L = L →
      (∀ c ∈ N, isLineTerminator c = false ∧ c ≠ 40 ∧ c ≠ 45 ∧ c ≠ 58) →
      (∀ c ∈ L, isLineTerminator c = false) →
        parseLanguage (N ++ str " (" ++ L ++ str ")") = ⟨N, L, getDotCount L⟩ ∧
        ((∀ c, L.getLast? = some c → c ≠ 41) →
          parseLanguage (N ++ str " - " ++ L) = ⟨N, L, getDotCount L⟩ ∧
          parseLanguage (N ++ str ": " ++ L) = ⟨N, L, getDotCount L⟩)) ∧
    (∀ t : Str, (∀ c ∈ t, c ≠ 40 ∧ c ≠ 45 ∧ c ≠ 58) →
      (∀ w ∈ wordLevelWords, endsWith (toLowerCase t) (toLowerCase w) = false) →
        parseLanguage t = ⟨t, [], 3⟩) ∧
    parseLanguages [str "English (Native)", str "Spanish - Advanced", str "French"] =
      [⟨str "English", str "Native", 5⟩, ⟨str "Spanish", str "Advanced", 4⟩,
       ⟨str "French", [], 3⟩] := by
  refine ⟨parseLanguages_map, cleanBullet_plain, ?_, parseLanguage_plain, by decide!⟩
  intro N L hNtrim hLtrim hN hL
  refine ⟨?_, fun hlast => ⟨?_, ?_⟩⟩
  · have := parseLanguage_sep N [32] [] L [41] 40 (Or.inl rfl) hNtrim hLtrim hN
      (by decide) (by simp) hL (Or.inr rfl)
    simpa [str] using this
  · have := parseLanguage_sep N [32] [32] L [] 45 (Or.inr (Or.inl rfl)) hNtrim hLtrim hN
      (by decide) (by decide) hL (Or.inl ⟨rfl, hlast⟩)
    simpa [str] using this
  · have := parseLanguage_sep N [] [32] L [] 58 (Or.inr (Or.inr rfl)) hNtrim hLtrim hN
      (by simp) (by decide) hL (Or.inl ⟨rfl, hlast⟩)
    simpa [str] using this

/-- C8, instance: the amended statement at the buffer ["Hindi: Fluent", "Urdu"], at the
line "Hindi: Fluent" and at the text "Urdu". -/
theorem languages_one_entry_per_line_witness :
    parseLanguages [str "Hindi: Fluent", str "Urdu"] =
        [str "Hindi: Fluent", str "Urdu"].map (fun l => parseLanguage (cleanBullet l)) ∧
      cleanBullet (str "Hindi: Fluent") = str "Hindi: Fluent" ∧
      parseLanguage (str "Hindi" ++ str ": " ++ str "Fluent") =
        ⟨str "Hindi", str "Fluent", getDotCount (str "Fluent")⟩ ∧
      parseLanguage (str "Urdu") = ⟨str "Urdu", [], 3⟩ :=
  ⟨languages_one_entry_per_line.1 [str "Hindi: Fluent", str "Urdu"] (by decide) (by decide),
   languages_one_entry_per_line.2.1 (str "Hindi: Fluent") (by decide) (by decide),
   ((languages_one_entry_per_line.2.2.1 (str "Hindi") (str "Fluent") (by decide) (by decide)
      (by decide) (by decide)).2 (by decide)).2,
   languages_one_entry_per_line.2.2.2.1 (str "Urdu") (by decide) (by decide)⟩

/-! ### Patterns that cannot read past a line break -/

theorem stepChar_local (p : Nat → Bool) (d : Nat) (R : Str) (hp : p d = false)
    (prev : Option Nat) (l : Str) (caps : List (Nat × Str)) (s' : MState)
    (h : s' ∈ stepChar p ⟨prev, l ++ d :: R, caps⟩) :
    ∃ l', s'.rest = l' ++ d :: R ∧ ⟨s'.prev, l', s'.caps⟩ ∈ stepChar p ⟨prev, l, caps⟩ := by
  cases l with
  | nil =>
    rw [List.nil_append, stepChar_cons, hp] at h
    simp at h
  | cons x xs =>
    rw [List.cons_append, stepChar_cons] at h
    rw [stepChar_cons]
    split at h
    · rename_i hx
      rw [List.mem_singleton] at h
      subst h
      exact ⟨xs, rfl, by simp [hx]⟩
    · simp at h

theorem repLoop_local (ma : MState → List MState) (g : Bool) (d : Nat) (R : Str)
    (hsuf : ∀ s s', s' ∈ ma s → ∃ pre, s.rest = pre ++ s'.rest)
    (hma : ∀ (prev : Option Nat) (l : Str) (caps : List (Nat × Str)) (s' : MState),
      s' ∈ ma ⟨prev, l ++ d :: R, caps⟩ →
        ∃ l', s'.rest = l' ++ d :: R ∧ ⟨s'.prev, l', s'.caps⟩ ∈ ma ⟨prev, l, caps⟩) :
    ∀ (F f mn : Nat) (mx : Option Nat) (prev : Option Nat) (l : Str) (caps : List (Nat × Str))
      (s' : MState), l.length + mn + 1 ≤ f →
      s' ∈ repLoop ma g F mn mx ⟨prev, l ++ d :: R, caps⟩ →
        ∃ l', s'.rest = l' ++ d :: R ∧
          ⟨s'.prev, l', s'.caps⟩ ∈ repLoop ma g f mn mx ⟨prev, l, caps⟩ := by
  intro F
  induction F with
  | zero =>
    intro f mn mx prev l caps s' hf h
    unfold repLoop at h
    split at h
    · rename_i hmn
      rw [List.mem_singleton] at h
      subst h
      refine ⟨l, rfl, ?_⟩
      obtain ⟨f', rfl⟩ : ∃ f', f = f' + 1 := ⟨f - 1, by omega⟩
      unfold repLoop
      simp only [hmn, Nat.lt_irrefl, if_false]
      split
      · simp
      · split <;> simp
    · simp at h
  | succ F ih =>
    intro f mn mx prev l caps s' hf h
    obtain ⟨f', rfl⟩ : ∃ f', f = f' + 1 := ⟨f - 1, by omega⟩
    have hself : s' = ⟨prev, l ++ d :: R, caps⟩ →
        ∃ l', s'.rest = l' ++ d :: R ∧ (⟨s'.prev, l', s'.caps⟩ : MState) = ⟨prev, l, caps⟩ := by
      intro e
      subst e
      exact ⟨l, rfl, rfl⟩
    have hiter : s' ∈ (ma ⟨prev, l ++ d :: R, caps⟩).flatMap (fun s1 =>
        if mn = 0 ∧ s1.rest.length = (⟨prev, l ++ d :: R, caps⟩ : MState).rest.length then []
        else repLoop ma g F (mn - 1) (mx.map (· - 1)) s1) →
        ∃ l', s'.rest = l' ++ d :: R ∧ ⟨s'.prev, l', s'.caps⟩ ∈
          (ma ⟨prev, l, caps⟩).flatMap (fun s1 =>
            if mn = 0 ∧ s1.rest.length = (⟨prev, l, caps⟩ : MState).rest.length then []
            else repLoop ma g f' (mn - 1) (mx.map (· - 1)) s1) := by
      intro hm
      obtain ⟨s1, hs1, hm1⟩ := List.mem_flatMap.mp hm
      obtain ⟨l1, e1, hs1'⟩ := hma prev l caps s1 hs1
      obtain ⟨pre, epre⟩ := hsuf _ _ hs1'
      simp only [] at epre
      have hlen : l.length = pre.length + l1.length := by rw [epre, List.length_append]
      split at hm1
      · simp at hm1
      · rename_i hcond
        have hs1eq : s1 = ⟨s1.prev, l1 ++ d :: R, s1.caps⟩ := by
          cases s1; simp only [MState.mk.injEq, true_and, and_true]; exact e1
        rw [hs1eq] at hm1
        have hcond' : ¬ (mn = 0 ∧ l1.length = l.length) := by
          intro hc
          apply hcond
          refine ⟨hc.1, ?_⟩
          rw [e1]
          simp [hc.2]
        obtain ⟨l', e', hin⟩ := ih f' (mn - 1) (mx.map (· - 1)) s1.prev l1 s1.caps s' (by
          by_cases hmn : mn = 0
          · have : l1.length ≠ l.length := fun e => hcond' ⟨hmn, e⟩
            omega
          · omega) hm1
        refine ⟨l', e', List.mem_flatMap.mpr ⟨_, hs1', ?_⟩⟩
        simp only []
        rw [if_neg hcond']
        exact hin
    unfold repLoop at h ⊢
    simp only [] at h ⊢
    split at h
    · rename_i hmx
      obtain ⟨l', e', hl'⟩ := hself (List.mem_singleton.mp h)
      refine ⟨l', e', ?_⟩
      rw [if_pos hmx, hl']
      simp
    · rename_i hmx
      rw [if_neg hmx]
      split at h
      · rename_i hmn
        rw [if_pos hmn]
        exact hiter h
      · rename_i hmn
        rw [if_neg hmn]
        split at h
        · rename_i hg
          rw [if_pos hg]
          rcases List.mem_append.mp h with h | h
          · obtain ⟨l', e', hl'⟩ := hiter h
            exact ⟨l', e', List.mem_append.mpr (Or.inl hl')⟩
          · obtain ⟨l', e', hl'⟩ := hself (List.mem_singleton.mp h)
            exact ⟨l', e', List.mem_append.mpr (Or.inr (List.mem_singleton.mpr hl'))⟩
        · rename_i hg
          rw [if_neg hg]
          rcases List.mem_cons.mp h with h | h
          · obtain ⟨l', e', hl'⟩ := hself h
            exact ⟨l', e', List.mem_cons.mpr (Or.inl hl')⟩
          · obtain ⟨l', e', hl'⟩ := hiter h
            exact ⟨l', e', List.mem_cons_of_mem _ hl'⟩

/-- A pattern none of whose atoms accepts `d` matches before an occurrence of `d` only as
it matches on the input cut at that occurrence. -/
theorem run_local (ci : Bool) (d : Nat) (R : Str) (r : Re) (hr : Re.rejects ci d r = true) :
    ∀ (prev : Option Nat) (l : Str) (caps : List (Nat × Str)) (s' : MState),
      s' ∈ Re.run ci r ⟨prev, l ++ d :: R, caps⟩ →
        ∃ l', s'.rest = l' ++ d :: R ∧ ⟨s'.prev, l', s'.caps⟩ ∈ Re.run ci r ⟨prev, l, caps⟩ := by
  induction r with
  | empty =>
    intro prev l caps s' h
    have e : s' = ⟨prev, l ++ d :: R, caps⟩ := by simpa [Re.run] using h
    subst e
    exact ⟨l, rfl, by simp [Re.run]⟩
  | char c =>
    intro prev l caps s' h
    exact stepChar_local _ d R (by simpa [Re.rejects] using hr) prev l caps s' h
  | set neg items =>
    intro prev l caps s' h
    exact stepChar_local _ d R (by simpa [Re.rejects] using hr) prev l caps s' h
  | dot =>
    intro prev l caps s' h
    exact stepChar_local _ d R (by simpa [Re.rejects] using hr) prev l caps s' h
  | bol =>
    intro prev l caps s' h
    simp only [Re.run] at h ⊢
    split at h
    · rename_i hp
      rw [List.mem_singleton] at h
      subst h
      exact ⟨l, rfl, by simp [hp]⟩
    · simp at h
  | eol =>
    intro prev l caps s' h
    simp [Re.run] at h
  | wordBoundary =>
    intro prev l caps s' h
    simp only [Re.run] at h ⊢
    split at h
    · rename_i hp
      rw [List.mem_singleton] at h
      subst h
      refine ⟨l, rfl, ?_⟩
      have hd : isWordChar d = false := by simpa [Re.rejects] using hr
      have hh : isWordOpt (l ++ d :: R).head? = isWordOpt l.head? := by
        cases l with
        | nil => simp [isWordOpt, hd]
        | cons x xs => rfl
      rw [hh] at hp
      simp [hp]
    · simp at h
  | seq a b iha ihb =>
    intro prev l caps s' h
    simp only [Re.rejects, Bool.and_eq_true] at hr
    simp only [Re.run, List.mem_flatMap] at h ⊢
    obtain ⟨s1, h1, h2⟩ := h
    obtain ⟨l1, e1, h1'⟩ := iha hr.1 prev l caps s1 h1
    have hs1eq : s1 = ⟨s1.prev, l1 ++ d :: R, s1.caps⟩ := by
      cases s1; simp only [MState.mk.injEq, true_and, and_true]; exact e1
    rw [hs1eq] at h2
    obtain ⟨l2, e2, h2'⟩ := ihb hr.2 s1.prev l1 s1.caps s' h2
    exact ⟨l2, e2, _, h1', h2'⟩
  | alt a b iha ihb =>
    intro prev l caps s' h
    simp only [Re.rejects, Bool.and_eq_true] at hr
    simp only [Re.run, List.mem_append] at h ⊢
    rcases h with h | h
    · obtain ⟨l1, e1, h1⟩ := iha hr.1 prev l caps s' h
      exact ⟨l1, e1, Or.inl h1⟩
    · obtain ⟨l1, e1, h1⟩ := ihb hr.2 prev l caps s' h
      exact ⟨l1, e1, Or.inr h1⟩
  | rep g mn mx a iha =>
    intro prev l caps s' h
    simp only [Re.rejects] at hr
    simp only [Re.run] at h ⊢
    exact repLoop_local _ g d R (run_suffix ci a) (iha hr) _ _ mn mx prev l caps s'
      (Nat.le_refl _) h
  | group i a _ => simp [Re.rejects] at hr
  | lookahead a _ => simp [Re.rejects] at hr

theorem run_local_nil (ci : Bool) (d : Nat) (R : Str) (r : Re) (hr : Re.rejects ci d r = true)
    (prev : Option Nat) (l : Str) (caps : List (Nat × Str))
    (h : Re.run ci r ⟨prev, l, caps⟩ = []) : Re.run ci r ⟨prev, l ++ d :: R, caps⟩ = [] := by
  rw [List.eq_nil_iff_forall_not_mem]
  intro s' hs'
  obtain ⟨l', _, hin⟩ := run_local ci d R r hr prev l caps s' hs'
  rw [h] at hin
  simp at hin


/-! ### The separator pattern of the experience branch, position by position -/

theorem nl_test (c : Nat) : inRangeCI true 10 10 c = decide (c = 10) := by
  rw [Bool.eq_iff_iff]
  simp only [inRangeCI, toUpperC, toLowerC, isUpperAZ, isLowerAZ, Bool.true_and,
    Bool.or_eq_true, Bool.and_eq_true, decide_eq_true_eq]
  split_ifs <;> omega

theorem nl_pred : inRangeCI true 10 10 = fun c => decide (c = 10) := funext nl_test

theorem run_plus_char (ci : Bool) (c : Nat) (s : MState) :
    Re.run ci (.rep true 1 none (.char c)) s
      = (stepChar (inRangeCI ci c c) s).flatMap
          (fun s1 => starStates (inRangeCI ci c c) true s.caps s1.prev s1.rest) := by
  obtain ⟨prev, rest, caps⟩ := s
  show repLoop (stepChar (inRangeCI ci c c)) true (rest.length + 1 + 1) 1 none
    ⟨prev, rest, caps⟩ = _
  exact repLoop_plus _ true caps rest _ prev (by omega)

theorem expSplitRe_nil (prev : Option Nat) : matchAt expSplitRe true prev [] = none := rfl

theorem splitLoop_nil (r : Re) (ci : Bool) (skip : Nat) (cur : Str) (prev : Option Nat) :
    splitLoop r ci skip cur prev [] = [cur.reverse] := by
  cases skip <;> rfl

theorem join_nl_cons (first : Str) (others : List Str) :
    join (str "\n") (first :: others) = first ++ others.flatMap (fun l => 10 :: l) := by
  induction others generalizing first with
  | nil => simp [join]
  | cons y r ih =>
    rw [join, ih y, List.flatMap_cons]
    simp [str]

/-- C22: the header pre-extraction title-cases the name line whatever its casing, so the
mixed-case name "Ronald McDonald" leaves the pipeline as "Ronald Mcdonald", both on the
local path and on the merge path with any server response. -/
theorem mixed_case_name_recased_by_header :
    str "Ronald McDonald" ≠ toUpperCase (str "Ronald McDonald") ∧
    str "Ronald McDonald" ≠ toLowerCase (str "Ronald McDonald") ∧
    (headerExtract (str "Ronald McDonald\nClown")).name = str "Ronald Mcdonald" ∧
    (localExtract (str "Ronald McDonald\nClown")).name = some (str "Ronald Mcdonald") ∧
    ∀ response : ResumeData,
      (normalizeResumeData (parseResumeText (headerExtract (str "Ronald McDonald\nClown"))
        (str "Ronald McDonald\nClown") response)).name = some (str "Ronald Mcdonald") := by
  have hh : (headerExtract (str "Ronald McDonald\nClown")).name = str "Ronald Mcdonald" := by
    decide!
  refine ⟨by decide, by decide, hh, by decide!, ?_⟩
  intro response
  show some (recaseName (withContactFallback (some (recaseName (orElse
    (headerExtract (str "Ronald McDonald\nClown")).name _))) _)) = _
  rw [hh]
  have h1 : ∀ x, orElse (str "Ronald Mcdonald") x = str "Ronald Mcdonald" := fun _ => rfl
  have h2 : recaseName (str "Ronald Mcdonald") = str "Ronald Mcdonald" := by decide
  rw [h1, h2]
  have h3 : ∀ x, withContactFallback (some (str "Ronald Mcdonald")) x = str "Ronald Mcdonald" :=
    fun _ => rfl
  rw [h3, h2]

/-! ### The location of the header pre-extraction -/

theorem headerContactStep_location (h : Header) (line : Str) :
    (headerContactStep h line).location =
      if !truthy h.location && reTest headerLocationRe true line then line else h.location := by
  unfold headerContactStep
  cases hc1 : (!truthy h.email && reTest (Re.char 64) false line) <;>
  simp only [Bool.false_eq_true, if_false, if_true] <;>
  cases hc2 : (!truthy h.phone &&
    reTest (Re.atLeast 10 Re.d) false (reRemoveAll Re.notD false line)) <;>
  simp only [Bool.false_eq_true, if_false, if_true] <;>
  cases hc3 : (!truthy h.linkedin && reTest linkedinRe true line) <;>
  simp only [Bool.false_eq_true, if_false, if_true] <;>
  cases hc4 : (!truthy h.location && reTest headerLocationRe true line) <;>
  simp only [Bool.false_eq_true, if_false, if_true]

theorem header_fold_location (lines : List Str) (hl : ∀ l ∈ lines, truthy l = true) :
    ∀ h : Header, (lines.foldl headerContactStep h).location =
      if truthy h.location then h.location
      else (lines.find? (fun l => reTest headerLocationRe true l)).getD [] := by
  induction lines with
  | nil =>
    intro h
    cases hloc : h.location <;> simp [truthy, hloc]
  | cons l rest ih =>
    intro h
    rw [List.foldl_cons, ih (fun x hx => hl x (List.mem_cons_of_mem _ hx)),
      headerContactStep_location]
    by_cases ht : truthy h.location = true
    · simp [ht]
    · have ht' : truthy h.location = false := by simpa using ht
      by_cases hm : reTest headerLocationRe true l = true
      · simp [ht', hm, hl l (by simp), List.find?]
      · have hm' : reTest headerLocationRe true l = false := by simpa using hm
        simp [ht', hm', List.find?]

/-- C23, counterexample: the header pre-extraction of the lines "Jane Doe", "Engineer",
"jane@gmail.com" takes the third line, which contains '@' and is also the source of the
email, as the location (it contains "ma"). -/
theorem header_location_may_be_email_line :
    (headerExtract (str "Jane Doe\nEngineer\njane@gmail.com")).location = str "jane@gmail.com" ∧
      (headerExtract (str "Jane Doe\nEngineer\njane@gmail.com")).email = str "jane@gmail.com" ∧
      includes (str "jane@gmail.com") (str "@") = true := by
  decide!

/-- C23, amended: the location chosen by the header pre-extraction is the first of the
lines 2 to 9 (of the non-empty trimmed lines) that contains, ignoring case, one of the
listed place tokens, whatever else that line matches, and the empty string when there is
no such line. -/
theorem header_location_first_token_line (textContent : Str) :
    (headerExtract textContent).location =
      ((((headerLines textContent).take 10).drop 2).find?
        (fun l => reTest headerLocationRe true l)).getD [] := by
  unfold headerExtract
  simp only []
  rw [header_fold_location]
  · rfl
  · intro l hl
    have h1 := List.mem_of_mem_take (List.mem_of_mem_drop hl)
    unfold headerLines at h1
    exact (List.mem_filter.mp h1).2

/-! ### The merge of `parseResumeText` -/

theorem orElse_chain (a b : Str) (c : Option Str) :
    orElse a (orElse b (optOr c [])) = firstNonEmpty [a, b, c.getD []] := by
  cases a with
  | cons x xs => rfl
  | nil =>
    cases b with
    | cons y ys => rfl
    | nil =>
      cases hc : c.getD [] with
      | nil => simp [orElse, optOr, firstNonEmpty, truthy, hc]
      | cons z zs => simp [orElse, optOr, firstNonEmpty, truthy, hc]

/-- C24: in the object returned by `parseResumeText`, each of phone, email, linkedin and
location is the first non-empty value among the pre-extracted one, the one of
`extractContactInfo` and the one of the server response, the empty string when all are
empty or absent; name and role are the re-casing of the value chosen in the same order. -/
theorem merge_precedence (h : Header) (text : Str) (response : ResumeData) :
    (parseResumeText h text response).phone =
      some (firstNonEmpty [h.phone, (extractContactInfo text).phone, response.phone.getD []]) ∧
    (parseResumeText h text response).email =
      some (firstNonEmpty [h.email, (extractContactInfo text).email, response.email.getD []]) ∧
    (parseResumeText h text response).linkedin =
      some (firstNonEmpty
        [h.linkedin, (extractContactInfo text).linkedin, response.linkedin.getD []]) ∧
    (parseResumeText h text response).location =
      some (firstNonEmpty
        [h.location, (extractContactInfo text).location, response.location.getD []]) ∧
    (parseResumeText h text response).name =
      some (recaseName
        (firstNonEmpty [h.name, (extractContactInfo text).name, response.name.getD []])) ∧
    (parseResumeText h text response).role =
      some (recaseRole
        (firstNonEmpty [h.role, (extractContactInfo text).role, response.role.getD []])) := by
  simp only [parseResumeText, orElse_chain, and_self]

/-! ### Field aliases in `normalizeResumeData` -/

theorem orElse_pair (a b : Option Str) :
    orElse (a.getD []) (optOr b []) = firstNonEmpty [a.getD [], b.getD []] := by
  cases ha : a.getD [] with
  | cons x xs => rfl
  | nil =>
    cases hb : b.getD [] with
    | nil => simp [orElse, optOr, firstNonEmpty, truthy, hb]
    | cons z zs => simp [orElse, optOr, firstNonEmpty, truthy, hb]

/-- C25: `normalizeResumeData` maps every experience object to the object whose title is
the first non-empty of title and position, companyName the first non-empty of companyName
and company, date the first non-empty of date and duration, accomplishment the first
non-empty of accomplishment and description (the empty string when both are empty or
absent); every education object to the one whose institution is the first non-empty of
institution and school and whose duration is the first non-empty of duration and date; and
a non-empty skills array of strings to the single group with category "Skills" and that
array as items. -/
theorem alias_reconciliation (data : ResumeData) :
    (normalizeResumeData data).experience
      = some ((data.experience.getD []).map normalizeExperience) ∧
    (normalizeResumeData data).education
      = some ((data.education.getD []).map normalizeEducation) ∧
    (∀ e : ExperienceObj, ∃ o, normalizeExperience (.obj e) = .obj o ∧
      o.title = some (firstNonEmpty [e.title.getD [], e.position.getD []]) ∧
      o.companyName = some (firstNonEmpty [e.companyName.getD [], e.company.getD []]) ∧
      o.date = some (firstNonEmpty [e.date.getD [], e.duration.getD []]) ∧
      o.accomplishment
        = some (firstNonEmpty [e.accomplishment.getD [], e.description.getD []])) ∧
    (∀ e : EducationObj, ∃ o, normalizeEducation (.obj e) = .obj o ∧
      o.institution = some (firstNonEmpty [e.institution.getD [], e.school.getD []]) ∧
      o.duration = some (firstNonEmpty [e.duration.getD [], e.date.getD []])) ∧
    (∀ (x : Str) (xs : List Str), data.skills = some (.strings (x :: xs)) →
      (normalizeResumeData data).skills
        = some (.groups [⟨some (str "Skills"), some (x :: xs)⟩])) ∧
    (∀ (x : Str) (rest : List JsValue),
      normalizeSkillsJs (.arr (.str x :: rest))
        = some [.obj [(.category, .str (str "Skills")), (.items, .arr (.str x :: rest))]]) := by
  refine ⟨rfl, rfl, ?_, ?_, ?_, fun _ _ => rfl⟩
  · intro e
    exact ⟨_, rfl, by simp only [orElse_pair], by simp only [orElse_pair],
      by simp only [orElse_pair], by simp only [orElse_pair]⟩
  · intro e
    exact ⟨_, rfl, by simp only [orElse_pair], by simp only [orElse_pair]⟩
  · intro x xs h
    show some (SkillsValue.groups (normalizeSkills data.skills)) = _
    rw [h]
    simp [normalizeSkills]

/-- C25, instance: a record whose skills are the strings "Go" and "Rust". -/
theorem alias_reconciliation_witness :
    (normalizeResumeData { ResumeData.empty with skills := some (.strings [str "Go", str "Rust"]) }).skills
      = some (.groups [⟨some (str "Skills"), some [str "Go", str "Rust"]⟩]) :=
  (alias_reconciliation
    { ResumeData.empty with skills := some (.strings [str "Go", str "Rust"]) }).2.2.2.2.1
    (str "Go") [str "Rust"] rfl

/-! ### Bullet lines of an experience entry -/

theorem reMatch_at_start (r : Re) (ci : Bool) (s : Str) (st : MState)
    (h : (Re.run ci r ⟨none, s, []⟩).head? = some st) :
    ∃ m, reMatch r ci s = some m ∧ m.pre = [] ∧ m.post = st.rest ∧ m.caps = st.caps ∧
      m.matched ++ m.post = s := by
  obtain ⟨pre, e⟩ := run_suffix ci r _ st (List.mem_of_mem_head? h)
  simp only [] at e
  unfold reMatch
  cases s with
  | nil =>
    have hr : st.rest = [] := by
      have := congrArg List.length e
      simp only [List.length_nil, List.length_append] at this
      exact List.eq_nil_of_length_eq_zero (by omega)
    have hs : searchFrom r ci [] [] = some ⟨[], [], [], st.caps⟩ := by
      simp only [searchFrom, List.head?_nil, matchAt, h, List.reverse_nil]
    exact ⟨_, hs, rfl, hr.symm, rfl, rfl⟩
  | cons c t =>
    have hs : searchFrom r ci [] (c :: t) = some ⟨[],
        (c :: t).take ((c :: t).length - st.rest.length), st.rest, st.caps⟩ := by
      simp only [searchFrom, List.head?_nil, matchAt, h, List.reverse_nil]
    refine ⟨_, hs, rfl, rfl, rfl, ?_⟩
    simp only []
    rw [e]
    simp

theorem bulletClassExp_test (d : Nat) :
    (([ClassItem.one 45, ClassItem.one 0x2022, ClassItem.one 0x25CF, ClassItem.one 42].any
      (ClassItem.test false d)) != false) = (d == 45 || d == 0x2022 || d == 0x25CF || d == 42) := by
  simp only [List.any_cons, List.any_nil, ClassItem.test, inRangeCI, Bool.false_and,
    Bool.or_false, Bool.bne_false]
  rw [Bool.eq_iff_iff]
  simp only [Bool.or_eq_true, Bool.and_eq_true, decide_eq_true_eq, beq_iff_eq]
  omega

theorem bulletClassExp_pred :
    (fun d => (([ClassItem.one 45, ClassItem.one 0x2022, ClassItem.one 0x25CF,
      ClassItem.one 42].any (ClassItem.test false d)) != false))
      = (fun d => d == 45 || d == 0x2022 || d == 0x25CF || d == 42) :=
  funext bulletClassExp_test

theorem run_bulletStartExpRe (s : MState) :
    Re.run false bulletStartExpRe s = (Re.run false .bol s).flatMap (fun s0 =>
      stepChar (fun d => d == 45 || d == 0x2022 || d == 0x25CF || d == 42) s0) := by
  show (Re.run false .bol s).flatMap (fun s0 => stepChar _ s0) = _
  rw [bulletClassExp_pred]

theorem run_bulletStripExpRe (s : MState) :
    Re.run false bulletStripExpRe s = (Re.run false .bol s).flatMap (fun s0 =>
      (stepChar (fun d => d == 45 || d == 0x2022 || d == 0x25CF || d == 42) s0).flatMap
        (fun s1 => starStates isSpace true s1.caps s1.prev s1.rest)) := by
  show (Re.run false .bol s).flatMap (fun s0 => (stepChar _ s0).flatMap
    (fun s1 => Re.run false (.rep true 0 none (.set false [.space])) s1)) = _
  rw [bulletClassExp_pred]
  simp only [run_star_set, isSpace_set_pred]

/-- A line is bullet-prefixed exactly when its first code unit is '-', '•', '●' or '*'. -/
theorem bulletStartExpRe_iff (l : Str) :
    reTest bulletStartExpRe false l = true ↔
      ∃ m t, l = m :: t ∧ (m = 45 ∨ m = 0x2022 ∨ m = 0x25CF ∨ m = 42) := by
  constructor
  · intro h
    by_contra hne
    have hrun : Re.run false bulletStartExpRe ⟨none, l, []⟩ = [] := by
      rw [run_bulletStartExpRe, List.flatMap_eq_nil_iff]
      intro s0 hs0
      have e0 : s0 = ⟨none, l, []⟩ := by simpa [Re.run] using hs0
      subst e0
      rw [List.eq_nil_iff_forall_not_mem]
      intro s1 hs1
      obtain ⟨d, e, hp⟩ := stepChar_rest _ _ s1 hs1
      simp only [Bool.or_eq_true, beq_iff_eq] at hp
      exact hne ⟨d, s1.rest, e, by omega⟩
    have := reMatch_bol_none bulletClassExp false l hrun
    unfold reTest at h
    rw [show reMatch bulletStartExpRe false l = reMatch (.seq .bol bulletClassExp) false l from rfl,
      this] at h
    exact Bool.noConfusion h
  · rintro ⟨m, t, rfl, hm⟩
    have hp : (m == 45 || m == 0x2022 || m == 0x25CF || m == 42) = true := by
      simp only [Bool.or_eq_true, beq_iff_eq]
      omega
    have hrun : (Re.run false bulletStartExpRe ⟨none, m :: t, []⟩).head? = some ⟨some m, t, []⟩ := by
      rw [run_bulletStartExpRe]
      simp [Re.run, stepChar_cons, hp]
    obtain ⟨mm, hmm, _⟩ := reMatch_at_start _ _ _ _ hrun
    unfold reTest
    rw [hmm]
    rfl

/-- Removing the bullet removes the marker and the white space after it. -/
theorem bulletStripExpRe_strip (m : Nat) (ws t : Str)
    (hm : m = 45 ∨ m = 0x2022 ∨ m = 0x25CF ∨ m = 42) (hws : ∀ c ∈ ws, isSpace c = true)
    (ht : ∀ c, t.head? = some c → isSpace c = false) :
    reRemoveFirst bulletStripExpRe false (m :: (ws ++ t)) = t := by
  have hp : (m == 45 || m == 0x2022 || m == 0x25CF || m == 42) = true := by
    simp only [Bool.or_eq_true, beq_iff_eq]
    omega
  obtain ⟨prev', tl, e⟩ := starStates_greedy_head isSpace [] t
    (fun c t' h => ht c (by rw [h]; rfl)) ws (some m) hws
  have hrun : (Re.run false bulletStripExpRe ⟨none, m :: (ws ++ t), []⟩).head?
      = some ⟨prev', t, []⟩ := by
    rw [run_bulletStripExpRe]
    simp [Re.run, stepChar_cons, hp, e]
  obtain ⟨mm, hmm, hpre, hpost, _⟩ := reMatch_at_start _ _ _ _ hrun
  unfold reRemoveFirst
  rw [hmm]
  simp only [hpre, hpost, List.nil_append]

theorem join_ne_nil (sep : Str) : ∀ (xs : List Str), (∃ x ∈ xs, x ≠ []) → join sep xs ≠ []
  | [], h => by obtain ⟨x, hx, _⟩ := h; simp at hx
  | [x], h => by
    obtain ⟨y, hy, hne⟩ := h
    simp only [List.mem_singleton] at hy
    subst hy
    simpa [join] using hne
  | x :: x2 :: xs, h => by
    obtain ⟨y, hy, hne⟩ := h
    rw [join]
    rcases List.mem_cons.mp hy with rfl | hy
    · simp [hne]
    · have := join_ne_nil sep (x2 :: xs) ⟨y, hy, hne⟩
      simp [this]

/-- C27: when at least one bullet-prefixed line after the first line of an entry has text
left after its marker, the accomplishment is the bullet-prefixed lines after the first
line, in order, each with its marker and the white space after it removed, joined by
newline; no other line contributes.  A line is bullet-prefixed when it starts with '-',
'•', '●' or '*'. -/
theorem accomplishment_from_bullets :
    (∀ e : Str,
      (∃ l ∈ ((splitChar 10 e).drop 1).filter (fun l => reTest bulletStartExpRe false l),
        reRemoveFirst bulletStripExpRe false l ≠ []) →
      (parseExperienceItem e).accomplishment =
        join (str "\n") ((((splitChar 10 e).drop 1).filter
          (fun l => reTest bulletStartExpRe false l)).map
            (fun l => reRemoveFirst bulletStripExpRe false l))) ∧
    (∀ l : Str, reTest bulletStartExpRe false l = true ↔
      ∃ m t, l = m :: t ∧ (m = 45 ∨ m = 0x2022 ∨ m = 0x25CF ∨ m = 42)) ∧
    (∀ (m : Nat) (ws t : Str), (m = 45 ∨ m = 0x2022 ∨ m = 0x25CF ∨ m = 42) →
      (∀ c ∈ ws, isSpace c = true) → (∀ c, t.head? = some c → isSpace c = false) →
        reRemoveFirst bulletStripExpRe false (m :: (ws ++ t)) = t) := by
  refine ⟨?_, bulletStartExpRe_iff, bulletStripExpRe_strip⟩
  intro e h
  obtain ⟨l, hl, hne⟩ := h
  have hj : join (str "\n") ((((splitChar 10 e).drop 1).filter
      (fun l => reTest bulletStartExpRe false l)).map
        (fun l => reRemoveFirst bulletStripExpRe false l)) ≠ [] :=
    join_ne_nil _ _ ⟨_, List.mem_map.mpr ⟨l, hl, rfl⟩, hne⟩
  have hlen : ((((splitChar 10 e).drop 1).filter
      (fun l => reTest bulletStartExpRe false l)).map
        (fun l => reRemoveFirst bulletStripExpRe false l)).length ≠ 0 := by
    rw [List.length_map]
    exact List.length_pos.mpr (List.ne_nil_of_mem hl) |> Nat.pos_iff_ne_zero.mp
  unfold parseExperienceItem
  simp only [if_neg hlen]
  unfold orElse
  rw [if_neg]
  simpa using hj

/-- C27, instance: the entry of scenario 1 with a line that is no bullet in between. -/
theorem accomplishment_from_bullets_witness :
    (parseExperienceItem (str "Engineer at Acme (2019-2022)\n- Built X\nnote\n* Led Y")).accomplishment
      = join (str "\n") ((((splitChar 10
          (str "Engineer at Acme (2019-2022)\n- Built X\nnote\n* Led Y")).drop 1).filter
          (fun l => reTest bulletStartExpRe false l)).map
            (fun l => reRemoveFirst bulletStripExpRe false l)) :=
  accomplishment_from_bullets.1 (str "Engineer at Acme (2019-2022)\n- Built X\nnote\n* Led Y")
    ⟨str "- Built X", by decide, by decide⟩

/-! ### The location of an education entry -/

theorem eduHead_location (lines : List Str) : (eduHead lines).location = [] := by
  unfold eduHead
  simp only []
  split_ifs <;> rfl

theorem eduYearLoop_skip (v : EduVars) : ∀ (pre rest : List Str),
    (∀ l ∈ pre, reMatch eduYearRe true l = none) →
      eduYearLoop v (pre ++ rest) = eduYearLoop v rest
  | [], _, _ => rfl
  | l :: pre, rest, h => by
    rw [List.cons_append, eduYearLoop, h l (by simp)]
    exact eduYearLoop_skip v pre rest (fun x hx => h x (List.mem_cons_of_mem _ hx))

theorem eduYearLoop_none (v : EduVars) (lines : List Str)
    (h : ∀ l ∈ lines, reMatch eduYearRe true l = none) : eduYearLoop v lines = v := by
  have := eduYearLoop_skip v lines [] h
  rw [List.append_nil] at this
  rw [this]
  rfl

theorem eduYearLoop_hit (v : EduVars) (line : Str) (post : List Str) (m : ReMatch)
    (hm : reMatch eduYearRe true line = some m) :
    (eduYearLoop v (line :: post)).duration = m.matched ∧
    (eduYearLoop v (line :: post)).location =
      if truthy (trim (removeFirst m.matched line)) &&
          trim (removeFirst m.matched line) != (eduYearLoop v (line :: post)).institution &&
          trim (removeFirst m.matched line) != (eduYearLoop v (line :: post)).degree then
        trim (removeFirst m.matched line)
      else v.location := by
  rw [eduYearLoop, hm]
  exact ⟨rfl, rfl⟩

/-- C30, counterexample: in the entry "B.S. Computer Science", "MIT", "Graduated 2019",
"Boston, MA" the line "Boston, MA" matches the city pattern and is neither the degree nor
the institution, yet the location is "Graduated", the rest of the line the year was found
on, which does not match the pattern. -/
theorem education_location_from_year_line :
    (parseEducationItem (str "B.S. Computer Science\nMIT\nGraduated 2019\nBoston, MA")).location
        = str "Graduated" ∧
      reTest cityRe false (str "Graduated") = false ∧
      reTest cityRe false (str "Boston, MA") = true ∧
      (parseEducationItem (str "B.S. Computer Science\nMIT\nGraduated 2019\nBoston, MA")).degree
        = str "B.S. Computer Science" ∧
      (parseEducationItem
        (str "B.S. Computer Science\nMIT\nGraduated 2019\nBoston, MA")).institution = str "MIT" := by
  decide!

/-- C30, amended: when no line of an education entry holds a year, the location is the
first line that matches the `City, ST` / `City, Country` pattern and is neither the degree
nor the institution line, and the empty string when there is no such line.  When a line
holds a year, let the remainder be the first such line with the year removed and trimmed:
if the remainder is non-empty and differs from the institution and from the degree of the
entry, the location is the remainder, whatever it matches; otherwise the location is again
the first line that matches the pattern and is neither the institution nor the degree of
the entry, or the empty string. -/
theorem education_location_rule :
    (∀ e : Str, (∀ l ∈ splitChar 10 e, reMatch eduYearRe true l = none) →
      (parseEducationItem e).location =
        ((splitChar 10 e).find? (fun line => reTest cityRe false line &&
          line != (eduHead (splitChar 10 e)).institution &&
          line != (eduHead (splitChar 10 e)).degree)).getD [] ∧
      (parseEducationItem e).institution = (eduHead (splitChar 10 e)).institution ∧
      (parseEducationItem e).degree = (eduHead (splitChar 10 e)).degree) ∧
    (∀ (e : Str) (pre : List Str) (line : Str) (post : List Str) (m : ReMatch),
      splitChar 10 e = pre ++ line :: post →
      (∀ l ∈ pre, reMatch eduYearRe true l = none) →
      reMatch eduYearRe true line = some m →
        (trim (removeFirst m.matched line) ≠ [] →
          trim (removeFirst m.matched line) ≠ (parseEducationItem e).institution →
          trim (removeFirst m.matched line) ≠ (parseEducationItem e).degree →
            (parseEducationItem e).location = trim (removeFirst m.matched line)) ∧
        (trim (removeFirst m.matched line) = [] ∨
          trim (removeFirst m.matched line) = (parseEducationItem e).institution ∨
          trim (removeFirst m.matched line) = (parseEducationItem e).degree →
            (parseEducationItem e).location =
              ((splitChar 10 e).find? (fun l => reTest cityRe false l &&
                l != (parseEducationItem e).institution &&
                l != (parseEducationItem e).degree)).getD [])) := by
  constructor
  · intro e h
    have hv := eduYearLoop_none (eduHead (splitChar 10 e)) (splitChar 10 e) h
    unfold parseEducationItem
    simp only [hv, eduHead_location, truthy, List.isEmpty_nil, Bool.not_true,
      Bool.false_eq_true, if_false, and_self]
  · intro e pre line post m hsplit hpre hm
    have hskip := eduYearLoop_skip (eduHead (splitChar 10 e)) pre (line :: post) hpre
    obtain ⟨_, hloc⟩ := eduYearLoop_hit (eduHead (splitChar 10 e)) line post m hm
    rw [← hskip, ← hsplit, eduHead_location] at hloc
    have hinst : (parseEducationItem e).institution
        = (eduYearLoop (eduHead (splitChar 10 e)) (splitChar 10 e)).institution := rfl
    have hdeg : (parseEducationItem e).degree
        = (eduYearLoop (eduHead (splitChar 10 e)) (splitChar 10 e)).degree := rfl
    have hl : (parseEducationItem e).location =
        if truthy (eduYearLoop (eduHead (splitChar 10 e)) (splitChar 10 e)).location then
          (eduYearLoop (eduHead (splitChar 10 e)) (splitChar 10 e)).location
        else ((splitChar 10 e).find? (fun l => reTest cityRe false l &&
          l != (eduYearLoop (eduHead (splitChar 10 e)) (splitChar 10 e)).institution &&
          l != (eduYearLoop (eduHead (splitChar 10 e)) (splitChar 10 e)).degree)).getD [] := rfl
    rw [hinst, hdeg]
    constructor
    · intro h1 h2 h3
      have hcond : (truthy (trim (removeFirst m.matched line)) &&
          trim (removeFirst m.matched line) !=
            (eduYearLoop (eduHead (splitChar 10 e)) (splitChar 10 e)).institution &&
          trim (removeFirst m.matched line) !=
            (eduYearLoop (eduHead (splitChar 10 e)) (splitChar 10 e)).degree) = true := by
        simp only [Bool.and_eq_true, bne_iff_ne, ne_eq]
        refine ⟨⟨?_, h2⟩, h3⟩
        cases ht : trim (removeFirst m.matched line) with
        | nil => exact absurd ht h1
        | cons _ _ => rfl
      rw [hcond, if_pos rfl] at hloc
      rw [hl, hloc]
      cases ht : trim (removeFirst m.matched line) with
      | nil => exact absurd ht h1
      | cons _ _ => rfl
    · intro h
      have hcond : (truthy (trim (removeFirst m.matched line)) &&
          trim (removeFirst m.matched line) !=
            (eduYearLoop (eduHead (splitChar 10 e)) (splitChar 10 e)).institution &&
          trim (removeFirst m.matched line) !=
            (eduYearLoop (eduHead (splitChar 10 e)) (splitChar 10 e)).degree) = false := by
        rcases h with h | h | h
        · rw [h]; rfl
        · rw [Bool.and_eq_false_iff, Bool.and_eq_false_iff]
          exact Or.inl (Or.inr (by simp [h]))
        · rw [Bool.and_eq_false_iff]
          exact Or.inr (by simp [h])
      rw [hcond] at hloc
      simp only [Bool.false_eq_true, if_false] at hloc
      rw [hl, hloc]
      rfl

/-- C30, instance: an entry without a year whose third line is a city line, and the entry
of the counterexample, whose third line holds the year. -/
theorem education_location_rule_witness :
    (parseEducationItem (str "B.S. Computer Science\nMIT\nBoston, MA")).location =
        ((splitChar 10 (str "B.S. Computer Science\nMIT\nBoston, MA")).find?
          (fun line => reTest cityRe false line &&
            line != (eduHead (splitChar 10 (str "B.S. Computer Science\nMIT\nBoston, MA"))).institution &&
            line != (eduHead (splitChar 10 (str "B.S. Computer Science\nMIT\nBoston, MA"))).degree)).getD [] ∧
      (parseEducationItem (str "B.S. Computer Science\nMIT\nGraduated 2019\nBoston, MA")).location
        = trim (removeFirst (str "2019") (str "Graduated 2019")) :=
  ⟨(education_location_rule.1 (str "B.S. Computer Science\nMIT\nBoston, MA") (by decide!)).1,
   (education_location_rule.2 (str "B.S. Computer Science\nMIT\nGraduated 2019\nBoston, MA")
      [str "B.S. Computer Science", str "MIT"] (str "Graduated 2019") [str "Boston, MA"]
      ⟨str "Graduated ", str "2019", [], [(1, str "2019")]⟩
      (by decide) (by decide!) (by decide!)).1 (by decide) (by decide!) (by decide!)⟩

/-! ### The separator pattern of the education branch -/

theorem run_eduSplitRe (s : MState) :
    Re.run true eduSplitRe s =
      (stepChar (inRangeCI true 10 10) s).flatMap
          (fun s1 => Re.run true (.rep true 1 none (.char 10)) s1) ++
        (stepChar (inRangeCI true 10 10) s).flatMap
          (fun s1 => Re.run true (.lookahead eduEntryStartRe) s1) := rfl

theorem eduSplitRe_other (prev : Option Nat) (c : Nat) (t : Str) (hc : c ≠ 10) :
    matchAt eduSplitRe true prev (c :: t) = none := by
  unfold matchAt
  rw [run_eduSplitRe, stepChar_cons, nl_test]
  simp [hc]

theorem eduSplitRe_line (prev : Option Nat) (l rest : Str) (hl : l ≠ []) (hnl : 10 ∉ l)
    (hstart : matchAt eduEntryStartRe true (some 10) l = none)
    (hrest : rest = [] ∨ ∃ R, rest = 10 :: R) :
    matchAt eduSplitRe true prev (10 :: (l ++ rest)) = none := by
  have hrun : Re.run true eduEntryStartRe ⟨some 10, l, []⟩ = [] := by
    unfold matchAt at hstart
    exact List.head?_eq_none_iff.mp hstart
  have hlong : Re.run true eduEntryStartRe ⟨some 10, l ++ rest, []⟩ = [] := by
    rcases hrest with rfl | ⟨R, rfl⟩
    · rw [List.append_nil]; exact hrun
    · exact run_local_nil true 10 R eduEntryStartRe (by decide) (some 10) l [] hrun
  obtain ⟨d, l', rfl⟩ : ∃ d l', l = d :: l' := by
    cases l with
    | nil => exact absurd rfl hl
    | cons d l' => exact ⟨d, l', rfl⟩
  have hd : d ≠ 10 := fun e => hnl (by rw [e]; simp)
  unfold matchAt
  rw [run_eduSplitRe, stepChar_cons, nl_test]
  simp only [decide_True, if_true, List.flatMap_cons, List.flatMap_nil, List.append_nil]
  rw [run_plus_char, List.cons_append, stepChar_cons, nl_test]
  simp only [hd, decide_False, Bool.false_eq_true, if_false, List.flatMap_nil, List.nil_append]
  show (match Re.run true eduEntryStartRe ⟨some 10, d :: l' ++ rest, []⟩ with
    | [] => []
    | s1 :: _ => [{ (⟨some 10, d :: l' ++ rest, []⟩ : MState) with caps := s1.caps }]).head? = none
  rw [hlong]
  rfl

theorem eduSplitLoop_line : ∀ (l : Str), 10 ∉ l → ∀ (cur : Str) (prev : Option Nat) (rest : Str),
    ∃ prev', splitLoop eduSplitRe true 0 cur prev (l ++ rest)
      = splitLoop eduSplitRe true 0 (l.reverse ++ cur) prev' rest := by
  intro l
  induction l with
  | nil => intro _ cur prev rest; exact ⟨prev, rfl⟩
  | cons c t ih =>
    intro hnl cur prev rest
    have hc : c ≠ 10 := fun e => hnl (by rw [e]; simp)
    obtain ⟨p, e⟩ := ih (fun h => hnl (List.mem_cons_of_mem _ h)) (c :: cur) (some c) rest
    refine ⟨p, ?_⟩
    rw [List.reverse_cons, List.append_assoc, List.singleton_append, ← e, List.cons_append]
    conv_lhs => unfold splitLoop
    rw [eduSplitRe_other prev c (t ++ rest) hc]

theorem eduSplitLoop_cont : ∀ (ls : List Str),
    (∀ l ∈ ls, l ≠ [] ∧ 10 ∉ l ∧ matchAt eduEntryStartRe true (some 10) l = none) →
    ∀ (cur : Str) (prev : Option Nat),
    ∃ prev', splitLoop eduSplitRe true 0 cur prev (ls.flatMap (fun l => 10 :: l))
      = splitLoop eduSplitRe true 0 ((ls.flatMap (fun l => 10 :: l)).reverse ++ cur) prev' [] := by
  intro ls
  induction ls with
  | nil => intro _ cur prev; exact ⟨prev, rfl⟩
  | cons l ls ih =>
    intro hls cur prev
    obtain ⟨hl, hnl, hstart⟩ := hls l (by simp)
    have hrest' : (ls.flatMap (fun l => 10 :: l) = [] ∨
        ∃ R, ls.flatMap (fun l => 10 :: l) = 10 :: R) := by
      cases ls with
      | nil => exact Or.inl rfl
      | cons l2 ls2 => exact Or.inr ⟨_, by rw [List.flatMap_cons, List.cons_append]⟩
    obtain ⟨p1, e1⟩ := eduSplitLoop_line l hnl (10 :: cur) (some 10)
      (ls.flatMap (fun l => 10 :: l))
    obtain ⟨p2, e2⟩ := ih (fun x hx => hls x (List.mem_cons_of_mem _ hx))
      (l.reverse ++ 10 :: cur) p1
    refine ⟨p2, ?_⟩
    have hc : ((l :: ls).flatMap (fun l => 10 :: l)).reverse ++ cur
        = (ls.flatMap (fun l => 10 :: l)).reverse ++ (l.reverse ++ 10 :: cur) := by
      simp
    rw [hc, ← e2, ← e1, List.flatMap_cons, List.cons_append]
    conv_lhs => unfold splitLoop
    rw [eduSplitRe_line prev l _ hl hnl hstart hrest']

/-- A buffer of non-empty lines none of which, after the first, starts like a new entry is
one education item. -/
theorem eduItems_single (first : Str) (others : List Str)
    (hfirst : 10 ∉ first ∧ first ≠ [])
    (hothers : ∀ l ∈ others, l ≠ [] ∧ 10 ∉ l ∧ matchAt eduEntryStartRe true (some 10) l = none)
    (htrim : trim (join (str "\n") (first :: others)) = join (str "\n") (first :: others)) :
    eduItems (first :: others) = [join (str "\n") (first :: others)] := by
  obtain ⟨d, f', rfl⟩ : ∃ d f', first = d :: f' := by
    cases first with
    | nil => exact absurd rfl hfirst.2
    | cons d f' => exact ⟨d, f', rfl⟩
  obtain ⟨p1, e1⟩ := eduSplitLoop_line (d :: f') hfirst.1 [] none
    (others.flatMap (fun l => 10 :: l))
  obtain ⟨p2, e2⟩ := eduSplitLoop_cont others hothers ((d :: f').reverse ++ []) p1
  have hsplit : reSplit eduSplitRe true (join (str "\n") ((d :: f') :: others))
      = [join (str "\n") ((d :: f') :: others)] := by
    rw [join_nl_cons]
    show splitLoop eduSplitRe true 0 [] none ((d :: f') ++ others.flatMap (fun l => 10 :: l)) = _
    rw [e1, e2, splitLoop_nil, List.append_nil, ← List.reverse_append, List.reverse_reverse]
  unfold eduItems
  rw [hsplit]
  simp only [List.map_cons, List.map_nil, htrim]
  rw [join_nl_cons]
  rfl

theorem trim_eq_self (s : Str) (hhead : ∀ c, s.head? = some c → isSpace c = false)
    (hlast : ∀ c, s.getLast? = some c → isSpace c = false) : trim s = s := by
  unfold trim
  have h1 : s.dropWhile isSpace = s := by
    cases s with
    | nil => rfl
    | cons c t => rw [List.dropWhile_cons_of_neg (by simp [hhead c rfl])]
  rw [h1]
  have h2 : s.reverse.dropWhile isSpace = s.reverse := by
    cases hs : s.reverse with
    | nil => rfl
    | cons c t =>
      have : s.getLast? = some c := by
        rw [← List.head?_reverse, hs]
        rfl
      rw [List.dropWhile_cons_of_neg (by simp [hlast c this])]
  rw [h2, List.reverse_reverse]


/-! ### Years in the lines of an education entry -/

theorem searchFrom_none_imp (r1 r2 : Re) (ci1 ci2 : Bool)
    (h : ∀ prev rest, matchAt r1 ci1 prev rest = none → matchAt r2 ci2 prev rest = none) :
    ∀ (rest pre : Str), searchFrom r1 ci1 pre rest = none → searchFrom r2 ci2 pre rest = none := by
  intro rest
  induction rest with
  | nil =>
    intro pre h1
    unfold searchFrom at h1 ⊢
    split at h1
    · simp at h1
    · rename_i hm
      rw [h _ _ hm]
  | cons c t ih =>
    intro pre h1
    unfold searchFrom at h1 ⊢
    split at h1
    · simp at h1
    · rename_i hm
      rw [h _ _ hm]
      exact ih _ h1

theorem run_fourDigits_ci (s : MState) :
    Re.run true (.times 4 .d) s = Re.run false (.times 4 .d) s := rfl

theorem eduYearRe_needs_fourDigits (prev : Option Nat) (rest : Str)
    (h : matchAt fourDigitsRe false prev rest = none) :
    matchAt eduYearRe true prev rest = none := by
  have h4 : Re.run true (.times 4 .d) ⟨prev, rest, []⟩ = [] := by
    rw [run_fourDigits_ci]
    exact List.head?_eq_none_iff.mp h
  unfold matchAt
  rw [List.head?_eq_none_iff, List.eq_nil_iff_forall_not_mem]
  intro st hst
  unfold eduYearRe at hst
  rw [run_group] at hst
  obtain ⟨s1, hs1, _⟩ := List.mem_map.mp hst
  obtain ⟨r, hr, hrun⟩ := mem_run_alts true _ _ s1 hs1
  have hseq : ∀ (x : Re), s1 ∈ Re.run true (.seq (.times 4 .d) x) ⟨prev, rest, []⟩ → False := by
    intro x hx
    simp only [Re.run, List.mem_flatMap] at hx h4
    rw [h4] at hx
    simp at hx
  simp only [List.mem_cons, List.mem_singleton, List.not_mem_nil, or_false] at hr
  rcases hr with rfl | rfl | rfl | rfl | rfl
  · exact hseq _ hrun
  · exact hseq _ hrun
  · exact hseq _ hrun
  · exact hseq _ hrun
  · rw [h4] at hrun
    simp at hrun

/-- A string without a run of four digits holds no year. -/
theorem eduYearRe_none_of_no_fourDigits (s : Str) (h : reTest fourDigitsRe false s = false) :
    reMatch eduYearRe true s = none := by
  unfold reTest at h
  have h1 : reMatch fourDigitsRe false s = none := by
    cases hm : reMatch fourDigitsRe false s with
    | none => rfl
    | some m => rw [hm] at h; exact Bool.noConfusion h
  exact searchFrom_none_imp fourDigitsRe eduYearRe false true eduYearRe_needs_fourDigits s [] h1

theorem repLoop_exact (p : Nat → Bool) (g : Bool) (caps : List (Nat × Str)) (R : Str) :
    ∀ (ds : Str) (fuel : Nat) (prev : Option Nat), ds.length < fuel → (∀ c ∈ ds, p c = true) →
      ∃ q, repLoop (stepChar p) g fuel ds.length (some ds.length) ⟨prev, ds ++ R, caps⟩
        = [⟨q, R, caps⟩] := by
  intro ds
  induction ds with
  | nil =>
    intro fuel prev hf _
    obtain ⟨f, rfl⟩ : ∃ f, fuel = f + 1 := ⟨fuel - 1, by simp at hf; omega⟩
    exact ⟨prev, by simp [repLoop]⟩
  | cons d ds ih =>
    intro fuel prev hf hp
    obtain ⟨f, rfl⟩ : ∃ f, fuel = f + 1 := ⟨fuel - 1, by simp at hf; omega⟩
    obtain ⟨q, e⟩ := ih f (some d) (by simp at hf; omega) (fun c hc => hp c (List.mem_cons_of_mem _ hc))
    refine ⟨q, ?_⟩
    unfold repLoop
    simp only [List.length_cons, Option.some.injEq, Nat.add_one_ne_zero, if_false,
      List.cons_append, stepChar_cons, hp d (by simp), if_true, List.flatMap_cons,
      List.flatMap_nil, List.append_nil, false_and, Nat.add_sub_cancel, Option.map_some',
      Nat.zero_lt_succ]
    exact e

theorem run_times_d (ci : Bool) (ds R : Str) (prev : Option Nat) (caps : List (Nat × Str))
    (hd : ∀ c ∈ ds, isDigit c = true) :
    ∃ q, Re.run ci (.times ds.length .d) ⟨prev, ds ++ R, caps⟩ = [⟨q, R, caps⟩] := by
  obtain ⟨q, e⟩ := repLoop_exact isDigit true caps R ds ((ds ++ R).length + ds.length + 1) prev
    (by simp; omega) hd
  refine ⟨q, ?_⟩
  rw [← e]
  show repLoop (stepChar (fun d => (([ClassItem.digit].any (ClassItem.test ci d)) != false))) true
    _ _ _ _ = _
  have hp : (fun d => (([ClassItem.digit].any (ClassItem.test ci d)) != false)) = isDigit := by
    funext d
    simp [ClassItem.test]
  rw [hp]

theorem digit_not_space (d : Nat) (h : isDigit d = true) : isSpace d = false := by
  simp only [isDigit, Bool.and_eq_true, decide_eq_true_eq] at h
  simp only [isSpace, Bool.or_eq_false_iff, Bool.and_eq_false_iff, decide_eq_false_iff_not,
    beq_eq_false_iff_ne, ne_eq]
  omega

theorem join_lines_trim (first : Str) (others : List Str)
    (hfirst : trim first = first ∧ first ≠ [])
    (hlast : ∀ l, (first :: others).getLast? = some l → trim l = l ∧ l ≠ []) :
    trim (join (str "\n") (first :: others)) = join (str "\n") (first :: others) := by
  apply trim_eq_self
  · intro c hc
    rw [join_nl_cons] at hc
    apply trim_head?_not_space first hfirst.1 c
    cases first with
    | nil => exact absurd rfl hfirst.2
    | cons d t => simpa using hc
  · intro c hc
    rw [join_nl_cons] at hc
    cases hothers : others.getLast? with
    | none =>
      have : others = [] := List.getLast?_eq_none_iff.mp hothers
      subst this
      rw [List.flatMap_nil, List.append_nil] at hc
      exact trim_last_not_space first hfirst.1 c hc
    | some l =>
      obtain ⟨ys, e⟩ := List.getLast?_eq_some_iff.mp hothers
      have hl := hlast l (by rw [e, ← List.cons_append]; exact List.getLast?_concat _)
      obtain ⟨zs, ez⟩ : ∃ zs, l = zs ++ [c] ∧ True := by
        rw [e, List.flatMap_append, List.flatMap_singleton] at hc
        cases hl' : l.getLast? with
        | none => exact absurd (List.getLast?_eq_none_iff.mp hl') hl.2
        | some c' =>
          obtain ⟨zs, ez⟩ := List.getLast?_eq_some_iff.mp hl'
          rw [ez] at hc
          have : (first ++ (ys.flatMap (fun l => 10 :: l) ++ 10 :: (zs ++ [c']))).getLast?
              = some c' := by
            rw [show first ++ (ys.flatMap (fun l => 10 :: l) ++ 10 :: (zs ++ [c']))
              = (first ++ (ys.flatMap (fun l => 10 :: l) ++ 10 :: zs)) ++ [c'] by simp]
            exact List.getLast?_concat _
          rw [this] at hc
          simp only [Option.some.injEq] at hc
          subst hc
          exact ⟨zs, ez, trivial⟩
      exact trim_last_not_space l hl.1 c (by rw [ez.1]; exact List.getLast?_concat _)

/-- C28, counterexample: the buffer ["Bachelor of Science", "University of Oxford"] is cut
before the institution line, which starts with "University", and gives two entries, none
of which has both the degree and the institution. -/
theorem education_pair_split_at_university :
    reTest degreeRe true (str "Bachelor of Science") = true ∧
    reTest institutionRe true (str "University of Oxford") = true ∧
    parseEducation [str "Bachelor of Science", str "University of Oxford"] =
      [⟨str "Bachelor of Science", [], [], [], []⟩, ⟨[], str "University of Oxford", [], [], []⟩] := by
  decide!

/-- C28, amended: for two non-empty trimmed lines D and I without line break, D matching
a degree keyword, neither holding a run of four digits, and I not starting with what the
entry-start lookahead accepts (a word followed by " of", or Bachelor, Master, PhD, B.S.,
M.S., MBA, University, College, Institute, ignoring case), the education parser returns
exactly one entry, with degree D, institution I and the other fields empty. -/
theorem education_degree_institution_pair (D I : Str)
    (hD : 10 ∉ D ∧ trim D = D ∧ D ≠ []) (hI : 10 ∉ I ∧ trim I = I ∧ I ≠ [])
    (hdeg : reTest degreeRe true D = true)
    (hDyear : reTest fourDigitsRe false D = false) (hIyear : reTest fourDigitsRe false I = false)
    (hstart : matchAt eduEntryStartRe true (some 10) I = none) :
    parseEducation [D, I] = [⟨D, I, [], [], []⟩] := by
  have hitems : eduItems [D, I] = [join (str "\n") [D, I]] :=
    eduItems_single D [I] ⟨hD.1, hD.2.2⟩
      (fun l hl => by
        rw [List.mem_singleton] at hl
        subst hl
        exact ⟨hI.2.2, hI.1, hstart⟩)
      (join_lines_trim D [I] ⟨hD.2.1, hD.2.2⟩ (fun l hl => by
        simp only [List.getLast?_cons_cons, List.getLast?_singleton, Option.some.injEq] at hl
        subst hl
        exact ⟨hI.2.1, hI.2.2⟩))
  have hlines : splitChar 10 (join (str "\n") [D, I]) = [D, I] :=
    splitChar_join 10 [D, I] (by simp) (fun w hw => by
      simp only [List.mem_cons, List.mem_singleton, List.not_mem_nil, or_false] at hw
      rcases hw with rfl | rfl
      · exact hD.1
      · exact hI.1)
  have hhead : eduHead [D, I] = ⟨D, I, [], []⟩ := by
    unfold eduHead
    simp [nth, hdeg]
  have hloop : eduYearLoop ⟨D, I, [], []⟩ [D, I] = ⟨D, I, [], []⟩ :=
    eduYearLoop_none _ _ (fun l hl => by
      simp only [List.mem_cons, List.mem_singleton, List.not_mem_nil, or_false] at hl
      rcases hl with rfl | rfl
      · exact eduYearRe_none_of_no_fourDigits _ hDyear
      · exact eduYearRe_none_of_no_fourDigits _ hIyear)
  unfold parseEducation
  rw [hitems]
  simp only [List.map_cons, List.map_nil, List.cons.injEq, and_true]
  unfold parseEducationItem
  simp only [hlines, hhead, hloop]
  simp [truthy, List.find?, join]

/-- C28, instance: the lines "B.S. Computer Science" and "Oxford University". -/
theorem education_degree_institution_pair_witness :
    parseEducation [str "B.S. Computer Science", str "Oxford University"] =
      [⟨str "B.S. Computer Science", str "Oxford University", [], [], []⟩] :=
  education_degree_institution_pair (str "B.S. Computer Science") (str "Oxford University")
    (by decide) (by decide) (by decide!) (by decide!) (by decide!) (by decide!)

theorem run_atRe (s : MState) :
    Re.run true atRe s = (Re.run true .bol s).flatMap (fun s0 =>
      (Re.run true (.group 1 (.rep false 0 none .dot)) s0).flatMap atAfterTitle) := rfl

theorem flatMap_ite_singleton {α : Type} (c : α → Prop) [DecidablePred c] (xs : List α) :
    xs.flatMap (fun x => if c x then [] else [x]) = xs.filter (fun x => decide (¬ c x)) := by
  induction xs with
  | nil => rfl
  | cons x xs ih =>
    rw [List.flatMap_cons, ih]
    by_cases h : c x
    · simp [h]
    · simp [h]

theorem repLoop_zero_max (ma : MState → List MState) (g : Bool) (f mn : Nat) (s : MState)
    (h : mn = 0) : repLoop ma g f mn (some 0) s = [s] := by
  cases f with
  | zero => simp [repLoop, h]
  | succ f => simp [repLoop]

theorem run_opt (ci : Bool) (a : Re) (s : MState) :
    Re.run ci (.rep true 0 (some 1) a) s
      = (Re.run ci a s).filter (fun s1 => decide (¬ s1.rest.length = s.rest.length)) ++ [s] := by
  show repLoop (fun s1 => Re.run ci a s1) true (s.rest.length + 0 + 1) 0 (some 1) s = _
  rw [repLoop]
  simp only [Option.some.injEq, Nat.add_one_ne_zero, if_false, Nat.lt_irrefl, if_true,
    true_and, Option.map_some', Nat.sub_self, Nat.zero_sub,
    repLoop_zero_max _ _ _ _ _ rfl, OfNat.one_ne_ofNat]
  rw [flatMap_ite_singleton (fun s1 : MState => s1.rest.length = s.rest.length)]

theorem run_plus_s (ci : Bool) (s : MState) :
    Re.run ci (.plus .s) s = (stepChar isSpace s).flatMap
      (fun s1 => starStates isSpace true s.caps s1.prev s1.rest) := by
  obtain ⟨prev, rest, caps⟩ := s
  show repLoop (stepChar (fun d => (([ClassItem.space].any (ClassItem.test ci d)) != false))) true
    (rest.length + 1 + 1) 1 none ⟨prev, rest, caps⟩ = _
  rw [show (fun d => (([ClassItem.space].any (ClassItem.test ci d)) != false)) = isSpace from
    funext (spaceClass_test ci)]
  exact repLoop_plus isSpace true caps rest _ prev (by omega)

theorem mem_run_plus_s (ci : Bool) (s s2 : MState) (h : s2 ∈ Re.run ci (.plus .s) s) :
    s2.caps = s.caps ∧ ∃ w, w ≠ [] ∧ (∀ c ∈ w, isSpace c = true) ∧ s.rest = w ++ s2.rest := by
  rw [run_plus_s] at h
  obtain ⟨s1, h1, h2⟩ := List.mem_flatMap.mp h
  obtain ⟨d, e, hd⟩ := stepChar_rest _ _ _ h1
  obtain ⟨hc, pre, e2, hpre⟩ := mem_starStates isSpace true s.caps _ _ s2 h2
  refine ⟨hc, d :: pre, by simp, ?_, by rw [e, e2]; rfl⟩
  intro c hcm
  rcases List.mem_cons.mp hcm with rfl | hcm
  · exact hd
  · exact hpre c hcm

theorem run_plus_s_one (ci : Bool) (prev : Option Nat) (w : Nat) (R : Str)
    (caps : List (Nat × Str)) (hw : isSpace w = true)
    (hR : ∀ c t, R = c :: t → isSpace c = false) :
    Re.run ci (.plus .s) ⟨prev, w :: R, caps⟩ = [⟨some w, R, caps⟩] := by
  rw [run_plus_s, stepChar_cons, if_pos hw]
  simp only [List.flatMap_cons, List.flatMap_nil, List.append_nil]
  cases R with
  | nil => rfl
  | cons c t => simp [starStates, hR c t rfl]

theorem at_a_test (c : Nat) : inRangeCI true 97 97 c = true ↔ c = 97 ∨ c = 65 := by
  simp only [inRangeCI, toUpperC, toLowerC, isUpperAZ, isLowerAZ, Bool.true_and,
    Bool.or_eq_true, Bool.and_eq_true, decide_eq_true_eq]
  split_ifs <;> omega

theorem at_t_test (c : Nat) : inRangeCI true 116 116 c = true ↔ c = 116 ∨ c = 84 := by
  simp only [inRangeCI, toUpperC, toLowerC, isUpperAZ, isLowerAZ, Bool.true_and,
    Bool.or_eq_true, Bool.and_eq_true, decide_eq_true_eq]
  split_ifs <;> omega

theorem paren_test (ci : Bool) (k c : Nat) (hk : k = 40 ∨ k = 41) :
    inRangeCI ci k k c = true ↔ c = k := by
  simp only [inRangeCI, toUpperC, toLowerC, isUpperAZ, isLowerAZ,
    Bool.or_eq_true, Bool.and_eq_true, decide_eq_true_eq]
  cases ci
  · simp only [Bool.false_eq_true, false_and, or_false]
    omega
  · simp only [true_and]
    split_ifs <;> omega

theorem run_lit_at (s : MState) :
    Re.run true (.lit (str "at")) s = (stepChar (inRangeCI true 97 97) s).flatMap
      (fun s1 => stepChar (inRangeCI true 116 116) s1) := rfl

theorem run_atDateGroup (s : MState) :
    Re.run true atDateGroup s = (Re.run true (.plus .s) s).flatMap (fun a =>
      (stepChar (inRangeCI true 40 40) a).flatMap (fun b =>
        (Re.run true (.group 3 (.rep false 0 none .dot)) b).flatMap (fun c =>
          stepChar (inRangeCI true 41 41) c))) := rfl

theorem atDateGroup_consumes (s s1 : MState) (h : s1 ∈ Re.run true atDateGroup s) :
    ¬ s1.rest.length = s.rest.length := by
  rw [run_atDateGroup] at h
  obtain ⟨a, ha, h⟩ := List.mem_flatMap.mp h
  obtain ⟨b, hb, h⟩ := List.mem_flatMap.mp h
  obtain ⟨c, hc, h⟩ := List.mem_flatMap.mp h
  obtain ⟨_, w, hw, _, ew⟩ := mem_run_plus_s true s a ha
  obtain ⟨d1, e1, _⟩ := stepChar_rest _ _ _ hb
  obtain ⟨p3, e3⟩ := run_suffix true _ b c hc
  obtain ⟨d4, e4, _⟩ := stepChar_rest _ _ _ h
  rw [ew, e1, e3, e4]
  have : 0 < w.length := List.length_pos.mpr hw
  simp only [List.length_append, List.length_cons]
  omega

theorem atDate_eq (s : MState) :
    atDate s = (Re.run true atDateGroup s).flatMap (fun s1 => Re.run true .eol s1)
      ++ Re.run true .eol s := by
  unfold atDate
  show (Re.run true (.rep true 0 (some 1) atDateGroup) s).flatMap _ = _
  rw [run_opt, List.filter_eq_self.mpr, List.flatMap_append, List.flatMap_singleton]
  intro s1 hs1
  simpa using atDateGroup_consumes s s1 hs1

theorem run_eol_nonempty (ci : Bool) (prev : Option Nat) (c : Nat) (t : Str)
    (caps : List (Nat × Str)) : Re.run ci .eol ⟨prev, c :: t, caps⟩ = [] := rfl

theorem run_eol_nil (ci : Bool) (prev : Option Nat) (caps : List (Nat × Str)) :
    Re.run ci .eol ⟨prev, [], caps⟩ = [⟨prev, [], caps⟩] := rfl

/-- The end of the pattern on " (D)": the date is captured. -/
theorem atDate_match (D : Str) (hD : ∀ c ∈ D, isLineTerminator c = false) (w : Nat)
    (hw : isSpace w = true) (prev : Option Nat) (caps : List (Nat × Str)) :
    ∃ st, (atDate ⟨prev, w :: 40 :: (D ++ [41]), caps⟩).head? = some st ∧
      st.caps = (3, D) :: caps := by
  rw [atDate_eq, run_eol_nonempty, List.append_nil, run_atDateGroup,
    run_plus_s_one true prev w _ caps hw (fun c t e => by
      simp only [List.cons.injEq] at e
      rw [← e.1]
      decide)]
  simp only [List.flatMap_cons, List.flatMap_nil, List.append_nil, stepChar_cons]
  rw [if_pos (by decide)]
  simp only [List.flatMap_cons, List.flatMap_nil, List.append_nil]
  rw [run_group, run_star_dot, List.flatMap_map, List.flatMap_assoc]
  apply lazy_first (fun d => !isLineTerminator d) caps _ (fun st => st.caps = (3, D) :: caps) [41]
  · intro prev'
    have htake : List.take ((D ++ [41]).length - [41].length) (D ++ [41]) = D :=
      List.take_left' (by simp)
    simp only [htake, stepChar_cons]
    rw [if_pos (by decide)]
    exact ⟨_, rfl, rfl⟩
  · intro c hc
    simp [hD c hc]
  · intro pre suf e hsuf prev'
    obtain ⟨d, t, rfl⟩ : ∃ d t, suf = d :: t := by
      cases suf with
      | nil => exact absurd rfl hsuf
      | cons d t => exact ⟨d, t, rfl⟩
    simp only [List.cons_append, stepChar_cons]
    split
    · simp only [List.flatMap_cons, List.flatMap_nil, List.append_nil]
      cases t <;> rfl
    · rfl

/-- The end of the pattern does not match inside the company. -/
theorem atDate_fail (S D : Str) (hS : S ≠ []) (hparen : 40 ∉ S)
    (hlast : ∀ c, S.getLast? = some c → isSpace c = false) (w : Nat) (hw : isSpace w = true)
    (prev : Option Nat) (caps : List (Nat × Str)) :
    atDate ⟨prev, S ++ w :: 40 :: (D ++ [41]), caps⟩ = [] := by
  obtain ⟨x, xs, rfl⟩ : ∃ x xs, S = x :: xs := by
    cases S with
    | nil => exact absurd rfl hS
    | cons x xs => exact ⟨x, xs, rfl⟩
  rw [atDate_eq, List.cons_append, run_eol_nonempty, List.append_nil,
    List.flatMap_eq_nil_iff]
  intro s1 hs1
  exfalso
  rw [run_atDateGroup] at hs1
  obtain ⟨a, ha, h⟩ := List.mem_flatMap.mp hs1
  obtain ⟨b, hb, _⟩ := List.mem_flatMap.mp h
  obtain ⟨_, ws, hws, hsp, ew⟩ := mem_run_plus_s true _ a ha
  obtain ⟨d1, e1, hd1⟩ := stepChar_rest _ _ _ hb
  rw [paren_test true 40 d1 (Or.inl rfl)] at hd1
  subst hd1
  simp only [] at ew
  rw [e1, ← List.cons_append] at ew
  rcases List.append_eq_append_iff.mp ew with ⟨m, e2, _⟩ | ⟨m, e2, e3⟩
  · obtain ⟨c, hc⟩ : ∃ c, (x :: xs).getLast? = some c := by
      cases h : (x :: xs).getLast? with
      | none => simp at h
      | some c => exact ⟨c, rfl⟩
    have h1 := hlast c hc
    have h2 := hsp c (by rw [e2]; exact List.mem_append_left _ (List.mem_of_getLast?_eq_some hc))
    rw [h1] at h2
    exact Bool.noConfusion h2
  · cases m with
    | nil =>
      simp only [List.nil_append, List.cons.injEq] at e3
      rw [← e3.1] at hw
      exact Bool.noConfusion hw
    | cons c m' =>
      simp only [List.cons_append, List.cons.injEq] at e3
      apply hparen
      rw [e2, e3.1]
      simp


/-- The company and the date on "C (D)". -/
theorem atCompany_match (C D : Str) (hC : ∀ c ∈ C, isLineTerminator c = false)
    (hparen : 40 ∉ C) (hlast : ∀ c, C.getLast? = some c → isSpace c = false)
    (hD : ∀ c ∈ D, isLineTerminator c = false) (w : Nat) (hw : isSpace w = true)
    (prev : Option Nat) (caps : List (Nat × Str)) :
    ∃ st, (atCompany ⟨prev, C ++ w :: 40 :: (D ++ [41]), caps⟩).head? = some st ∧
      st.caps = (3, D) :: (2, C) :: caps := by
  unfold atCompany
  rw [run_group, Re.lazyStar, run_star_dot, List.flatMap_map]
  apply lazy_first (fun d => !isLineTerminator d) caps _
    (fun st => st.caps = (3, D) :: (2, C) :: caps) (w :: 40 :: (D ++ [41]))
  · intro prev'
    have htake : List.take ((C ++ w :: 40 :: (D ++ [41])).length - (w :: 40 :: (D ++ [41])).length)
        (C ++ w :: 40 :: (D ++ [41])) = C := List.take_left' (by simp)
    simp only [htake]
    exact atDate_match D hD w hw prev' ((2, C) :: caps)
  · intro c hc
    simp [hC c hc]
  · intro pre suf e hsuf prev'
    have hsufl : ∀ c, suf.getLast? = some c → isSpace c = false := by
      intro c hc
      apply hlast c
      rw [e, List.getLast?_append, hc]
      rfl
    exact atDate_fail suf D hsuf (fun h => hparen (by rw [e]; exact List.mem_append_right _ h))
      hsufl w hw prev' _

/-- The pattern after the title, on " at C (D)". -/
theorem atAfterTitle_match (C D : Str) (hCne : C ≠ [])
    (hC : ∀ c ∈ C, isLineTerminator c = false) (hparen : 40 ∉ C)
    (hhead : ∀ c, C.head? = some c → isSpace c = false)
    (hlast : ∀ c, C.getLast? = some c → isSpace c = false)
    (hD : ∀ c ∈ D, isLineTerminator c = false)
    (prev : Option Nat) (caps : List (Nat × Str)) :
    ∃ st, (atAfterTitle ⟨prev, 32 :: 97 :: 116 :: 32 :: (C ++ 32 :: 40 :: (D ++ [41])), caps⟩).head?
        = some st ∧ st.caps = (3, D) :: (2, C) :: caps := by
  obtain ⟨x, xs, rfl⟩ : ∃ x xs, C = x :: xs := by
    cases C with
    | nil => exact absurd rfl hCne
    | cons x xs => exact ⟨x, xs, rfl⟩
  unfold atAfterTitle
  rw [run_plus_s_one true prev 32 _ caps (by decide) (fun c t e => by
    simp only [List.cons.injEq] at e
    rw [← e.1]
    decide)]
  simp only [List.flatMap_cons, List.flatMap_nil, List.append_nil, run_lit_at, stepChar_cons]
  rw [if_pos (by decide)]
  simp only [List.flatMap_cons, List.flatMap_nil, List.append_nil, stepChar_cons]
  rw [if_pos (by decide)]
  simp only [List.flatMap_cons, List.flatMap_nil, List.append_nil]
  rw [run_plus_s_one true (some 116) 32 _ caps (by decide) (fun c t e => by
    simp only [List.cons_append, List.cons.injEq] at e
    rw [← e.1]
    exact hhead x rfl)]
  simp only [List.flatMap_cons, List.flatMap_nil, List.append_nil]
  exact atCompany_match (x :: xs) D hC hparen hlast hD 32 (by decide) (some 32) caps

/-- The pattern after the title does not match inside the title. -/
theorem atAfterTitle_fail (P S R : Str) (hS : S ≠ [])
    (hlast : ∀ c, S.getLast? = some c → isSpace c = false)
    (hat : ∀ pre post w a t, P ++ S = pre ++ w :: a :: t :: post → isSpace w = true →
      (a = 97 ∨ a = 65) → (t = 116 ∨ t = 84) → ∃ c, post.head? = some c ∧ isSpace c = false)
    (prev : Option Nat) (caps : List (Nat × Str)) :
    atAfterTitle ⟨prev, S ++ 32 :: 97 :: 116 :: 32 :: R, caps⟩ = [] := by
  rw [List.eq_nil_iff_forall_not_mem]
  intro st hst
  unfold atAfterTitle at hst
  obtain ⟨s2, h2, hst⟩ := List.mem_flatMap.mp hst
  obtain ⟨s3, h3, hst⟩ := List.mem_flatMap.mp hst
  obtain ⟨s4, h4, _⟩ := List.mem_flatMap.mp hst
  obtain ⟨_, ws, hws, hsp, ew⟩ := mem_run_plus_s true _ s2 h2
  rw [run_lit_at] at h3
  obtain ⟨sa, ha, ht⟩ := List.mem_flatMap.mp h3
  obtain ⟨a, ea, hpa⟩ := stepChar_rest _ _ _ ha
  obtain ⟨t, et, hpt⟩ := stepChar_rest _ _ _ ht
  rw [at_a_test] at hpa
  rw [at_t_test] at hpt
  obtain ⟨_, ws2, hws2, hsp2, ew2⟩ := mem_run_plus_s true _ s4 h4
  obtain ⟨x, ws2', rfl⟩ : ∃ x t, ws2 = x :: t := by
    cases ws2 with
    | nil => exact absurd rfl hws2
    | cons x t => exact ⟨x, t, rfl⟩
  have hx : isSpace x = true := hsp2 x (by simp)
  simp only [] at ew
  rw [ea, et, ew2, List.cons_append] at ew
  obtain ⟨w0, wl, rfl⟩ : ∃ w0 wl, ws = w0 ++ [wl] := by
    cases hl : ws.getLast? with
    | none => exact absurd (List.getLast?_eq_none_iff.mp hl) hws
    | some wl =>
      obtain ⟨w0, e⟩ := List.getLast?_eq_some_iff.mp hl
      exact ⟨w0, wl, e⟩
  have hwl : isSpace wl = true := hsp wl (by simp)
  rcases List.append_eq_append_iff.mp ew with ⟨m, e2, _⟩ | ⟨m, e2, e3⟩
  · obtain ⟨c, hc⟩ : ∃ c, S.getLast? = some c := by
      cases h : S.getLast? with
      | none => exact absurd (List.getLast?_eq_none_iff.mp h) hS
      | some c => exact ⟨c, rfl⟩
    have h1 := hlast c hc
    have h2' := hsp c (by rw [e2]; exact List.mem_append_left _ (List.mem_of_getLast?_eq_some hc))
    rw [h1] at h2'
    exact Bool.noConfusion h2'
  · cases m with
    | nil =>
      simp only [List.nil_append, List.cons.injEq] at e3
      rcases hpa with h | h <;> omega
    | cons c1 m1 =>
      cases m1 with
      | nil =>
        simp only [List.cons_append, List.nil_append, List.cons.injEq] at e3
        rcases hpt with h | h <;> omega
      | cons c2 m2 =>
        simp only [List.cons_append, List.cons.injEq] at e3
        obtain ⟨e31, e32, e33⟩ := e3
        subst e31
        subst e32
        have hTS : P ++ S = (P ++ w0) ++ wl :: a :: t :: m2 := by
          rw [e2]
          simp
        obtain ⟨c, hc, hcs⟩ := hat (P ++ w0) m2 wl a t hTS hwl hpa hpt
        cases m2 with
        | nil => simp at hc
        | cons c3 m3 =>
          simp only [List.cons_append, List.cons.injEq] at e33
          simp only [List.head?_cons, Option.some.injEq] at hc
          rw [← hc, ← e33.1, hx] at hcs
          exact Bool.noConfusion hcs

/-- The three captures of `atRe` on "T at C (D)". -/
theorem atRe_match (T C D : Str)
    (hT : ∀ c ∈ T, isLineTerminator c = false)
    (hTlast : ∀ c, T.getLast? = some c → isSpace c = false)
    (hat : ∀ pre post w a t, T = pre ++ w :: a :: t :: post → isSpace w = true →
      (a = 97 ∨ a = 65) → (t = 116 ∨ t = 84) → ∃ c, post.head? = some c ∧ isSpace c = false)
    (hCne : C ≠ []) (hC : ∀ c ∈ C, isLineTerminator c = false) (hparen : 40 ∉ C)
    (hChead : ∀ c, C.head? = some c → isSpace c = false)
    (hClast : ∀ c, C.getLast? = some c → isSpace c = false)
    (hD : ∀ c ∈ D, isLineTerminator c = false) :
    ∃ st, (Re.run true atRe
        ⟨none, T ++ 32 :: 97 :: 116 :: 32 :: (C ++ 32 :: 40 :: (D ++ [41])), []⟩).head? = some st ∧
      cap 1 st.caps = some T ∧ cap 2 st.caps = some C ∧ cap 3 st.caps = some D := by
  rw [run_atRe]
  have hbol : Re.run true .bol
      ⟨none, T ++ 32 :: 97 :: 116 :: 32 :: (C ++ 32 :: 40 :: (D ++ [41])), []⟩
      = [⟨none, T ++ 32 :: 97 :: 116 :: 32 :: (C ++ 32 :: 40 :: (D ++ [41])), []⟩] := rfl
  rw [hbol, List.flatMap_singleton, run_group, run_star_dot, List.flatMap_map]
  apply lazy_first (fun d => !isLineTerminator d) [] _
    (fun st => cap 1 st.caps = some T ∧ cap 2 st.caps = some C ∧ cap 3 st.caps = some D)
    (32 :: 97 :: 116 :: 32 :: (C ++ 32 :: 40 :: (D ++ [41])))
  · intro prev'
    have htake : List.take
        ((T ++ 32 :: 97 :: 116 :: 32 :: (C ++ 32 :: 40 :: (D ++ [41]))).length
          - (32 :: 97 :: 116 :: 32 :: (C ++ 32 :: 40 :: (D ++ [41]))).length)
        (T ++ 32 :: 97 :: 116 :: 32 :: (C ++ 32 :: 40 :: (D ++ [41]))) = T :=
      List.take_left' (by simp)
    simp only [htake]
    obtain ⟨st, hst, hcaps⟩ := atAfterTitle_match C D hCne hC hparen hChead hClast hD prev'
      [(1, T)]
    refine ⟨st, hst, ?_⟩
    rw [hcaps]
    refine ⟨?_, ?_, ?_⟩
    · rw [cap_cons_ne 1 3 _ _ (by decide), cap_cons_ne 1 2 _ _ (by decide), cap_cons_self]
    · rw [cap_cons_ne 2 3 _ _ (by decide), cap_cons_self]
    · rw [cap_cons_self]
  · intro c hc
    simp [hT c hc]
  · intro pre suf e hsuf prev'
    have hsufl : ∀ c, suf.getLast? = some c → isSpace c = false := by
      intro c hc
      apply hTlast c
      rw [e, List.getLast?_append, hc]
      rfl
    exact atAfterTitle_fail pre suf _ hsuf hsufl (by rw [← e]; exact hat) prev' _

theorem expHead_at (T C D : Str)
    (hT : ∀ c ∈ T, isLineTerminator c = false)
    (hTlast : ∀ c, T.getLast? = some c → isSpace c = false)
    (hat : ∀ pre post w a t, T = pre ++ w :: a :: t :: post → isSpace w = true →
      (a = 97 ∨ a = 65) → (t = 116 ∨ t = 84) → ∃ c, post.head? = some c ∧ isSpace c = false)
    (hCne : C ≠ []) (hC : ∀ c ∈ C, isLineTerminator c = false) (hparen : 40 ∉ C)
    (hChead : ∀ c, C.head? = some c → isSpace c = false)
    (hClast : ∀ c, C.getLast? = some c → isSpace c = false)
    (hD : ∀ c ∈ D, isLineTerminator c = false) (lines : List Str)
    (hfirst : nth lines 0 = T ++ 32 :: 97 :: 116 :: 32 :: (C ++ 32 :: 40 :: (D ++ [41]))) :
    expHead lines = ⟨T, C, D, []⟩ := by
  obtain ⟨st, hst, h1, h2, h3⟩ := atRe_match T C D hT hTlast hat hCne hC hparen hChead hClast hD
  obtain ⟨m, hm, hc⟩ := reMatch_of_head atRe true _ st hst
  unfold expHead
  simp only [hfirst, hm, hc, h1, h2, h3, Option.getD_some, optOr, orElse_nil]


theorem no_at_word_of_no_space (T : Str) (h : ∀ c ∈ T, isSpace c = false) :
    ∀ pre post w a t, T = pre ++ w :: a :: t :: post → isSpace w = true →
      (a = 97 ∨ a = 65) → (t = 116 ∨ t = 84) → ∃ c, post.head? = some c ∧ isSpace c = false := by
  intro pre post w a t e hw _ _
  have := h w (by rw [e]; simp)
  rw [hw] at this
  exact Bool.noConfusion this

/-! ### C26 -/

/-- C26, counterexample: the entry "Dev at Acme ()" followed by "Contract 2019 - 2020" has a
first line of the form T at C (D) with T = "Dev", C = "Acme" and D empty, and its date is
"2019 - 2020", taken from the second line, not D. -/
theorem experience_at_pattern_empty_date :
    nth (splitChar 10 (str "Dev at Acme ()\nContract 2019 - 2020")) 0
        = str "Dev" ++ str " at " ++ str "Acme" ++ str " (" ++ [] ++ str ")" ∧
      parseExperience [str "Dev at Acme ()", str "Contract 2019 - 2020"]
        = [⟨str "Dev", str "Acme", str "2019 - 2020", [], str "Contract 2019 - 2020"⟩] ∧
      (parseExperienceItem (str "Dev at Acme ()\nContract 2019 - 2020")).date
        = str "2019 - 2020" := by
  decide!

/-- C26, amended: for every experience entry whose first line is T + " at " + C + " (" + D
+ ")", where T, C and D hold no line terminator, T and C have no surrounding white space,
C is non-empty and holds no '(', D is non-empty, and every "at" (in any case) that follows
a white space in T is followed by a character that is no white space, the parser returns
title T, companyName C and date D, whatever '|' and ',' the line holds. -/
theorem experience_at_pattern (T C D e : Str)
    (hT : trim T = T ∧ ∀ c ∈ T, isLineTerminator c = false)
    (hat : ∀ pre post w a t, T = pre ++ w :: a :: t :: post → isSpace w = true →
      (a = 97 ∨ a = 65) → (t = 116 ∨ t = 84) → ∃ c, post.head? = some c ∧ isSpace c = false)
    (hC : C ≠ [] ∧ trim C = C ∧ 40 ∉ C ∧ ∀ c ∈ C, isLineTerminator c = false)
    (hD : D ≠ [] ∧ ∀ c ∈ D, isLineTerminator c = false)
    (hfirst : nth (splitChar 10 e) 0 = T ++ str " at " ++ C ++ str " (" ++ D ++ str ")") :
    (parseExperienceItem e).title = T ∧ (parseExperienceItem e).companyName = C ∧
      (parseExperienceItem e).date = D := by
  have hform : T ++ str " at " ++ C ++ str " (" ++ D ++ str ")"
      = T ++ 32 :: 97 :: 116 :: 32 :: (C ++ 32 :: 40 :: (D ++ [41])) := by
    simp [str]
  rw [hform] at hfirst
  have hhead := expHead_at T C D hT.2 (trim_last_not_space T hT.1) hat hC.1 hC.2.2.2 hC.2.2.1
    (trim_head?_not_space C hC.2.1) (trim_last_not_space C hC.2.1) hD.2 (splitChar 10 e) hfirst
  have htr : truthy D = true := by
    cases hd : D with
    | nil => exact absurd hd hD.1
    | cons _ _ => rfl
  unfold parseExperienceItem
  simp only [hhead, htr, if_true, and_self]

/-- C26, instance: a first line that also holds ',' and '|', followed by a bullet line. -/
theorem experience_at_pattern_witness :
    (parseExperienceItem (str "Engineer,R&D|Core at Acme, Inc | EU (2019 - now)\n- Built X")).title
        = str "Engineer,R&D|Core" ∧
      (parseExperienceItem
        (str "Engineer,R&D|Core at Acme, Inc | EU (2019 - now)\n- Built X")).companyName
        = str "Acme, Inc | EU" ∧
      (parseExperienceItem (str "Engineer,R&D|Core at Acme, Inc | EU (2019 - now)\n- Built X")).date
        = str "2019 - now" :=
  experience_at_pattern (str "Engineer,R&D|Core") (str "Acme, Inc | EU") (str "2019 - now")
    (str "Engineer,R&D|Core at Acme, Inc | EU (2019 - now)\n- Built X")
    (by decide) (no_at_word_of_no_space _ (by decide)) (by decide) (by decide) (by decide)

/-! ### The dots of a normalised language -/

/-- C39: the level-to-dots computation inlined in `normalizeResumeData` agrees with
`getDotCount` on every string, the empty string included, so a language object with level
`level` is normalised to dots `getDotCount level`. -/
theorem inline_dots_agree_with_getDotCount (level : Str) :
    inferDots (some level) = getDotCount level ∧
    (∀ (name : Option Str) (dots : Option Nat),
      LanguageItem.dotsOf (normalizeLanguage (.obj ⟨name, some level, dots⟩))
        = some (getDotCount level)) ∧
    (∀ (data : ResumeData) (name : Option Str) (dots : Option Nat),
      data.languages = some [.obj ⟨name, some level, dots⟩] →
        (normalizeResumeData data).languages
          = some [.obj ⟨some (name.getD []), some level, some (getDotCount level)⟩]) := by
  have h : inferDots (some level) = getDotCount level := by
    cases level with
    | nil => decide
    | cons c t => simp [inferDots, getDotCount, truthy]
  refine ⟨h, fun name dots => ?_, fun data name dots hd => ?_⟩
  · simp [normalizeLanguage, LanguageItem.dotsOf, h]
  · show some ((data.languages.getD []).map normalizeLanguage) = _
    rw [hd]
    simp [normalizeLanguage, h, optOr, orElse_nil]

/-- C39, instance: a record with the one language {name "Hindi", level "Fluent"}. -/
theorem inline_dots_agree_with_getDotCount_witness :
    (normalizeResumeData { ResumeData.empty with
        languages := some [.obj ⟨some (str "Hindi"), some (str "Fluent"), none⟩] }).languages
      = some [.obj ⟨some ((some (str "Hindi")).getD []), some (str "Fluent"),
          some (getDotCount (str "Fluent"))⟩] :=
  (inline_dots_agree_with_getDotCount (str "Fluent")).2.2
    { ResumeData.empty with
      languages := some [.obj ⟨some (str "Hindi"), some (str "Fluent"), none⟩] }
    (some (str "Hindi")) none rfl

/-! ### The accomplishment of an experience entry -/

theorem expItems_truthy (buffer : List Str) (e : Str) (h : e ∈ expItems buffer) : e ≠ [] := by
  unfold expItems at h
  have := (List.mem_filter.mp h).2
  intro hn
  rw [hn] at this
  exact Bool.noConfusion this

/-- C37: every entry returned by the experience parser has a non-empty accomplishment; it
is the newline-join of the bullet lines, or of the fallback lines when there is no bullet
line, and the entire trimmed text of the entry when that join is empty. -/
theorem accomplishment_non_empty (buffer : List Str) :
    (∀ entry ∈ parseExperience buffer, entry.accomplishment ≠ []) ∧
    (∀ e ∈ expItems buffer, ∀ bullets : List Str,
      bullets = (((splitChar 10 e).drop 1).filter (fun l => reTest bulletStartExpRe false l)).map
        (fun l => reRemoveFirst bulletStripExpRe false l) →
      (bullets.length ≠ 0 → join (str "\n") bullets = [] →
        (parseExperienceItem e).accomplishment = e) ∧
      (bullets.length = 0 →
        join (str "\n") ((((splitChar 10 e).drop 1).filter (fun l =>
          l != (parseExperienceItem e).companyName && l != (parseExperienceItem e).date &&
          l != (parseExperienceItem e).companyLocation && !reTest roleStartRe true l)).filter
            truthy) = [] →
        (parseExperienceItem e).accomplishment = e)) := by
  constructor
  · intro entry hentry
    unfold parseExperience at hentry
    obtain ⟨e, he, rfl⟩ := List.mem_map.mp hentry
    have hne := expItems_truthy buffer e he
    show orElse _ e ≠ []
    intro h
    exact hne (orElse_eq_nil _ _ h).2
  · intro e _ bullets hb
    subst hb
    constructor
    · intro hlen hj
      unfold parseExperienceItem
      simp only [if_neg hlen, hj]
      rfl
    · intro hlen hj
      have hj' := hj
      unfold parseExperienceItem at hj' ⊢
      simp only [if_pos hlen] at hj' ⊢
      rw [hj']
      rfl

/-- C37, instance: the one-line buffer "Engineer" gives an entry whose accomplishment is
not empty. -/
theorem accomplishment_non_empty_witness :
    (parseExperienceItem (str "Engineer")).accomplishment ≠ [] :=
  (accomplishment_non_empty [str "Engineer"]).1 (parseExperienceItem (str "Engineer"))
    (by decide!)

/-! ### The flat branch of the skills parser -/

theorem trim_cons_space (w : Nat) (s : Str) (hw : isSpace w = true) : trim (w :: s) = trim s := by
  unfold trim
  rw [List.dropWhile_cons_of_pos hw]

theorem yearOnlyRe_digits (ds : Str) (hlen : ds.length = 4) (hd : ∀ c ∈ ds, isDigit c = true) :
    reTest yearOnlyRe false ds = true := by
  obtain ⟨q, e⟩ := run_times_d false ds [] none [] hd
  rw [hlen, List.append_nil] at e
  have hrun : (Re.run false yearOnlyRe ⟨none, ds, []⟩).head? = some ⟨q, [], []⟩ := by
    show ((Re.run false .bol ⟨none, ds, []⟩).flatMap (fun s0 =>
      (Re.run false (.times 4 .d) s0).flatMap (fun s1 => Re.run false .eol s1))).head? = _
    have hbol : Re.run false .bol ⟨none, ds, []⟩ = [⟨none, ds, []⟩] := rfl
    rw [hbol, List.flatMap_singleton, e]
    rfl
  obtain ⟨m, hm, _⟩ := reMatch_of_head yearOnlyRe false ds _ hrun
  unfold reTest
  rw [hm]
  rfl

theorem certification_two_parts (line N P2 : Str) (hN : N ≠ []) (hP2 : P2 ≠ [])
    (hparts : (splitChar 44 (cleanBullet line)).map trim = [N, P2]) :
    certificationsOfLine line =
      [⟨some N, if reTest yearOnlyRe false P2 then [] else P2,
        if reTest yearOnlyRe false P2 then P2 else []⟩] := by
  have hlen : (splitChar 44 (cleanBullet line)).length = 2 := by
    have := congrArg List.length hparts
    simpa using this
  have hinc : includes (cleanBullet line) (str ",") = true := by
    cases hi : includes (cleanBullet line) (str ",") with
    | true => rfl
    | false =>
      have hnot : 44 ∉ cleanBullet line := fun hm => by
        rw [(by decide : str "," = [44]), (includes_comma _).mpr hm] at hi
        exact Bool.noConfusion hi
      rw [splitChar_of_not_mem 44 _ hnot] at hlen
      simp at hlen
  have htruthy : truthy (cleanBullet line) = true := by
    cases hc : cleanBullet line with
    | nil => rw [hc] at hinc; exact Bool.noConfusion hinc
    | cons _ _ => rfl
  have hfilter : ([N, P2] : List Str).filter truthy = [N, P2] := by
    cases N with
    | nil => exact absurd rfl hN
    | cons _ _ =>
      cases P2 with
      | nil => exact absurd rfl hP2
      | cons _ _ => rfl
  have hP2t : truthy P2 = true := by
    cases P2 with
    | nil => exact absurd rfl hP2
    | cons _ _ => rfl
  unfold certificationsOfLine
  simp only [htruthy, hinc, hlen, hparts, hfilter, Bool.not_true, Bool.false_eq_true, if_false,
    Bool.true_and, List.length_cons, List.length_nil]
  by_cases hy : reTest yearOnlyRe false P2 = true
  · simp [hy, nth, hP2t]
  · have hy' : reTest yearOnlyRe false P2 = false := by simpa using hy
    simp [hy', nth]

theorem certification_three_parts (line N P2 P3 : Str) (hN : N ≠ []) (hP2 : P2 ≠ [])
    (hP3 : P3 ≠ []) (hparts : (splitChar 44 (cleanBullet line)).map trim = [N, P2, P3]) :
    certificationsOfLine line =
      [if reTest yearOnlyRe false P2 then ⟨some N, P3, P2⟩
        else ⟨some N, P2, if reTest yearOnlyRe false P3 then P3 else []⟩] := by
  have hlen : (splitChar 44 (cleanBullet line)).length = 3 := by
    have := congrArg List.length hparts
    simpa using this
  have hinc : includes (cleanBullet line) (str ",") = true := by
    cases hi : includes (cleanBullet line) (str ",") with
    | true => rfl
    | false =>
      have hnot : 44 ∉ cleanBullet line := fun hm => by
        rw [(by decide : str "," = [44]), (includes_comma _).mpr hm] at hi
        exact Bool.noConfusion hi
      rw [splitChar_of_not_mem 44 _ hnot] at hlen
      simp at hlen
  have htruthy : truthy (cleanBullet line) = true := by
    cases hc : cleanBullet line with
    | nil => rw [hc] at hinc; exact Bool.noConfusion hinc
    | cons _ _ => rfl
  have hfilter : ([N, P2, P3] : List Str).filter truthy = [N, P2, P3] := by
    cases N with
    | nil => exact absurd rfl hN
    | cons _ _ =>
      cases P2 with
      | nil => exact absurd rfl hP2
      | cons _ _ =>
        cases P3 with
        | nil => exact absurd rfl hP3
        | cons _ _ => rfl
  have hP2t : truthy P2 = true := by
    cases P2 with
    | nil => exact absurd rfl hP2
    | cons _ _ => rfl
  unfold certificationsOfLine
  simp only [htruthy, hinc, hlen, hparts, hfilter, Bool.not_true, Bool.false_eq_true, if_false,
    Bool.true_and, List.length_cons, List.length_nil]
  by_cases hy : reTest yearOnlyRe false P2 = true
  · simp [hy, nth, hP2t]
  · have hy' : reTest yearOnlyRe false P2 = false := by simpa using hy
    simp [hy', nth]

theorem parts_of_comma_line (N : Str) (rest : List Str)
    (hN : trim N = N ∧ N ≠ [] ∧ 44 ∉ N ∧ ∀ c, N.head? = some c → c ≠ 45 ∧ c ≠ 0x2022 ∧ c ≠ 42)
    (hrest : ∀ p ∈ rest, trim p = p ∧ p ≠ [] ∧ 44 ∉ p) :
    (splitChar 44 (cleanBullet (join (str ", ") (N :: rest)))).map trim = N :: rest := by
  have hjoin : ∀ (first : Str) (others : List Str),
      join (str ", ") (first :: others) = first ++ others.flatMap (fun p => 44 :: 32 :: p) := by
    intro first others
    induction others generalizing first with
    | nil => simp [join]
    | cons y r ih =>
      rw [join, ih y, List.flatMap_cons]
      simp [str]
  have hsplit : ∀ (others : List Str), (∀ p ∈ others, trim p = p ∧ p ≠ [] ∧ 44 ∉ p) →
      ∀ first : Str, 44 ∉ first →
      (splitChar 44 (first ++ others.flatMap (fun p => 44 :: 32 :: p))).map trim
        = trim first :: others := by
    intro others
    induction others with
    | nil =>
      intro _ first hf
      simp [splitChar_of_not_mem 44 first hf]
    | cons y r ih =>
      intro ho first hf
      obtain ⟨hy1, _, hy3⟩ := ho y (by simp)
      rw [List.flatMap_cons, List.cons_append, splitChar_append_sep 44 first _ hf, List.map_cons,
        ih (fun p hp => ho p (List.mem_cons_of_mem _ hp)) (32 :: y) (by
          simp only [List.mem_cons, not_or]
          exact ⟨by decide, hy3⟩),
        trim_cons_space 32 y (by decide), hy1]
  have hclean : cleanBullet (join (str ", ") (N :: rest)) = join (str ", ") (N :: rest) := by
    obtain ⟨d, t, hd⟩ : ∃ d t, N = d :: t := by
      cases hn : N with
      | nil => exact absurd hn hN.2.1
      | cons d t => exact ⟨d, t, rfl⟩
    apply cleanBullet_plain
    · apply trim_eq_self
      · intro c hc
        rw [hjoin, hd] at hc
        simp only [List.cons_append, List.head?_cons, Option.some.injEq] at hc
        subst hc
        exact trim_head?_not_space N hN.1 d (by rw [hd]; rfl)
      · intro c hc
        rw [hjoin] at hc
        cases hl : rest.getLast? with
        | none =>
          rw [List.getLast?_eq_none_iff.mp hl, List.flatMap_nil, List.append_nil] at hc
          exact trim_last_not_space N hN.1 c hc
        | some p =>
          obtain ⟨ys, e⟩ := List.getLast?_eq_some_iff.mp hl
          obtain ⟨hp1, hp2, _⟩ := hrest p (by rw [e]; simp)
          obtain ⟨zs, z, ez⟩ : ∃ zs z, p = zs ++ [z] := by
            cases hpl : p.getLast? with
            | none => exact absurd (List.getLast?_eq_none_iff.mp hpl) hp2
            | some z =>
              obtain ⟨zs, e2⟩ := List.getLast?_eq_some_iff.mp hpl
              exact ⟨zs, z, e2⟩
          rw [e, List.flatMap_append, List.flatMap_singleton, ez] at hc
          have hform : N ++ (ys.flatMap (fun p => 44 :: 32 :: p) ++ 44 :: 32 :: (zs ++ [z]))
              = (N ++ (ys.flatMap (fun p => 44 :: 32 :: p) ++ 44 :: 32 :: zs)) ++ [z] := by simp
          rw [hform, List.getLast?_concat] at hc
          simp only [Option.some.injEq] at hc
          subst hc
          exact trim_last_not_space p hp1 z (by rw [ez]; exact List.getLast?_concat _)
    · intro c hc
      rw [hjoin, hd] at hc
      simp only [List.cons_append, List.head?_cons, Option.some.injEq] at hc
      subst hc
      exact hN.2.2.2 d (by rw [hd]; rfl)
  rw [hclean, hjoin, hsplit rest hrest N hN.2.2.1, hN.1]


theorem digits_part (Y : Str) (hY : Y.length = 4 ∧ ∀ c ∈ Y, isDigit c = true) :
    trim Y = Y ∧ Y ≠ [] ∧ 44 ∉ Y := by
  refine ⟨?_, ?_, ?_⟩
  · apply trim_eq_self
    · intro c hc
      exact digit_not_space c (hY.2 c (List.mem_of_mem_head? hc))
    · intro c hc
      exact digit_not_space c (hY.2 c (List.mem_of_getLast?_eq_some hc))
  · intro h
    rw [h] at hY
    simp at hY
  · intro h
    have := hY.2 44 h
    exact Bool.noConfusion this

theorem parseCertifications_single (line : Str) :
    parseCertifications [line] = certificationsOfLine line := by
  simp [parseCertifications]

/-- C31: a certification line whose parts between commas (of the line without its bullet,
each part trimmed) are two or three non-empty strings gives one entry named by the first
part; with a second part that is a bare 4-digit token the date is that part and the issuer
is the third part, or empty when there is none; otherwise the issuer is the second part
and the date is the third part when that is a bare 4-digit token, and empty if not.  In
particular "N, I, Y", "N, Y", "N, Y, I" and "N, I" give the entries of the claim. -/
theorem certification_entry_of_parts :
    (∀ line N P2 : Str, N ≠ [] → P2 ≠ [] →
      (splitChar 44 (cleanBullet line)).map trim = [N, P2] →
        parseCertifications [line] =
          [⟨some N, if reTest yearOnlyRe false P2 then [] else P2,
            if reTest yearOnlyRe false P2 then P2 else []⟩]) ∧
    (∀ line N P2 P3 : Str, N ≠ [] → P2 ≠ [] → P3 ≠ [] →
      (splitChar 44 (cleanBullet line)).map trim = [N, P2, P3] →
        parseCertifications [line] =
          [if reTest yearOnlyRe false P2 then ⟨some N, P3, P2⟩
            else ⟨some N, P2, if reTest yearOnlyRe false P3 then P3 else []⟩]) ∧
    (∀ N I Y : Str,
      (trim N = N ∧ N ≠ [] ∧ 44 ∉ N ∧ ∀ c, N.head? = some c → c ≠ 45 ∧ c ≠ 0x2022 ∧ c ≠ 42) →
      (trim I = I ∧ I ≠ [] ∧ 44 ∉ I) →
      (Y.length = 4 ∧ ∀ c ∈ Y, isDigit c = true) →
        (reTest yearOnlyRe false I = false →
          parseCertifications [N ++ str ", " ++ I ++ str ", " ++ Y] = [⟨some N, I, Y⟩]) ∧
        parseCertifications [N ++ str ", " ++ Y] = [⟨some N, [], Y⟩] ∧
        parseCertifications [N ++ str ", " ++ Y ++ str ", " ++ I] = [⟨some N, I, Y⟩] ∧
        (reTest yearOnlyRe false I = false →
          parseCertifications [N ++ str ", " ++ I] = [⟨some N, I, []⟩])) := by
  refine ⟨?_, ?_, ?_⟩
  · intro line N P2 hN hP2 hparts
    rw [parseCertifications_single]
    exact certification_two_parts line N P2 hN hP2 hparts
  · intro line N P2 P3 hN hP2 hP3 hparts
    rw [parseCertifications_single]
    exact certification_three_parts line N P2 P3 hN hP2 hP3 hparts
  · intro N I Y hN hI hY
    have hYp := digits_part Y hY
    have hYy := yearOnlyRe_digits Y hY.1 hY.2
    have e3 : N ++ str ", " ++ I ++ str ", " ++ Y = join (str ", ") [N, I, Y] := by
      simp [join]
    have e2 : N ++ str ", " ++ Y = join (str ", ") [N, Y] := by simp [join]
    have e3' : N ++ str ", " ++ Y ++ str ", " ++ I = join (str ", ") [N, Y, I] := by
      simp [join]
    have e2' : N ++ str ", " ++ I = join (str ", ") [N, I] := by simp [join]
    refine ⟨fun hIy => ?_, ?_, ?_, fun hIy => ?_⟩
    · rw [parseCertifications_single, e3, certification_three_parts _ N I Y hN.2.1 hI.2.1 hYp.2.1
        (parts_of_comma_line N [I, Y] hN (by
          intro p hp
          simp only [List.mem_cons, List.mem_singleton, List.not_mem_nil, or_false] at hp
          rcases hp with rfl | rfl
          · exact hI
          · exact hYp))]
      simp [hIy, hYy]
    · rw [parseCertifications_single, e2, certification_two_parts _ N Y hN.2.1 hYp.2.1
        (parts_of_comma_line N [Y] hN (by
          intro p hp
          simp only [List.mem_singleton] at hp
          subst hp
          exact hYp))]
      simp [hYy]
    · rw [parseCertifications_single, e3', certification_three_parts _ N Y I hN.2.1 hYp.2.1 hI.2.1
        (parts_of_comma_line N [Y, I] hN (by
          intro p hp
          simp only [List.mem_cons, List.mem_singleton, List.not_mem_nil, or_false] at hp
          rcases hp with rfl | rfl
          · exact hYp
          · exact hI))]
      simp [hYy]
    · rw [parseCertifications_single, e2', certification_two_parts _ N I hN.2.1 hI.2.1
        (parts_of_comma_line N [I] hN (by
          intro p hp
          simp only [List.mem_singleton] at hp
          subst hp
          exact hI))]
      simp [hIy]

/-- C31, instance: the line "AWS SA, Amazon, 2020", and the bulleted line "- PMP, 2019"
through its parts. -/
theorem certification_entry_of_parts_witness :
    parseCertifications [str "AWS SA" ++ str ", " ++ str "Amazon" ++ str ", " ++ str "2020"]
        = [⟨some (str "AWS SA"), str "Amazon", str "2020"⟩] ∧
      parseCertifications [str "- PMP, 2019"] =
        [⟨some (str "PMP"), if reTest yearOnlyRe false (str "2019") then [] else str "2019",
          if reTest yearOnlyRe false (str "2019") then str "2019" else []⟩] :=
  ⟨(certification_entry_of_parts.2.2 (str "AWS SA") (str "Amazon") (str "2020")
      (by decide) (by decide) (by decide)).1 (by decide!),
   certification_entry_of_parts.1 (str "- PMP, 2019") (str "PMP") (str "2019")
      (by decide) (by decide) (by decide!)⟩

/-! ### Flushing overwrites -/

theorem pushBufferToSection_value (c : SectionId) (buffer : List Str) (s : Sections)
    (x : SectionId) :
    (pushBufferToSection c buffer s).value x = if x = c then parseSection c buffer else s.value x := by
  cases c <;> cases x <;> rfl

theorem lastFlushed_append (x c : SectionId) (buffer : List Str)
    (log : List (SectionId × List Str)) :
    lastFlushed x (log ++ [(c, buffer)]) = if x = c then some buffer else lastFlushed x log := by
  unfold lastFlushed
  rw [List.filter_append]
  by_cases h : x = c
  · subst h
    simp [List.filter_cons]
  · have hne : (c == x) = false := by
      rw [beq_eq_false_iff_ne]
      exact fun e => h e.symm
    simp [List.filter_cons, hne, h]

theorem valueAfter_append (x c : SectionId) (buffer : List Str)
    (log : List (SectionId × List Str)) :
    valueAfter x (log ++ [(c, buffer)])
      = if x = c then parseSection c buffer else valueAfter x log := by
  unfold valueAfter
  rw [lastFlushed_append]
  by_cases h : x = c
  · subst h
    simp
  · simp [h]

theorem flush_value (st : SegState) (h : ∀ x, st.sections.value x = valueAfter x st.flushed) :
    ∀ x, st.flush.sections.value x = valueAfter x st.flush.flushed := by
  intro x
  simp only [SegState.flush, pushBufferToSection_value, valueAfter_append, h x]

theorem segStep_value (st : SegState) (line : Str)
    (h : ∀ x, st.sections.value x = valueAfter x st.flushed) :
    ∀ x, (segStep st line).sections.value x = valueAfter x (segStep st line).flushed := by
  intro x
  unfold segStep
  cases matchedSection line with
  | some sec =>
    simp only [SegState.heading]
    split
    · exact flush_value st h x
    · exact h x
  | none =>
    simp only [SegState.boundary]
    split
    · exact flush_value st h x
    · split
      · exact flush_value st h x
      · exact h x

theorem segment_value (init : Sections) (lines : List Str)
    (h : ∀ x, init.value x = defaultValue x) :
    ∀ x, (segment init lines).sections.value x = valueAfter x (segment init lines).flushed := by
  have hf : ∀ (ls : List Str) (st : SegState),
      (∀ x, st.sections.value x = valueAfter x st.flushed) →
      ∀ x, (ls.foldl segStep st).sections.value x = valueAfter x (ls.foldl segStep st).flushed := by
    intro ls
    induction ls with
    | nil => intro st hst; exact hst
    | cons l rest ih =>
      intro st hst
      rw [List.foldl_cons]
      exact ih _ (segStep_value st l hst)
  have h0 := hf lines ⟨init, .summary, [], []⟩ (fun x => by
    simp only [valueAfter, lastFlushed, List.filter_nil, List.getLast?_nil, Option.map_none']
    exact h x)
  intro x
  unfold segment
  simp only []
  split
  · exact flush_value _ h0 x
  · exact h0 x

/-- C35: in the record returned by `fallbackParseResumeText`, the value of every section is
the field parser's output on the buffer of the last flush to that section, and the initial
value ('' or []) when nothing was flushed to it; an earlier flush to the same section
leaves no trace.  The flushes are those of the segmentation of the lines of the text. -/
theorem flush_overwrites (name role text : Str) (id : SectionId) :
    (fallbackParseResumeText name role text).value id =
      (match lastFlushed id (segment emptySections (textLines text)).flushed with
        | some buffer => parseSection id buffer
        | none => defaultValue id) ∧
    (∀ (log : List (SectionId × List Str)) (buffer : List Str) (c : SectionId),
      valueAfter id (log ++ [(c, buffer)])
        = if id = c then parseSection c buffer else valueAfter id log) := by
  refine ⟨?_, fun log buffer c => valueAfter_append id c buffer log⟩
  unfold fallbackParseResumeText
  simp only []
  rw [segment_value _ _ (fun x => by cases x <;> rfl) id,
    segment_flushed_init _ emptySections]
  rfl

/-! ### Normalising a locally parsed record -/

theorem inferDots_some (level : Str) : inferDots (some level) = getDotCount level := by
  cases level with
  | nil => decide
  | cons c t => simp [inferDots, getDotCount, truthy]

theorem normalizeExperience_toItem (e : ExperienceEntry) :
    normalizeExperience e.toItem = e.toItem := by
  simp [normalizeExperience, ExperienceEntry.toItem, optOr, orElse_nil]

theorem normalizeEducation_toItem (e : EducationEntry) :
    normalizeEducation e.toItem = e.toItem := by
  simp [normalizeEducation, EducationEntry.toItem, optOr, orElse_nil]

theorem normalizeLanguage_toItem (e : LanguageEntry) (h : e.dots = getDotCount e.level) :
    normalizeLanguage e.toItem = e.toItem := by
  simp [normalizeLanguage, LanguageEntry.toItem, optOr, orElse_nil, inferDots_some, h]

theorem parseLanguage_dots (text : Str) :
    (parseLanguage text).dots = getDotCount (parseLanguage text).level := by
  unfold parseLanguage
  split
  · rfl
  · split
    · rfl
    · rfl

theorem parseLanguages_dots (buffer : List Str) :
    ∀ e ∈ parseLanguages buffer, e.dots = getDotCount e.level := by
  intro e he
  unfold parseLanguages at he
  obtain ⟨l, _, hl⟩ := List.mem_flatMap.mp he
  unfold languagesOfLine at hl
  simp only [] at hl
  split at hl
  · exact absurd hl (List.not_mem_nil _)
  · split at hl
    · obtain ⟨t, _, rfl⟩ := List.mem_map.mp hl
      exact parseLanguage_dots t
    · rw [List.mem_singleton] at hl
      rw [hl]
      exact parseLanguage_dots _

theorem saved_categories (acc : SkillAcc) (h : ∀ g ∈ acc.categories, g.category ≠ []) :
    ∀ g ∈ acc.saved, g.category ≠ [] := by
  intro g hg
  unfold SkillAcc.saved at hg
  split at hg
  · rename_i hc
    rcases List.mem_append.mp hg with h1 | h1
    · exact h g h1
    · rw [List.mem_singleton] at h1
      rw [h1]
      intro hn
      simp only [] at hn
      rw [hn] at hc
      simp [truthy] at hc
  · exact h g hg

theorem skillStep_categories (cats : List Str) (acc : SkillAcc) (line : Str)
    (h : ∀ g ∈ acc.categories, g.category ≠ []) :
    ∀ g ∈ (skillStep cats acc line).categories, g.category ≠ [] := by
  unfold skillStep
  simp only []
  split
  · exact saved_categories acc h
  · exact h

theorem parseSkills_categories (buffer : List Str) :
    ∀ g ∈ parseSkills buffer, g.category ≠ [] := by
  unfold parseSkills
  simp only []
  split
  · have hf : ∀ (ls : List Str) (acc : SkillAcc), (∀ g ∈ acc.categories, g.category ≠ []) →
        ∀ g ∈ (ls.foldl (skillStep (possibleCategories buffer)) acc).categories,
          g.category ≠ [] := by
      intro ls
      induction ls with
      | nil => intro acc h; exact h
      | cons l rest ih =>
        intro acc h
        rw [List.foldl_cons]
        exact ih _ (skillStep_categories _ acc l h)
    exact saved_categories _ (hf buffer ⟨[], [], []⟩ (fun g hg => absurd hg (List.not_mem_nil _)))
  · intro g hg
    rw [List.mem_singleton] at hg
    rw [hg]
    exact List.cons_ne_nil _ _

theorem normalizeSkills_toObj (gs : List SkillGroup) (h : ∀ g ∈ gs, g.category ≠ []) :
    normalizeSkills (some (.groups (gs.map SkillGroup.toObj))) = gs.map SkillGroup.toObj := by
  cases gs with
  | nil => rfl
  | cons g rest =>
    simp only [normalizeSkills, List.map_cons, SkillGroup.toObj, Option.isSome_some, if_true]
    have hp : ∀ x ∈ g :: rest,
        (⟨some (optOr (SkillGroup.toObj x).category (str "Skills")),
          some ((SkillGroup.toObj x).items.getD [])⟩ : SkillObj) = SkillGroup.toObj x := by
      intro x hx
      have hx' := h x hx
      cases hc : x.category with
      | nil => exact absurd hc hx'
      | cons c t => simp [SkillGroup.toObj, optOr, orElse, hc]
    have := List.map_congr_left hp
    simpa [SkillGroup.toObj, List.map_map] using this

/-- C40: normalisation is the identity on the locally parsed sections: for every text (and
every pre-extracted name and role), `normalizeResumeData` applied to the record returned by
`fallbackParseResumeText` returns the same skills, experience, education and languages
sequences. -/
theorem normalization_identity_on_parsed_sections (name role text : Str) :
    (normalizeResumeData (fallbackParseResumeText name role text).toData).skills
      = (fallbackParseResumeText name role text).toData.skills ∧
    (normalizeResumeData (fallbackParseResumeText name role text).toData).experience
      = (fallbackParseResumeText name role text).toData.experience ∧
    (normalizeResumeData (fallbackParseResumeText name role text).toData).education
      = (fallbackParseResumeText name role text).toData.education ∧
    (normalizeResumeData (fallbackParseResumeText name role text).toData).languages
      = (fallbackParseResumeText name role text).toData.languages := by
  have hv : ∀ x, (fallbackParseResumeText name role text).value x
      = valueAfter x (segment emptySections (textLines text)).flushed := by
    intro x
    unfold fallbackParseResumeText
    simp only []
    rw [segment_value _ _ (fun x => by cases x <;> rfl) x, segment_flushed_init _ emptySections]
  have hs : ∀ g ∈ (fallbackParseResumeText name role text).skills, g.category ≠ [] := by
    have h := hv .skills
    unfold valueAfter at h
    simp only [Sections.value] at h
    split at h
    · simp only [parseSection, SectionValue.skills.injEq] at h
      rw [h]
      exact parseSkills_categories _
    · simp only [defaultValue, SectionValue.skills.injEq] at h
      rw [h]
      exact fun g hg => absurd hg (List.not_mem_nil _)
  have hl : ∀ e ∈ (fallbackParseResumeText name role text).languages,
      e.dots = getDotCount e.level := by
    have h := hv .languages
    unfold valueAfter at h
    simp only [Sections.value] at h
    split at h
    · simp only [parseSection, SectionValue.languages.injEq] at h
      rw [h]
      exact parseLanguages_dots _
    · simp only [defaultValue, SectionValue.languages.injEq] at h
      rw [h]
      exact fun g hg => absurd hg (List.not_mem_nil _)
  refine ⟨?_, ?_, ?_, ?_⟩
  · show some (SkillsValue.groups (normalizeSkills (some (.groups
        ((fallbackParseResumeText name role text).skills.map SkillGroup.toObj))))) = _
    rw [normalizeSkills_toObj _ hs]
    rfl
  · show some ((((fallbackParseResumeText name role text).experience.map
        ExperienceEntry.toItem)).map normalizeExperience) = _
    rw [List.map_map, List.map_congr_left (fun e _ => show (normalizeExperience ∘ ExperienceEntry.toItem) e = ExperienceEntry.toItem e from normalizeExperience_toItem e)]
    rfl
  · show some ((((fallbackParseResumeText name role text).education.map
        EducationEntry.toItem)).map normalizeEducation) = _
    rw [List.map_map, List.map_congr_left (fun e _ => show (normalizeEducation ∘ EducationEntry.toItem) e = EducationEntry.toItem e from normalizeEducation_toItem e)]
    rfl
  · show some ((((fallbackParseResumeText name role text).languages.map
        LanguageEntry.toItem)).map normalizeLanguage) = _
    rw [List.map_map, List.map_congr_left (fun e he => show (normalizeLanguage ∘ LanguageEntry.toItem) e = LanguageEntry.toItem e from
      normalizeLanguage_toItem e (hl e he))]
    rfl

/-! ### Lines that start with a heading synonym -/

theorem saved_items (acc : SkillAcc) :
    acc.saved.flatMap (fun g => g.items) =
      acc.categories.flatMap (fun g => g.items) ++
        (if truthy acc.currentCategory then acc.currentItems else []) := by
  unfold SkillAcc.saved
  cases hc : truthy acc.currentCategory
  · simp
  · cases hi : acc.currentItems with
    | nil => simp
    | cons i is => simp [List.flatMap_append]

theorem foldl_skillStep_items (cats : List Str) (ls : List Str) (acc : SkillAcc) :
    (ls.foldl (skillStep cats) acc).saved.flatMap (fun g => g.items) =
      acc.categories.flatMap (fun g => g.items) ++
        (if truthy acc.currentCategory then acc.currentItems else []) ++
        (keptSkillLines cats acc.currentCategory ls).flatMap (fun l => lineItems (trim l)) := by
  induction ls generalizing acc with
  | nil => simp [keptSkillLines, saved_items]
  | cons l rest ih =>
    rw [List.foldl_cons, ih]
    cases hh : isCategoryLine cats l
    · have hs : skillStep cats acc l
          = { acc with currentItems := acc.currentItems ++ lineItems (trim l) } := by
        unfold isCategoryLine at hh
        unfold skillStep
        simp only [hh, Bool.false_eq_true, if_false]
      rw [hs]
      simp only [keptSkillLines, hh, Bool.false_eq_true, if_false]
      cases hc : truthy acc.currentCategory
      · simp
      · simp [List.flatMap_append, List.flatMap_cons]
    · have hs : skillStep cats acc l
          = { categories := acc.saved, currentCategory := categoryNameOf l,
              currentItems := [] } := by
        unfold isCategoryLine at hh
        unfold skillStep
        simp only [hh, if_true]
        rfl
      rw [hs]
      simp only [keptSkillLines, hh, if_true, saved_items]
      simp

/-- C33 (as stated, refuted): the buffer "Python", "Tools:", "Git" has a category header;
its non-header lines are "Python" and "Git", whose item-splits are "Python", "Git", yet the
returned groups hold only the item "Git". -/
theorem skills_before_first_category_dropped :
    (possibleCategories [str "Python", str "Tools:", str "Git"]).length > 0 ∧
    ([str "Python", str "Tools:", str "Git"].filter (fun l =>
        !isCategoryLine (possibleCategories [str "Python", str "Tools:", str "Git"]) l)).flatMap
      lineItems = [str "Python", str "Git"] ∧
    parseSkills [str "Python", str "Tools:", str "Git"] = [⟨str "Tools", [str "Git"]⟩] ∧
    (parseSkills [str "Python", str "Tools:", str "Git"]).flatMap (fun g => g.items)
      = [str "Git"] := by
  decide!

/-- C33 (amended): in categorised mode the concatenation of the items of all returned
groups, in order, equals the concatenation of the item-splits of the trimmed non-header
lines that stand under a header with a non-empty category name, in order; the lines before
the first header and those under a header with an empty name are dropped. -/
theorem skills_categorised_items (buffer : List Str)
    (h : (possibleCategories buffer).length > 0) :
    (parseSkills buffer).flatMap (fun g => g.items) =
      (keptSkillLines (possibleCategories buffer) [] buffer).flatMap
        (fun l => lineItems (trim l)) := by
  unfold parseSkills
  simp only [h, if_true]
  rw [foldl_skillStep_items]
  simp [truthy]

/-- C33 (amended) at a buffer with two categories. -/
theorem skills_categorised_items_witness :
    (parseSkills [str "Languages:", str "Python, Go", str "TOOLS", str "- Git | Docker"]).flatMap
        (fun g => g.items) =
      (keptSkillLines
        (possibleCategories [str "Languages:", str "Python, Go", str "TOOLS", str "- Git | Docker"])
        [] [str "Languages:", str "Python, Go", str "TOOLS", str "- Git | Docker"]).flatMap
        (fun l => lineItems (trim l)) ∧
    keptSkillLines
        (possibleCategories [str "Languages:", str "Python, Go", str "TOOLS", str "- Git | Docker"])
        [] [str "Languages:", str "Python, Go", str "TOOLS", str "- Git | Docker"]
      = [str "Python, Go", str "- Git | Docker"] :=
  ⟨skills_categorised_items
    [str "Languages:", str "Python, Go", str "TOOLS", str "- Git | Docker"] (by decide!),
    by decide!⟩

/-! ### The ends of a trimmed string -/

theorem trim_last_ns (s : Str) (c : Nat) (h : (trim s).getLast? = some c) :
    isSpace c = false := by
  unfold trim at h
  rw [List.getLast?_reverse] at h
  have := List.head?_dropWhile_not isSpace (s.dropWhile isSpace).reverse
  rw [h] at this
  simpa using this

theorem trim_head_ns (s : Str) (c : Nat) (h : (trim s).head? = some c) :
    isSpace c = false := by
  unfold trim at h
  rw [List.head?_reverse] at h
  obtain ⟨t, ht⟩ := List.dropWhile_suffix isSpace (l := (s.dropWhile isSpace).reverse)
  have h2 : (s.dropWhile isSpace).reverse.getLast? = some c := by
    rw [← ht, List.getLast?_append, h]
    rfl
  rw [List.getLast?_reverse] at h2
  have := List.head?_dropWhile_not isSpace s
  rw [h2] at this
  simpa using this

theorem trim_idem (s : Str) : trim (trim s) = trim s :=
  trim_eq_self (trim s) (trim_head_ns s) (trim_last_ns s)

theorem mem_textLines (text l : Str) (h : l ∈ textLines text) : trim l = l ∧ l ≠ [] := by
  unfold textLines at h
  obtain ⟨h1, h2⟩ := List.mem_filter.mp h
  obtain ⟨x, _, rfl⟩ := List.mem_map.mp h1
  refine ⟨trim_idem x, ?_⟩
  intro hn
  rw [hn] at h2
  exact Bool.noConfusion h2

theorem segment_flushed_lines (init : Sections) (lines : List Str) (c : SectionId)
    (buffer : List Str) (h : (c, buffer) ∈ (segment init lines).flushed) :
    ∀ l ∈ buffer, l ∈ lines := by
  intro l hl
  have hmem : l ∈ (segment init lines).flushedLines := by
    unfold SegState.flushedLines
    exact List.mem_flatMap.mpr ⟨(c, buffer), h, hl⟩
  have hf : (segment init lines).flushedLines ++ (segment init lines).buffer
      = lines.filter (fun l => (matchedSection l).isNone) ++ (segment init lines).buffer := by
    have h0 := foldl_segStep_lines lines ⟨init, .summary, [], []⟩
    simp only [SegState.flushedLines, List.flatMap_nil, List.nil_append] at h0
    unfold segment
    simp only []
    by_cases hb : (lines.foldl segStep ⟨init, .summary, [], []⟩).buffer.length > 0
    · simp only [hb, if_true]
      rw [flushedLines_flush]
      simp only [SegState.flushedLines]
      rw [h0]
    · have hnil : (lines.foldl segStep ⟨init, .summary, [], []⟩).buffer = [] :=
        List.length_eq_zero.mp (by omega)
      simp only [hb, if_false]
      rw [hnil, List.append_nil] at h0
      simp only [SegState.flushedLines]
      rw [h0]
  have h2 := List.append_cancel_right hf
  rw [h2] at hmem
  exact (List.mem_filter.mp hmem).1

/-! ### The projects parser -/

theorem projectStep_header (acc : ProjectAcc) (l : Str) (ht : trim l = l) (hne : l ≠ [])
    (hh : isProjectHeader l = true) :
    projectStep acc l =
      { projectItems := match acc.currentProject with
          | some p => acc.projectItems ++ [p]
          | none => acc.projectItems
        currentProject := some ⟨l, []⟩ } := by
  have htr : truthy l = true := by
    cases l with
    | nil => exact absurd rfl hne
    | cons c t => rfl
  unfold isProjectHeader at hh
  unfold projectStep
  simp only [ht, htr, Bool.not_true, Bool.false_eq_true, if_false, hh, if_true]

theorem projectStep_other (acc : ProjectAcc) (l : Str) (ht : trim l = l) (hne : l ≠ [])
    (hh : isProjectHeader l = false) :
    projectStep acc l =
      match acc.currentProject with
      | some p =>
        if truthy (cleanBullet l) then
          { acc with currentProject := some { p with description := p.description ++ [cleanBullet l] } }
        else acc
      | none => acc := by
  have htr : truthy l = true := by
    cases l with
    | nil => exact absurd rfl hne
    | cons c t => rfl
  unfold isProjectHeader at hh
  unfold projectStep
  simp only [ht, htr, Bool.not_true, Bool.false_eq_true, if_false, hh]

theorem foldl_projectStep_some (ls : List Str) (h : ∀ l ∈ ls, trim l = l ∧ l ≠ [])
    (items : List ProjectDraft) (p : ProjectDraft) :
    ∃ items' p', ls.foldl projectStep ⟨items, some p⟩ = ⟨items', some p'⟩ ∧
      (items' ++ [p']).map (fun d => (⟨d.name, join (str "\n") d.description⟩ : ProjectEntry)) =
        items.map (fun d => (⟨d.name, join (str "\n") d.description⟩ : ProjectEntry)) ++
          ⟨p.name, join (str "\n") (p.description ++
            ((ls.takeWhile (fun l => !isProjectHeader l)).map cleanBullet).filter truthy)⟩ ::
          projectsByHeader ls := by
  induction ls generalizing items p with
  | nil => exact ⟨items, p, rfl, by simp [projectsByHeader]⟩
  | cons l rest ih =>
    obtain ⟨ht, hne⟩ := h l (List.mem_cons_self _ _)
    have hrest : ∀ x ∈ rest, trim x = x ∧ x ≠ [] := fun x hx => h x (List.mem_cons_of_mem _ hx)
    rw [List.foldl_cons]
    cases hh : isProjectHeader l
    · rw [projectStep_other _ l ht hne hh]
      simp only []
      cases hd : truthy (cleanBullet l)
      · simp only [Bool.false_eq_true, if_false]
        obtain ⟨items', p', e1, e2⟩ := ih hrest items p
        refine ⟨items', p', e1, ?_⟩
        rw [e2]
        simp [projectsByHeader, hh, List.takeWhile_cons, List.filter_cons, hd]
      · simp only [if_true]
        obtain ⟨items', p', e1, e2⟩ := ih hrest items ⟨p.name, p.description ++ [cleanBullet l]⟩
        refine ⟨items', p', e1, ?_⟩
        rw [e2]
        simp [projectsByHeader, hh, List.takeWhile_cons, List.filter_cons, hd]
    · rw [projectStep_header _ l ht hne hh]
      simp only []
      obtain ⟨items', p', e1, e2⟩ := ih hrest (items ++ [p]) ⟨l, []⟩
      refine ⟨items', p', e1, ?_⟩
      rw [e2]
      simp [projectsByHeader, hh, List.takeWhile_cons, projectDescription]

theorem foldl_projectStep_none (ls : List Str) (h : ∀ l ∈ ls, trim l = l ∧ l ≠ []) :
    (ls.any isProjectHeader = false ∧ ls.foldl projectStep ⟨[], none⟩ = ⟨[], none⟩) ∨
    (ls.any isProjectHeader = true ∧
      ∃ items' p', ls.foldl projectStep ⟨[], none⟩ = ⟨items', some p'⟩ ∧
        (items' ++ [p']).map (fun d => (⟨d.name, join (str "\n") d.description⟩ : ProjectEntry))
          = projectsByHeader ls) := by
  induction ls with
  | nil => exact Or.inl ⟨rfl, rfl⟩
  | cons l rest ih =>
    obtain ⟨ht, hne⟩ := h l (List.mem_cons_self _ _)
    have hrest : ∀ x ∈ rest, trim x = x ∧ x ≠ [] := fun x hx => h x (List.mem_cons_of_mem _ hx)
    rw [List.foldl_cons]
    cases hh : isProjectHeader l
    · rw [projectStep_other _ l ht hne hh]
      simp only []
      rcases ih hrest with ⟨h1, h2⟩ | ⟨h1, items', p', e1, e2⟩
      · exact Or.inl ⟨by simp [List.any_cons, hh, h1], h2⟩
      · refine Or.inr ⟨by simp [List.any_cons, hh, h1], items', p', e1, ?_⟩
        rw [e2]
        simp [projectsByHeader, hh]
    · rw [projectStep_header _ l ht hne hh]
      simp only []
      obtain ⟨items', p', e1, e2⟩ := foldl_projectStep_some rest hrest [] ⟨l, []⟩
      refine Or.inr ⟨by simp [List.any_cons, hh], items', p', e1, ?_⟩
      rw [e2]
      simp [projectsByHeader, hh, projectDescription]

/-- C32: for every projects buffer (lines trimmed and non-empty, as are the lines of
every buffer the segmenter flushes), calling a line a header when it is not bullet-prefixed
and is either shorter than 100 characters or starts with a capital letter: when a header
exists the parser returns one project per header line in order, with that line as name and
the newline-join of the bullet-stripped non-empty non-header lines up to the next header
as description; when no header exists it returns one project with description "" per line
with non-empty bullet-stripped text. -/
theorem projects_by_header (buffer : List Str) :
    ((∀ l ∈ buffer, trim l = l ∧ l ≠ []) → parseProjects buffer = projectsSpec buffer) ∧
    (∀ (init : Sections) (text : Str) (c : SectionId),
      (c, buffer) ∈ (segment init (textLines text)).flushed →
        parseProjects buffer = projectsSpec buffer) := by
  have main : (∀ l ∈ buffer, trim l = l ∧ l ≠ []) → parseProjects buffer = projectsSpec buffer := by
    intro h
    unfold parseProjects projectsSpec
    rcases foldl_projectStep_none buffer h with ⟨h1, h2⟩ | ⟨h1, items', p', e1, e2⟩
    · simp only [h2, h1, Bool.false_eq_true, if_false, List.length_nil, true_and]
      cases buffer with
      | nil => rfl
      | cons l rest =>
        simp only [List.length_cons, gt_iff_lt, Nat.zero_lt_succ, if_true]
        simp [join]
    · simp only [e1, h1, if_true]
      rw [if_neg (by simp)]
      exact e2
  exact ⟨main, fun init text c hm => main (fun l hl =>
    mem_textLines text l (segment_flushed_lines init (textLines text) c buffer hm l hl))⟩

/-- C32 at a buffer with a stray bullet line before the first of three headers, and at the
projects buffer of the text "PROJECTS", "Alpha", "- did a". -/
theorem projects_by_header_witness :
    parseProjects [str "- stray", str "Alpha", str "- did a", str "• did more", str "note",
        str "Beta", str "* did b"] =
      projectsSpec [str "- stray", str "Alpha", str "- did a", str "• did more", str "note",
        str "Beta", str "* did b"] ∧
    projectsSpec [str "- stray", str "Alpha", str "- did a", str "• did more", str "note",
        str "Beta", str "* did b"] =
      [⟨str "Alpha", str "did a\ndid more"⟩, ⟨str "note", []⟩, ⟨str "Beta", str "did b"⟩] ∧
    parseProjects [str "Alpha", str "- did a"] = projectsSpec [str "Alpha", str "- did a"] :=
  ⟨(projects_by_header [str "- stray", str "Alpha", str "- did a", str "• did more", str "note",
      str "Beta", str "* did b"]).1 (by decide!), by decide!,
    (projects_by_header [str "Alpha", str "- did a"]).2 emptySections
      (str "PROJECTS\nAlpha\n- did a") .projects (by decide!)⟩

/-! ### The pieces of the skills split -/

theorem run_char_false (c : Nat) (prev : Option Nat) (t : Str) (caps : List (Nat × Str)) :
    Re.run false (.char c) ⟨prev, c :: t, caps⟩ = [⟨some c, t, caps⟩] := by
  show stepChar (inRangeCI false c c) ⟨prev, c :: t, caps⟩ = _
  rw [stepChar_cons]
  simp [inRangeCI]

theorem starStates_ne_nil (p : Nat → Bool) (g : Bool) (caps : List (Nat × Str))
    (prev : Option Nat) (rest : Str) : starStates p g caps prev rest ≠ [] := by
  cases rest with
  | nil => simp [starStates]
  | cons d t =>
    unfold starStates
    split
    · split <;> simp
    · simp

theorem run_atLeast_two_s (prev : Option Nat) (c d : Nat) (t : Str) (caps : List (Nat × Str))
    (hc : isSpace c = true) (hd : isSpace d = true) :
    Re.run false (.atLeast 2 .s) ⟨prev, c :: d :: t, caps⟩ ≠ [] := by
  show repLoop (stepChar (fun d => (([ClassItem.space].any (ClassItem.test false d)) != false)))
    true ((c :: d :: t).length + 2 + 1) 2 none ⟨prev, c :: d :: t, caps⟩ ≠ []
  rw [show (fun d => (([ClassItem.space].any (ClassItem.test false d)) != false)) = isSpace from
    funext (spaceClass_test false)]
  have h1 : repLoop (stepChar isSpace) true ((c :: d :: t).length + 2 + 1) 2 none
      ⟨prev, c :: d :: t, caps⟩
      = repLoop (stepChar isSpace) true ((c :: d :: t).length + 2) 1 none ⟨some c, d :: t, caps⟩ := by
    rw [repLoop]
    simp [stepChar_cons, hc]
  rw [h1, repLoop_plus isSpace true caps (d :: t) _ (some c) (by simp), stepChar_cons, if_pos hd]
  simp only [List.flatMap_cons, List.flatMap_nil, List.append_nil]
  exact starStates_ne_nil _ _ _ _ _

theorem run_skillSplitRe (s : MState) :
    Re.run false skillSplitRe s =
      Re.run false (.char 44) s ++ (Re.run false (.atLeast 2 .s) s ++
        (Re.run false (.char 124) s ++ Re.run false (.char 59) s)) := rfl

theorem matchAt_skillSplit_none (prev : Option Nat) (c : Nat) (t : Str)
    (h : matchAt skillSplitRe false prev (c :: t) = none) :
    (c ≠ 44 ∧ c ≠ 124 ∧ c ≠ 59) ∧
    (isSpace c = true → ∀ d, t.head? = some d → isSpace d = false) := by
  unfold matchAt at h
  rw [List.head?_eq_none_iff, run_skillSplitRe] at h
  simp only [List.append_eq_nil] at h
  obtain ⟨h1, h2, h3, h4⟩ := h
  refine ⟨⟨?_, ?_, ?_⟩, ?_⟩
  · intro e
    subst e
    rw [run_char_false] at h1
    exact List.cons_ne_nil _ _ h1
  · intro e
    subst e
    rw [run_char_false] at h3
    exact List.cons_ne_nil _ _ h3
  · intro e
    subst e
    rw [run_char_false] at h4
    exact List.cons_ne_nil _ _ h4
  · intro hc d hd
    cases t with
    | nil => simp at hd
    | cons d' t' =>
      simp only [List.head?_cons, Option.some.injEq] at hd
      subst hd
      by_contra hsp
      exact run_atLeast_two_s prev c d' t' [] hc (by simpa using hsp) h2

theorem repLoop_min_step (ma : MState → List MState) (g : Bool) (f mn : Nat) (s s' : MState)
    (h : s' ∈ repLoop ma g (f + 1) (mn + 1) none s) :
    ∃ s1 ∈ ma s, s' ∈ repLoop ma g f mn none s1 := by
  rw [repLoop] at h
  simp only [reduceCtorEq, if_false, Nat.add_one_ne_zero, false_and, Nat.zero_lt_succ, if_true,
    Nat.add_sub_cancel, Option.map_none', List.mem_flatMap] at h
  exact h

theorem run_skillSplitRe_consumes (s s' : MState) (h : s' ∈ Re.run false skillSplitRe s) :
    s'.rest.length < s.rest.length := by
  have hchar : ∀ c, s' ∈ Re.run false (.char c) s → s'.rest.length < s.rest.length := by
    intro c hc
    obtain ⟨d, hd, _⟩ := stepChar_rest _ s s' hc
    rw [hd]
    simp
  rw [run_skillSplitRe] at h
  simp only [List.mem_append] at h
  rcases h with h | h | h | h
  · exact hchar _ h
  · change s' ∈ repLoop (fun s1 => Re.run false Re.s s1) true (s.rest.length + 2 + 1) 2 none s at h
    obtain ⟨s1, h1, h2⟩ := repLoop_min_step _ _ _ _ _ _ h
    obtain ⟨d, hd, _⟩ := stepChar_rest _ s s1 h1
    obtain ⟨pre, hpre⟩ := repLoop_suffix (fun s1 => Re.run false Re.s s1)
      (fun a b hab => by
        obtain ⟨d, hd, _⟩ := stepChar_rest _ a b hab
        exact ⟨[d], by rw [hd]; rfl⟩) true _ _ _ _ _ h2
    rw [hd, hpre]
    simp
    omega
  · exact hchar _ h
  · exact hchar _ h

theorem chain_reverse_sym (l : Str)
    (h : List.Chain' (fun a b => ¬ (isSpace a = true ∧ isSpace b = true)) l) :
    List.Chain' (fun a b => ¬ (isSpace a = true ∧ isSpace b = true)) l.reverse := by
  rw [List.chain'_reverse]
  exact h.imp (fun a b hab hc => hab ⟨hc.2, hc.1⟩)

theorem splitLoop_skill_pieces : ∀ (rest : Str) (skip : Nat) (cur : Str) (prev : Option Nat),
    (∀ x ∈ cur, x ≠ 44 ∧ x ≠ 124 ∧ x ≠ 59) →
    List.Chain' (fun a b => ¬ (isSpace a = true ∧ isSpace b = true)) cur →
    (∀ a b, cur.head? = some a → rest.head? = some b → isSpace a = true → isSpace b = false) →
    (0 < skip → cur = []) →
    ∀ piece ∈ splitLoop skillSplitRe false skip cur prev rest,
      (∀ x ∈ piece, x ≠ 44 ∧ x ≠ 124 ∧ x ≠ 59) ∧
      List.Chain' (fun a b => ¬ (isSpace a = true ∧ isSpace b = true)) piece := by
  intro rest
  induction rest with
  | nil =>
    intro skip cur prev hm hch _ _ piece hp
    have hp' : piece = cur.reverse := by
      cases skip <;> simpa [splitLoop] using hp
    rw [hp']
    exact ⟨fun x hx => hm x (List.mem_reverse.mp hx), chain_reverse_sym cur hch⟩
  | cons c t ih =>
    intro skip cur prev hm hch hnext hskip piece hp
    have hdone : ∀ x ∈ cur.reverse, x ≠ 44 ∧ x ≠ 124 ∧ x ≠ 59 :=
      fun x hx => hm x (List.mem_reverse.mp hx)
    cases skip with
    | succ k =>
      have hc : cur = [] := hskip (Nat.succ_pos k)
      subst hc
      rw [splitLoop] at hp
      exact ih k [] (some c) (fun x hx => absurd hx (List.not_mem_nil _)) List.chain'_nil
        (fun a b ha => by simp at ha) (fun _ => rfl) piece hp
    | zero =>
      rw [splitLoop] at hp
      cases hmatch : matchAt skillSplitRe false prev (c :: t) with
      | none =>
        rw [hmatch] at hp
        obtain ⟨hsep, hsp⟩ := matchAt_skillSplit_none prev c t hmatch
        refine ih 0 (c :: cur) (some c) ?_ ?_ ?_ (fun h => absurd h (Nat.lt_irrefl 0)) piece hp
        · intro x hx
          rcases List.mem_cons.mp hx with e | e
          · rw [e]; exact hsep
          · exact hm x e
        · rw [List.chain'_cons']
          refine ⟨fun y hy hc => ?_, hch⟩
          have hy' : cur.head? = some y := hy
          have := hnext y c hy' rfl hc.2
          rw [hc.1] at this
          exact Bool.noConfusion this
        · intro a b ha hb hsa
          simp only [List.head?_cons, Option.some.injEq] at ha
          subst ha
          exact hsp hsa b hb
      | some st =>
        rw [hmatch] at hp
        have hmem : st ∈ Re.run false skillSplitRe ⟨prev, c :: t, []⟩ := by
          unfold matchAt at hmatch
          exact List.mem_of_mem_head? hmatch
        have hlen := run_skillSplitRe_consumes _ _ hmem
        simp only [] at hp hlen
        rw [if_neg (by omega)] at hp
        rcases List.mem_cons.mp hp with e | e
        · rw [e]
          exact ⟨hdone, chain_reverse_sym cur hch⟩
        · exact ih _ [] (some c) (fun x hx => absurd hx (List.not_mem_nil _)) List.chain'_nil
            (fun a b ha => by simp at ha) (fun _ => rfl) piece e

theorem trim_contiguous (s : Str) : trim s <:+: s := by
  unfold trim
  have h1 : ((s.dropWhile isSpace).reverse.dropWhile isSpace).reverse <+: s.dropWhile isSpace := by
    rw [← List.reverse_suffix, List.reverse_reverse]
    exact List.dropWhile_suffix isSpace
  exact h1.isInfix.trans (List.dropWhile_suffix isSpace).isInfix

theorem lineItems_well_formed (line item : Str) (h : item ∈ lineItems line) :
    item ≠ [] ∧ trim item = item ∧ (∀ x ∈ item, x ≠ 44 ∧ x ≠ 124 ∧ x ≠ 59) ∧
    List.Chain' (fun a b => ¬ (isSpace a = true ∧ isSpace b = true)) item := by
  unfold lineItems at h
  obtain ⟨h1, h2⟩ := List.mem_filter.mp h
  obtain ⟨piece, hp, rfl⟩ := List.mem_map.mp h1
  have hpiece : (∀ x ∈ piece, x ≠ 44 ∧ x ≠ 124 ∧ x ≠ 59) ∧
      List.Chain' (fun a b => ¬ (isSpace a = true ∧ isSpace b = true)) piece := by
    unfold reSplit at hp
    split at hp
    · split at hp
      · exact absurd hp (List.not_mem_nil _)
      · rw [List.mem_singleton] at hp
        rw [hp]
        exact ⟨fun x hx => absurd hx (List.not_mem_nil _), List.chain'_nil⟩
    · exact splitLoop_skill_pieces _ 0 [] none (fun x hx => absurd hx (List.not_mem_nil _))
        List.chain'_nil (fun a b ha => by simp at ha) (fun h => absurd h (Nat.lt_irrefl 0))
        piece hp
  have hchain : List.Chain' (fun a b => ¬ (isSpace a = true ∧ isSpace b = true)) (trim piece) := by
    obtain ⟨s, t, e⟩ := trim_contiguous piece
    have h := hpiece.2
    rw [← e] at h
    exact h.left_of_append.right_of_append
  refine ⟨?_, trim_idem piece, fun x hx => hpiece.1 x (mem_trim piece x hx), hchain⟩
  intro hn
  rw [hn] at h2
  exact Bool.noConfusion h2

theorem parseSkills_items (P : Str → Prop) (hP : ∀ line, ∀ item ∈ lineItems line, P item)
    (buffer : List Str) : ∀ g ∈ parseSkills buffer, ∀ item ∈ g.items, P item := by
  have hsaved : ∀ acc : SkillAcc, (∀ g ∈ acc.categories, ∀ item ∈ g.items, P item) →
      (∀ item ∈ acc.currentItems, P item) → ∀ g ∈ acc.saved, ∀ item ∈ g.items, P item := by
    intro acc h1 h2 g hg
    unfold SkillAcc.saved at hg
    split at hg
    · rcases List.mem_append.mp hg with e | e
      · exact h1 g e
      · rw [List.mem_singleton] at e
        rw [e]
        exact h2
    · exact h1 g hg
  unfold parseSkills
  simp only []
  split
  · have hf : ∀ (ls : List Str) (acc : SkillAcc),
        (∀ g ∈ acc.categories, ∀ item ∈ g.items, P item) →
        (∀ item ∈ acc.currentItems, P item) →
        (∀ g ∈ (ls.foldl (skillStep (possibleCategories buffer)) acc).categories,
          ∀ item ∈ g.items, P item) ∧
        (∀ item ∈ (ls.foldl (skillStep (possibleCategories buffer)) acc).currentItems,
          P item) := by
      intro ls
      induction ls with
      | nil => intro acc h1 h2; exact ⟨h1, h2⟩
      | cons l rest ih =>
        intro acc h1 h2
        rw [List.foldl_cons]
        apply ih
        · unfold skillStep
          simp only []
          split
          · exact hsaved acc h1 h2
          · exact h1
        · unfold skillStep
          simp only []
          split
          · intro item hi
            exact absurd hi (List.not_mem_nil _)
          · intro item hi
            rcases List.mem_append.mp hi with e | e
            · exact h2 item e
            · exact hP _ item e
    obtain ⟨h1, h2⟩ := hf buffer ⟨[], [], []⟩ (fun g hg => absurd hg (List.not_mem_nil _))
      (fun i hi => absurd hi (List.not_mem_nil _))
    exact hsaved _ h1 h2
  · intro g hg item hi
    rw [List.mem_singleton] at hg
    rw [hg] at hi
    obtain ⟨l, _, hl⟩ := List.mem_flatMap.mp hi
    exact hP l item hl

/-- C38: for every skills buffer, in the categorised and in the flat branch, every item of
every returned group is non-empty, neither starts nor ends with a whitespace code unit,
contains no comma, pipe or semicolon, and contains no two adjacent whitespace code units. -/
theorem skills_items_well_formed (buffer : List Str) :
    ∀ g ∈ parseSkills buffer, ∀ item ∈ g.items,
      item ≠ [] ∧
      (∀ c, item.head? = some c → isSpace c = false) ∧
      (∀ c, item.getLast? = some c → isSpace c = false) ∧
      44 ∉ item ∧ 124 ∉ item ∧ 59 ∉ item ∧
      (∀ (pre : Str) (a b : Nat) (post : Str), item = pre ++ a :: b :: post →
        ¬ (isSpace a = true ∧ isSpace b = true)) := by
  refine parseSkills_items _ (fun line item hi => ?_) buffer
  obtain ⟨h1, h2, h3, h4⟩ := lineItems_well_formed line item hi
  refine ⟨h1, trim_head?_not_space item h2, trim_last_not_space item h2,
    fun hm => (h3 44 hm).1 rfl, fun hm => (h3 124 hm).2.1 rfl, fun hm => (h3 59 hm).2.2 rfl, ?_⟩
  intro pre a b post e
  rw [e] at h4
  have h5 := (List.chain'_split.mp h4).2
  exact (List.chain'_cons.mp h5).1

/-- C38 at the item "a b" of the flat buffer "Python, Go  Rust | C;D", "- a b,  ,c". -/
theorem skills_items_well_formed_witness :
    str "a b" ≠ [] ∧
    (∀ c, (str "a b").head? = some c → isSpace c = false) ∧
    (∀ c, (str "a b").getLast? = some c → isSpace c = false) ∧
    44 ∉ str "a b" ∧ 124 ∉ str "a b" ∧ 59 ∉ str "a b" ∧
    (∀ (pre : Str) (a b : Nat) (post : Str), str "a b" = pre ++ a :: b :: post →
      ¬ (isSpace a = true ∧ isSpace b = true)) :=
  skills_items_well_formed [str "Python, Go  Rust | C;D", str "- a b,  ,c"]
    ⟨str "Skills", [str "Python", str "Go", str "Rust", str "C", str "D", str "a b", str "c"]⟩
    (by decide!) (str "a b") (by decide!)

end Resume
